import Mathlib

/-!
Verification of the `runtpl` template-rendering engine (`src/engine.rs`,
`src/builtin_fns.rs`) against its natural-language specification.

Strings are modelled as `List Char` (`Str`).  The JSON-like dynamic value
type of `serde_json` is modelled by the inductive `Value`; `serde_json`
maps are modelled as association lists with first-match lookup and
replace-or-append insertion (key iteration order is irrelevant to every
property proved here, since the engine only ever looks maps up by key).

The three regular expressions of `engine.rs`

  RE_VAR     = \x7b\x7b\s*([a-zA-Z0-9_.]+)\s*\x7d\x7d
  RE_FOREACH = (?m)(^\s*)\x7b\x7bforeach\s+([a-zA-Z0-9_]+)\s+in\s+([a-zA-Z0-9_.]+)(?:\(([^)]*)\))?\s*\x7d\x7d\s*?\r?\n?
  RE_ENDFOR  = (?m)(^\s*)\x7b\x7bendfor\x7d\x7d\s*?\r?\n?

are modelled by deterministic matchers (`attemptVar`, `attemptForeach`,
`attemptEndfor`) that consume a suffix of the input.  For these particular
patterns the backtracking regex semantics is deterministic: every
character class used is disjoint from the character that must follow it,
so greedy maximal munch is the only possible parse; `\s*?\r?\n?` with
nothing after it always matches the empty string with `\s*?` and then
consumes an optional `\r` and an optional `\n`.  The multi-line anchor
`^` matches at offset 0 of the scanned string and after every `\n`;
searching a sub-slice (as `render_recursive` does) therefore treats the
slice start as a line start, while `find_at` keeps the full haystack's
line structure — both behaviours are modelled exactly as in the `regex`
crate.  `\s` is modelled by the ASCII whitespace characters (space, tab,
CR, LF, vertical tab, form feed); non-ASCII Unicode whitespace is outside
the modelled fragment (no property below depends on it).
-/

namespace Runtpl

/-- Strings of the Rust program, modelled as lists of characters. -/
abbrev Str := List Char

/-- The two curly-brace characters, used pervasively by the template syntax. -/
def lbrace : Char := Char.ofNat 123

/-- Closing curly brace. -/
def rbrace : Char := Char.ofNat 125

/-- `serde_json::Value`: the dynamically typed JSON tree.  Numbers are
modelled by integers (no claim exercises floating-point literals). -/
inductive Value where
  | null : Value
  | bool : Bool → Value
  | num : Int → Value
  | str : Str → Value
  | arr : List Value → Value
  | obj : List (Str × Value) → Value

/-- First-match association-list lookup (`serde_json::Map::get`). -/
def lookupKV {α : Type} : List (Str × α) → Str → Option α
  | [], _ => none
  | (k', v) :: t, k => if k' = k then some v else lookupKV t k

/-- Replace-or-append insertion (`serde_json::Map::insert`). -/
def insertKV {α : Type} : List (Str × α) → Str → α → List (Str × α)
  | [], k, v => [(k, v)]
  | (k', v') :: t, k, v => if k' = k then (k, v) :: t else (k', v') :: insertKV t k v

/-- Insert only when the key is absent (`Map::entry(..).or_insert(..)`). -/
def orInsertKV {α : Type} (m : List (Str × α)) (k : Str) (v : α) : List (Str × α) :=
  match lookupKV m k with
  | some _ => m
  | none => m ++ [(k, v)]

/-- `str::split('.')` of Rust: splitting on dots, keeping empty segments,
and producing one (empty) segment for the empty string. -/
def splitDot : Str → List Str
  | [] => [[]]
  | c :: cs =>
    if c = '.' then [] :: splitDot cs
    else
      match splitDot cs with
      | h :: t => (c :: h) :: t
      | [] => [[c]]

/-- `resolve_path` (engine.rs:38): walk the dotted path through nested
objects; `Value::get(&str)` returns a field of an object and `None` on
any other variant. -/
def resolveSegs : Value → List Str → Option Value
  | v, [] => some v
  | Value.obj flds, k :: ks =>
    match lookupKV flds k with
    | some v => resolveSegs v ks
    | none => none
  | _, _ :: _ => none

/-- `resolve_path(context, path)` from engine.rs. -/
def resolvePath (ctx : Value) (path : Str) : Option Value :=
  resolveSegs ctx (splitDot path)

/-- One hexadecimal digit (lower case), for JSON control-character escapes. -/
def hexDigit (n : Nat) : Char :=
  if n < 10 then Char.ofNat (48 + n) else Char.ofNat (87 + n)

/-- JSON string-character escaping as performed by `serde_json`'s
serializer: `"` and `\` get a backslash, the common control characters
get their short escapes, remaining control characters use `\u00XX`. -/
def escChar (c : Char) : Str :=
  if c = '"' then ['\\', '"']
  else if c = '\\' then ['\\', '\\']
  else if c = '\n' then ['\\', 'n']
  else if c = '\r' then ['\\', 'r']
  else if c = '\t' then ['\\', 't']
  else if c = Char.ofNat 8 then ['\\', 'b']
  else if c = Char.ofNat 12 then ['\\', 'f']
  else if c.toNat < 32 then
    ['\\', 'u', '0', '0', hexDigit (c.toNat / 16), hexDigit (c.toNat % 16)]
  else [c]

/-- Serialize a string to a quoted JSON string literal. -/
def jsonQuote (s : Str) : Str :=
  '"' :: (s.map escChar).flatten ++ ['"']

/-- Comma-join a list of already serialized pieces. -/
def joinComma : List Str → Str
  | [] => []
  | [x] => x
  | x :: xs => x ++ ',' :: joinComma xs

/-- Compact JSON serialization, `serde_json::Value::to_string`.  Object
fields are printed in the association list's order (the engine never
compares serialized objects, so ordering is irrelevant to the claims). -/
def toJson : Value → Str
  | Value.null => "null".toList
  | Value.bool true => "true".toList
  | Value.bool false => "false".toList
  | Value.num n => (toString n).toList
  | Value.str s => jsonQuote s
  | Value.arr xs => '[' :: joinComma (xs.attach.map fun x => toJson x.1) ++ [']']
  | Value.obj fs =>
    lbrace :: joinComma (fs.attach.map fun kv => jsonQuote kv.1.1 ++ ':' :: toJson kv.1.2)
      ++ [rbrace]
decreasing_by
  · have := List.sizeOf_lt_of_mem x.2
    simp only [Value.arr.sizeOf_spec] at *
    omega
  · have h1 := List.sizeOf_lt_of_mem kv.2
    obtain ⟨⟨a, b⟩, hm⟩ := kv
    simp only [Value.obj.sizeOf_spec, Prod.mk.sizeOf_spec] at *
    omega

/-- `value_to_string` (engine.rs:46): strings are rendered raw, everything
else through the JSON serializer. -/
def valueToStr (v : Value) : Str :=
  match v with
  | Value.str s => s
  | _ => toJson v

/-! ### Generic string scanning helpers -/

/-- Consume an exact literal prefix, returning the remaining suffix
(`str::strip_prefix`, and the literal parts of the regexes). -/
def eatStr : Str → Str → Option Str
  | [], s => some s
  | _, [] => none
  | p :: ps, c :: cs => if c = p then eatStr ps cs else none

/-- Greedy maximal run of characters satisfying `p`: returns the run and
the remaining suffix. -/
def spanP (p : Char → Bool) : Str → Str × Str
  | [] => ([], [])
  | c :: cs =>
    if p c then
      let r := spanP p cs
      (c :: r.1, r.2)
    else ([], c :: cs)

/-- Characters up to (excluding) the first occurrence of `stop`, plus the
suffix after it; `none` when `stop` does not occur (the `([^)]*)\)` group). -/
def spanTo (stop : Char) : Str → Option (Str × Str)
  | [] => none
  | c :: cs =>
    if c = stop then some ([], cs)
    else
      match spanTo stop cs with
      | some (a, r) => some (c :: a, r)
      | none => none

/-- `str::contains(pattern)`: substring occurrence test. -/
def occursIn (pat : Str) : Str → Bool
  | [] => pat.isEmpty
  | c :: cs => (eatStr pat (c :: cs)).isSome || occursIn pat cs

/-- `str::split(ch)` of Rust (empty segments kept, `[""]` for `""`). -/
def splitChar (sep : Char) : Str → List Str
  | [] => [[]]
  | c :: cs =>
    if c = sep then [] :: splitChar sep cs
    else
      match splitChar sep cs with
      | h :: t => (c :: h) :: t
      | [] => [[c]]

/-- The whitespace class of the regex `\s` and of `str::trim`
(ASCII fragment: space, tab, LF, VT, FF, CR). -/
def isWs (c : Char) : Bool :=
  c.toNat = 32 || c.toNat = 9 || c.toNat = 10 || c.toNat = 13 || c.toNat = 11 || c.toNat = 12

/-- The regex class `[a-zA-Z0-9_]` (loop item names). -/
def isWordChar (c : Char) : Bool :=
  (97 ≤ c.toNat && c.toNat ≤ 122) || (65 ≤ c.toNat && c.toNat ≤ 90) ||
    (48 ≤ c.toNat && c.toNat ≤ 57) || c.toNat = 95

/-- The regex class `[a-zA-Z0-9_.]` (variable paths and loop sources). -/
def isPathChar (c : Char) : Bool :=
  isWordChar c || c.toNat = 46

/-- `str::trim`: drop whitespace from both ends. -/
def trimStr (s : Str) : Str :=
  ((s.dropWhile isWs).reverse.dropWhile isWs).reverse

/-! ### Length lemmas for the scanners (used for recursion measures) -/

theorem eatStr_length {p s r : Str} (h : eatStr p s = some r) :
    r.length + p.length = s.length := by
  induction p generalizing s with
  | nil => simp [eatStr] at h; simp [h]
  | cons a ps ih =>
    cases s with
    | nil => simp [eatStr] at h
    | cons c cs =>
      simp only [eatStr] at h
      split at h
      · have := ih h
        simp [List.length_cons]
        omega
      · exact absurd h (by simp)

theorem spanP_append (p : Char → Bool) (s : Str) :
    (spanP p s).1 ++ (spanP p s).2 = s := by
  induction s with
  | nil => simp [spanP]
  | cons c cs ih =>
    simp only [spanP]
    split
    · simpa using ih
    · simp

theorem spanP_length (p : Char → Bool) (s : Str) :
    (spanP p s).1.length + (spanP p s).2.length = s.length := by
  have := congrArg List.length (spanP_append p s)
  simpa using this

theorem spanTo_length {stop : Char} {s a r : Str} (h : spanTo stop s = some (a, r)) :
    a.length + r.length + 1 = s.length := by
  induction s generalizing a with
  | nil => simp [spanTo] at h
  | cons c cs ih =>
    simp only [spanTo] at h
    split at h
    · cases h; simp
    · cases hrec : spanTo stop cs with
      | none => rw [hrec] at h; exact absurd h (by simp)
      | some pr =>
        obtain ⟨a', r'⟩ := pr
        rw [hrec] at h
        cases h
        have := ih hrec
        simp [List.length_cons]
        omega

/-! ### JSON literal parsing (`serde_json::from_str`, used by `resolve_arg_value`)

The parser follows the JSON grammar accepted by `serde_json`: optional
surrounding whitespace, `null`/`true`/`false`, strings with the standard
escapes, arrays, objects with string keys (duplicate keys: last wins),
and integer numbers.  Fractional/exponent number literals are outside the
modelled fragment (they are rejected here; no claim exercises them).
Recursion is bounded by a fuel initialised to the input length plus two,
which dominates the recursion depth because every recursive call is
preceded by the consumption of at least one input character (`serde_json`
itself imposes a fixed nesting limit instead). -/

/-- JSON structural whitespace. -/
def isJsonWs (c : Char) : Bool :=
  c = ' ' || c = '\t' || c = '\n' || c = '\r'

/-- Skip JSON structural whitespace. -/
def jsonSkipWs (s : Str) : Str := s.dropWhile isJsonWs

/-- Value of a hexadecimal digit. -/
def hexVal (c : Char) : Option Nat :=
  if '0' ≤ c ∧ c ≤ '9' then some (c.toNat - 48)
  else if 'a' ≤ c ∧ c ≤ 'f' then some (c.toNat - 87)
  else if 'A' ≤ c ∧ c ≤ 'F' then some (c.toNat - 55)
  else none

/-- Parse the body of a JSON string (after the opening quote), returning
the decoded characters and the suffix after the closing quote.  The fuel
(callers pass the input length plus one) dominates the number of steps,
each of which consumes at least one character. -/
def jsonStrAux : Nat → Str → Option (Str × Str)
  | 0, _ => none
  | _, [] => none
  | fuel + 1, c :: cs =>
    if c = '"' then some ([], cs)
    else if c = '\\' then
      match cs with
      | [] => none
      | e :: cs2 =>
        if e = '"' ∨ e = '\\' ∨ e = '/' then
          (jsonStrAux fuel cs2).map fun pr => (e :: pr.1, pr.2)
        else if e = 'n' then (jsonStrAux fuel cs2).map fun pr => ('\n' :: pr.1, pr.2)
        else if e = 't' then (jsonStrAux fuel cs2).map fun pr => ('\t' :: pr.1, pr.2)
        else if e = 'r' then (jsonStrAux fuel cs2).map fun pr => ('\r' :: pr.1, pr.2)
        else if e = 'b' then (jsonStrAux fuel cs2).map fun pr => (Char.ofNat 8 :: pr.1, pr.2)
        else if e = 'f' then (jsonStrAux fuel cs2).map fun pr => (Char.ofNat 12 :: pr.1, pr.2)
        else if e = 'u' then
          match cs2 with
          | h1 :: h2 :: h3 :: h4 :: cs3 =>
            match hexVal h1, hexVal h2, hexVal h3, hexVal h4 with
            | some a, some b, some c', some d =>
              (jsonStrAux fuel cs3).map fun pr =>
                (Char.ofNat (((a * 16 + b) * 16 + c') * 16 + d) :: pr.1, pr.2)
            | _, _, _, _ => none
          | _ => none
        else none
    else if c.toNat < 32 then none
    else (jsonStrAux fuel cs).map fun pr => (c :: pr.1, pr.2)

/-- Numeric value of a digit run. -/
def digitsVal (ds : Str) : Nat :=
  ds.foldl (fun a c => a * 10 + (c.toNat - 48)) 0

/-- Parse a JSON integer literal (sign, no leading zeros); a following
`.`/`e`/`E` (a float literal) is outside the modelled fragment. -/
def jsonNumAux (s : Str) : Option (Int × Str) :=
  let signed : Bool × Str :=
    match s with
    | '-' :: t => (true, t)
    | _ => (false, s)
  match signed.2 with
  | [] => none
  | c :: cs =>
    if ¬c.isDigit then none
    else if c = '0' ∧ (cs.head?.map Char.isDigit).getD false then none
    else
      let pr := spanP Char.isDigit (c :: cs)
      match pr.2 with
      | d :: _ =>
        if d = '.' ∨ d = 'e' ∨ d = 'E' then none
        else some (if signed.1 then -(digitsVal pr.1 : Int) else (digitsVal pr.1 : Int), pr.2)
      | [] => some (if signed.1 then -(digitsVal pr.1 : Int) else (digitsVal pr.1 : Int), pr.2)

mutual

/-- Parse one JSON value (after skipping leading whitespace). -/
def jsonVal : Nat → Str → Option (Value × Str)
  | 0, _ => none
  | fuel + 1, s =>
    match jsonSkipWs s with
    | [] => none
    | c :: cs =>
      if c = 'n' then (eatStr ("ull".toList) cs).map fun r => (Value.null, r)
      else if c = 't' then (eatStr ("rue".toList) cs).map fun r => (Value.bool true, r)
      else if c = 'f' then (eatStr ("alse".toList) cs).map fun r => (Value.bool false, r)
      else if c = '"' then (jsonStrAux (cs.length + 1) cs).map fun pr => (Value.str pr.1, pr.2)
      else if c = '[' then
        match jsonSkipWs cs with
        | ']' :: r => some (Value.arr [], r)
        | _ => jsonArrItems fuel cs []
      else if c = lbrace then
        match jsonSkipWs cs with
        | d :: r => if d = rbrace then some (Value.obj [], r) else jsonObjItems fuel cs []
        | [] => none
      else if c = '-' ∨ c.isDigit then (jsonNumAux (c :: cs)).map fun pr => (Value.num pr.1, pr.2)
      else none

/-- Parse the elements of a JSON array (after `[`). -/
def jsonArrItems : Nat → Str → List Value → Option (Value × Str)
  | 0, _, _ => none
  | fuel + 1, s, acc =>
    match jsonVal fuel s with
    | none => none
    | some (v, r) =>
      match jsonSkipWs r with
      | ',' :: r2 => jsonArrItems fuel r2 (acc ++ [v])
      | ']' :: r2 => some (Value.arr (acc ++ [v]), r2)
      | _ => none

/-- Parse the members of a JSON object (after the opening brace). -/
def jsonObjItems : Nat → Str → List (Str × Value) → Option (Value × Str)
  | 0, _, _ => none
  | fuel + 1, s, acc =>
    match jsonSkipWs s with
    | '"' :: r =>
      match jsonStrAux (r.length + 1) r with
      | none => none
      | some (k, r2) =>
        match jsonSkipWs r2 with
        | ':' :: r3 =>
          match jsonVal fuel r3 with
          | none => none
          | some (v, r4) =>
            match jsonSkipWs r4 with
            | ',' :: r5 => jsonObjItems fuel r5 (insertKV acc k v)
            | d :: r5 => if d = rbrace then some (Value.obj (insertKV acc k v), r5) else none
            | [] => none
        | _ => none
    | _ => none

end

/-- `serde_json::from_str`: a complete JSON value with only whitespace
allowed after it. -/
def fromStrJson (s : Str) : Option Value :=
  match jsonVal (s.length + 2) s with
  | some (v, r) => if (jsonSkipWs r).isEmpty then some v else none
  | none => none

/-! ### Function-call argument parsing (engine.rs:55–125) -/

/-- `resolve_arg_value` (engine.rs:55): first try the value text as a JSON
literal, then as a dotted context path, else fail with the exact message. -/
def resolveArgValue (valStr : Str) (ctx : Value) : Except Str Value :=
  let t := trimStr valStr
  match fromStrJson t with
  | some v => Except.ok v
  | none =>
    match resolvePath ctx t with
    | some v => Except.ok v
    | none =>
      Except.error
        ("Argument value '".toList ++ t ++
          "' is not a valid JSON literal nor a known variable.".toList)

/-- The comma-splitting state machine of `parse_function_args`
(engine.rs:80–107): a single pass with a bracket-depth counter and an
in-quotes toggle; only a top-level comma separates parts, each part is
trimmed when pushed, and an all-whitespace final part is discarded. -/
def splitArgsAux : Str → Str → Int → Bool → List Str → List Str
  | [], cur, _, _, acc =>
    if (trimStr cur).isEmpty then acc else acc ++ [trimStr cur]
  | c :: cs, cur, lvl, inq, acc =>
    if c = '"' then splitArgsAux cs (cur ++ [c]) lvl (!inq) acc
    else if (c = '[' ∨ c = lbrace) ∧ inq = false then
      splitArgsAux cs (cur ++ [c]) (lvl + 1) inq acc
    else if (c = ']' ∨ c = rbrace) ∧ inq = false then
      splitArgsAux cs (cur ++ [c]) (lvl - 1) inq acc
    else if c = ',' ∧ inq = false ∧ lvl = 0 then
      splitArgsAux cs [] lvl inq (acc ++ [trimStr cur])
    else splitArgsAux cs (cur ++ [c]) lvl inq acc

/-- `str::splitn(2, ':')`: the text before the first `:`, and (when a `:`
exists) the text after it. -/
def splitColon : Str → Str × Option Str
  | [] => ([], none)
  | c :: cs =>
    if c = ':' then ([], some cs)
    else
      let pr := splitColon cs
      (c :: pr.1, pr.2)

/-- Process the split parts of `parse_function_args` (engine.rs:109–123). -/
def parseArgsParts (ctx : Value) : List Str → List (Str × Value) →
    Except Str (List (Str × Value))
  | [], m => Except.ok m
  | part :: rest, m =>
    let pr := splitColon part
    let key := trimStr pr.1
    match pr.2 with
    | none =>
      Except.error ("Argument '".toList ++ key ++ "' is missing a value".toList)
    | some vs =>
      match resolveArgValue (trimStr vs) ctx with
      | Except.error e => Except.error e
      | Except.ok v => parseArgsParts ctx rest (insertKV m key v)

/-- `parse_function_args` (engine.rs:73). -/
def parseFunctionArgs (argsStr : Str) (ctx : Value) : Except Str (List (Str × Value)) :=
  if (trimStr argsStr).isEmpty then Except.ok []
  else parseArgsParts ctx (splitArgsAux argsStr [] 0 false []) []

/-! ### The `files` builtin (builtin_fns.rs)

The `WalkDir` filesystem traversal is operating-system I/O; it is
modelled by an oracle `FS` mapping a recursion flag and a source path to
the file records the walk would yield (directories and unreadable files
already skipped, as builtin_fns.rs does with logged warnings).  Argument
validation (builtin_fns.rs:16–53) is translated literally and happens
before the oracle is consulted, exactly as in the source. -/

/-- One file record produced by the traversal. -/
structure FileRec where
  name : Str
  relPath : Str
  absPath : Str
  content : Str

/-- The filesystem oracle: recursion flag and source path to walk results. -/
abbrev FS := Bool → Str → List FileRec

/-- The validated arguments of `files`. -/
structure FilesArgs where
  sources : List Str
  recursive : Bool
  excludeNames : List Str
  excludePaths : List Str

/-- `filter_map(|v| v.as_str())` over a JSON array: keep only strings. -/
def strsOf (vs : List Value) : List Str :=
  vs.filterMap fun v =>
    match v with
    | Value.str s => some s
    | _ => none

/-- The error text for a missing or mistyped `source` argument
(builtin_fns.rs:26–28). -/
def filesMsgSource : Str :=
  "'files' function requires a 'source' argument. It must be a comma-separated string (e.g., \"./src\") or an array of strings (e.g., [\"./src\", \"./tests\"])".toList

/-- The error text for a non-boolean `recursive` argument
(builtin_fns.rs:34). -/
def filesMsgRecursive : Str :=
  "'recursive' argument must be a boolean (true or false)".toList

/-- The error text for a mistyped `exclude_names` argument
(builtin_fns.rs:43). -/
def filesMsgExcludeNames : Str :=
  "'exclude_names' argument must be an array of strings".toList

/-- The error text for a mistyped `exclude_paths` argument
(builtin_fns.rs:52). -/
def filesMsgExcludePaths : Str :=
  "'exclude_paths' argument must be an array of strings".toList

/-- Argument validation of `files` (builtin_fns.rs:16–53), in source
order: `source` (required string or array), `recursive` (boolean,
defaults to true), `exclude_names`, `exclude_paths` (string arrays,
default empty). -/
def filesValidate (args : List (Str × Value)) : Except Value FilesArgs :=
  match
    (match lookupKV args ("source".toList) with
      | some (Value.arr vs) => Except.ok (strsOf vs)
      | some (Value.str s) =>
        Except.ok (((splitChar ',' s).map trimStr).filter fun x => ¬x.isEmpty)
      | _ => Except.error (Value.str filesMsgSource)) with
  | Except.error e => Except.error e
  | Except.ok sources =>
    match
      (match lookupKV args ("recursive".toList) with
        | some (Value.bool b) => Except.ok b
        | none => Except.ok true
        | some _ => Except.error (Value.str filesMsgRecursive)) with
    | Except.error e => Except.error e
    | Except.ok recursive =>
      match
        (match lookupKV args ("exclude_names".toList) with
          | some (Value.arr vs) => Except.ok (strsOf vs)
          | none => Except.ok []
          | some _ => Except.error (Value.str filesMsgExcludeNames)) with
      | Except.error e => Except.error e
      | Except.ok excludeNames =>
        match
          (match lookupKV args ("exclude_paths".toList) with
            | some (Value.arr vs) => Except.ok (strsOf vs)
            | none => Except.ok []
            | some _ => Except.error (Value.str filesMsgExcludePaths)) with
        | Except.error e => Except.error e
        | Except.ok excludePaths =>
          Except.ok ⟨sources, recursive, excludeNames, excludePaths⟩

/-- The traversal loop of `files` (builtin_fns.rs:55–124) over the
oracle's walk results: apply the exact-name and substring-path exclusion
filters and build the result records in source field order. -/
def filesRun (fs : FS) (fa : FilesArgs) : List Value :=
  ((fa.sources.map fun p => fs fa.recursive p).flatten).filterMap fun f =>
    if fa.excludeNames.any fun n => n = f.name then none
    else if fa.excludePaths.any fun e => occursIn e f.relPath then none
    else
      some (Value.obj
        [("name".toList, Value.str f.name),
         ("path".toList, Value.str f.relPath),
         ("absolute_path".toList, Value.str f.absPath),
         ("content".toList, Value.str f.content)])

/-- The `files` builtin: validate, then traverse. -/
def files (fs : FS) (args : List (Str × Value)) : Except Value Value :=
  match filesValidate args with
  | Except.error e => Except.error e
  | Except.ok fa => Except.ok (Value.arr (filesRun fs fa))

/-- The builtin-function registry `BUILTIN_FNS` (engine.rs:22–27): it
contains exactly the binding for `files`. -/
def builtinFns : List (Str × (FS → List (Str × Value) → Except Value Value)) :=
  [("files".toList, files)]

/-! ### The pattern matchers (RE_VAR, RE_FOREACH, RE_ENDFOR) -/

/-- The literal `\x7b\x7bforeach` opening a loop tag. -/
def foreachLit : Str := "\x7b\x7bforeach".toList

/-- The literal `\x7b\x7bendfor\x7d\x7d`. -/
def endforLit : Str := "\x7b\x7bendfor\x7d\x7d".toList

/-- The literal `\x7b\x7b`. -/
def openBB : Str := "\x7b\x7b".toList

/-- The literal `\x7d\x7d`. -/
def closeBB : Str := "\x7d\x7d".toList

/-- Consume an optional `\r`. -/
def dropCR (s : Str) : Str :=
  if s.head? = some '\r' then s.tail else s

/-- The trailing `\s*?\r?\n?` of both tag regexes: the lazy `\s*?` (with
nothing after it that could force backtracking) always matches empty, so
only an optional `\r` and an optional `\n` are consumed.  Returns the
suffix and whether a `\n` was consumed (making what follows a line
start). -/
def tailNL (s : Str) : Str × Bool :=
  if (dropCR s).head? = some '\n' then ((dropCR s).tail, true) else (dropCR s, false)

theorem dropCR_le (s : Str) : (dropCR s).length ≤ s.length := by
  unfold dropCR
  split
  · simp [List.length_tail]
  · simp

theorem tailNL_le (s : Str) : (tailNL s).1.length ≤ s.length := by
  unfold tailNL
  have h := dropCR_le s
  split
  · simp [List.length_tail]
    omega
  · simpa using h

/-- Result of matching RE_FOREACH at a position: captured item name,
source path, optional function-argument text, total matched length
(including the leading `^\s*` group and an optionally consumed trailing
`\r`/`\n`), and whether the final consumed character was `\n`. -/
structure FA where
  item : Str
  src : Str
  fnArgs : Option Str
  len : Nat
  nl : Bool

/-- Intermediate matcher result carrying the unconsumed suffix. -/
structure FACore where
  item : Str
  src : Str
  fnArgs : Option Str
  rest : Str
  nl : Bool

/-- The segment `\s+([a-zA-Z0-9_]+)\s+in\s+` of RE_FOREACH (after the
`\x7b\x7bforeach` literal): returns the item capture and the suffix after
the whitespace following `in`.  Each character class here is disjoint
from the token that must follow it, so maximal munch is the unique
parse. -/
def foreachHead (s : Str) : Option (Str × Str) :=
  if (spanP isWs s).1.isEmpty then none
  else if (spanP isWordChar (spanP isWs s).2).1.isEmpty then none
  else if (spanP isWs (spanP isWordChar (spanP isWs s).2).2).1.isEmpty then none
  else
    match eatStr ("in".toList) (spanP isWs (spanP isWordChar (spanP isWs s).2).2).2 with
    | none => none
    | some s6 =>
      if (spanP isWs s6).1.isEmpty then none
      else some ((spanP isWordChar (spanP isWs s).2).1, (spanP isWs s6).2)

/-- The segment `([a-zA-Z0-9_.]+)(?:\(([^)]*)\))?` of RE_FOREACH: the
source capture and, when an opening parenthesis immediately follows, the
argument text up to the first closing parenthesis (`[^)]*` cannot pass
one; if none exists the optional group cannot match and, since `(` is
neither whitespace nor `\x7d`, the whole attempt fails). -/
def foreachSrcArgs (s : Str) : Option (Str × Option Str × Str) :=
  if (spanP isPathChar s).1.isEmpty then none
  else
    match (spanP isPathChar s).2 with
    | '(' :: s9 =>
      (match spanTo ')' s9 with
        | none => none
        | some (a, s10) => some ((spanP isPathChar s).1, some a, s10))
    | _ => some ((spanP isPathChar s).1, none, (spanP isPathChar s).2)

/-- The tail `\s*\x7d\x7d\s*?\r?\n?` of RE_FOREACH. -/
def foreachTail (s : Str) : Option (Str × Bool) :=
  match eatStr closeBB (spanP isWs s).2 with
  | none => none
  | some r2 => some (tailNL r2)

/-- Attempt RE_FOREACH at the start of `s` (the caller guarantees the
position is a line start): leading `^\s*` group, then head, source/args,
tail. -/
def attemptForeachCore (s : Str) : Option FACore :=
  match eatStr foreachLit (spanP isWs s).2 with
  | none => none
  | some s2 =>
    match foreachHead s2 with
    | none => none
    | some (it, s7) =>
      match foreachSrcArgs s7 with
      | none => none
      | some (src, a, s10) =>
        match foreachTail s10 with
        | none => none
        | some (r, nl) => some ⟨it, src, a, r, nl⟩

/-- Attempt RE_FOREACH, reporting the matched length. -/
def attemptForeach (s : Str) : Option FA :=
  (attemptForeachCore s).map fun c => ⟨c.item, c.src, c.fnArgs, s.length - c.rest.length, c.nl⟩

/-- Attempt RE_ENDFOR at the start of `s` (a line start): the `^\s*`
group, the literal, then optional `\r` and `\n`.  Returns the matched
length and whether `\n` was consumed. -/
def attemptEndfor (s : Str) : Option (Nat × Bool) :=
  match eatStr endforLit (spanP isWs s).2 with
  | none => none
  | some r2 => some (s.length - (tailNL r2).1.length, (tailNL r2).2)

/-- Attempt RE_VAR at the start of `s` (no anchor): `\x7b\x7b`, optional
whitespace, a nonempty path capture, optional whitespace, `\x7d\x7d`.
Returns the captured path and the suffix after the match. -/
def attemptVar (s : Str) : Option (Str × Str) :=
  match eatStr openBB s with
  | none => none
  | some s1 =>
    if (spanP isPathChar (spanP isWs s1).2).1.isEmpty then none
    else
      match eatStr closeBB (spanP isWs (spanP isPathChar (spanP isWs s1).2).2).2 with
      | none => none
      | some r => some ((spanP isPathChar (spanP isWs s1).2).1, r)

theorem foreachHead_le {s it r : Str} (h : foreachHead s = some (it, r)) :
    r.length ≤ s.length := by
  unfold foreachHead at h
  split at h; · exact Option.noConfusion h
  split at h; · exact Option.noConfusion h
  split at h; · exact Option.noConfusion h
  split at h
  · exact Option.noConfusion h
  · rename_i s6 hin
    split at h; · exact Option.noConfusion h
    cases h
    have h1 := spanP_length isWs s
    have h2 := spanP_length isWordChar (spanP isWs s).2
    have h3 := spanP_length isWs (spanP isWordChar (spanP isWs s).2).2
    have h4 := eatStr_length hin
    have h5 := spanP_length isWs s6
    omega

theorem foreachSrcArgs_le {s src r : Str} {a : Option Str}
    (h : foreachSrcArgs s = some (src, a, r)) : r.length ≤ s.length := by
  unfold foreachSrcArgs at h
  split at h; · exact Option.noConfusion h
  have hsp := spanP_length isPathChar s
  split at h
  · rename_i s9 heq
    split at h
    · exact Option.noConfusion h
    · rename_i a' s10 hto
      cases h
      have h1 := spanTo_length hto
      have h2 := congrArg List.length heq
      simp at h2
      omega
  · cases h
    omega

theorem foreachTail_le' {s r : Str} {b : Bool} (h : foreachTail s = some (r, b)) :
    r.length ≤ s.length := by
  unfold foreachTail at h
  split at h; · exact Option.noConfusion h
  rename_i r2 he
  injection h with h0
  have hr : (tailNL r2).1 = r := by rw [h0]
  have h1 := eatStr_length he
  have h2 := spanP_length isWs s
  have h3 := tailNL_le r2
  rw [hr] at h3
  omega

theorem attemptForeachCore_rest_lt {s : Str} {c : FACore}
    (h : attemptForeachCore s = some c) : c.rest.length < s.length := by
  unfold attemptForeachCore at h
  split at h; · exact Option.noConfusion h
  rename_i s2 he
  have hs2 : s2.length + 9 ≤ s.length := by
    have h1 := eatStr_length he
    have h2 := spanP_length isWs s
    have h3 : foreachLit.length = 9 := by decide
    omega
  split at h; · exact Option.noConfusion h
  rename_i it s7 hh
  split at h; · exact Option.noConfusion h
  rename_i src a s10 hsa
  split at h; · exact Option.noConfusion h
  rename_i r nl ht
  cases h
  have h1 := foreachHead_le hh
  have h2 := foreachSrcArgs_le hsa
  have h3 := foreachTail_le' ht
  simp only []
  omega

theorem attemptForeach_len {s : Str} {fa : FA} (h : attemptForeach s = some fa) :
    0 < fa.len ∧ fa.len ≤ s.length := by
  unfold attemptForeach at h
  cases hc : attemptForeachCore s with
  | none => rw [hc] at h; exact Option.noConfusion h
  | some c =>
    rw [hc] at h
    injection h with h0
    cases h0
    have := attemptForeachCore_rest_lt hc
    constructor
    · show 0 < s.length - c.rest.length
      omega
    · show s.length - c.rest.length ≤ s.length
      omega

theorem attemptEndfor_len {s : Str} {n : Nat} {b : Bool}
    (h : attemptEndfor s = some (n, b)) : 0 < n ∧ n ≤ s.length := by
  unfold attemptEndfor at h
  split at h; · exact Option.noConfusion h
  rename_i r2 he
  simp only [Option.some.injEq, Prod.mk.injEq] at h
  obtain ⟨h6, h7⟩ := h
  have h1 : r2.length + 10 ≤ s.length := by
    have h2 := eatStr_length he
    have h3 := spanP_length isWs s
    have h4 : endforLit.length = 10 := by decide
    omega
  have h5 := tailNL_le r2
  omega

theorem attemptVar_rest_lt {s p r : Str} (h : attemptVar s = some (p, r)) :
    r.length < s.length := by
  unfold attemptVar at h
  split at h; · exact Option.noConfusion h
  rename_i s1 he
  have hs1 : s1.length + 2 ≤ s.length := by
    have h1 := eatStr_length he
    have h2 : openBB.length = 2 := by decide
    omega
  split at h; · exact Option.noConfusion h
  split at h; · exact Option.noConfusion h
  rename_i r' he2
  cases h
  have h1 := eatStr_length he2
  have h2 := spanP_length isWs s1
  have h3 := spanP_length isPathChar (spanP isWs s1).2
  have h4 := spanP_length isWs (spanP isPathChar (spanP isWs s1).2).2
  omega

/-! ### Searching: `find`, `find_iter`, `find_at`

A multi-line anchored pattern can only match starting at a line start
(offset 0 of the searched string, or just after a `\n`).  The searchers
walk the string tracking line-start state; `find_iter` resumes after each
match (the state being whether the match consumed a final `\n`), and
`find_at` — which the engine calls on the *full* template — only admits
matches starting at or after the given offset while keeping the full
string's line structure. -/

/-- A RE_FOREACH match: absolute span and captured parts.  (The engine
re-runs `captures` on the matched text, engine.rs:335; for the
deterministic patterns modelled here this yields the same captures, so
the parts are carried directly.) -/
structure FM where
  start : Nat
  stop : Nat
  item : Str
  src : Str
  fnArgs : Option Str

/-- A RE_ENDFOR match: absolute span. -/
structure EM where
  start : Nat
  stop : Nat

/-- `RE_FOREACH.find_iter`, with `ls` the line-start state of the current
position and `pos` its absolute offset.  After a match of length `L`, the
search resumes at the match end (matches never overlap); this is realised
by walking the remaining `L - 1` matched characters with a `skip` counter
during which no attempt is made, which also keeps the line-start state
exact (the position after the match is a line start precisely when the
last matched character is `\n`). -/
def findIterFAux : Str → Bool → Nat → Nat → List FM
  | [], _, _, _ => []
  | c :: cs, _, pos, skip + 1 => findIterFAux cs (c = '\n') (pos + 1) skip
  | c :: cs, ls, pos, 0 =>
    if ls then
      match attemptForeach (c :: cs) with
      | some fa =>
        ⟨pos, pos + fa.len, fa.item, fa.src, fa.fnArgs⟩ ::
          findIterFAux cs (c = '\n') (pos + 1) (fa.len - 1)
      | none => findIterFAux cs (c = '\n') (pos + 1) 0
    else findIterFAux cs (c = '\n') (pos + 1) 0

/-- `RE_FOREACH.find`: the first match. -/
def findF (t : Str) : Option FM :=
  (findIterFAux t true 0 0).head?

/-- `RE_ENDFOR.find_iter` (same skip-counter scheme). -/
def findIterEAux : Str → Bool → Nat → Nat → List EM
  | [], _, _, _ => []
  | c :: cs, _, pos, skip + 1 => findIterEAux cs (c = '\n') (pos + 1) skip
  | c :: cs, ls, pos, 0 =>
    if ls then
      match attemptEndfor (c :: cs) with
      | some (len, _) =>
        ⟨pos, pos + len⟩ :: findIterEAux cs (c = '\n') (pos + 1) (len - 1)
      | none => findIterEAux cs (c = '\n') (pos + 1) 0
    else findIterEAux cs (c = '\n') (pos + 1) 0

/-- `RE_ENDFOR.find_at(template, p)`: leftmost match starting at or after
`p`, with the full string's line-start structure. -/
def findEAtAux (s : Str) (ls : Bool) (pos minPos : Nat) : Option EM :=
  match s with
  | [] => none
  | c :: cs =>
    if ls = true ∧ minPos ≤ pos then
      match attemptEndfor (c :: cs) with
      | some (len, _) => some ⟨pos, pos + len⟩
      | none => findEAtAux cs (c = '\n') (pos + 1) minPos
    else findEAtAux cs (c = '\n') (pos + 1) minPos

/-- `RE_ENDFOR.find_at` on a whole string. -/
def findEAt (t : Str) (minPos : Nat) : Option EM :=
  findEAtAux t true 0 minPos

/-- Stable merge by position of the two match-start lists — the model of
`itertools::sorted_by_key` applied to the chained, individually
position-sorted `find_iter` streams (engine.rs:304–312): before each
element of the loop-open stream, the strictly earlier loop-close events
are emitted (ties keep the loop-open first, matching the stable sort of
the chain — in fact the two streams never share a position). -/
def mergeEv : List (Nat × Bool) → List (Nat × Bool) → List (Nat × Bool)
  | [], ys => ys
  | x :: xs, ys =>
    (ys.takeWhile fun y => decide (y.1 < x.1)) ++
      x :: mergeEv xs (ys.dropWhile fun y => decide (y.1 < x.1))

/-- The merged loop-open/loop-close event list of a searched slice
(`true` = loop-open), slice offsets. -/
def eventsOf (s : Str) : List (Nat × Bool) :=
  mergeEv ((findIterFAux s true 0 0).map fun f => (f.start, true))
    ((findIterEAux s true 0 0).map fun e => (e.start, false))

/-- The nesting-counter scan of engine.rs:304–322: each loop-open
increments the counter, a loop-close at counter 0 is the match, any
other loop-close decrements. -/
def scanEvents : List (Nat × Bool) → Nat → Option Nat
  | [], _ => none
  | (_, true) :: rest, lvl => scanEvents rest (lvl + 1)
  | (p, false) :: _, 0 => some p
  | (_, false) :: rest, lvl + 1 => scanEvents rest lvl

/-- `&template[a..b]` (the engine always slices with `a ≤ b ≤ len`). -/
def sliceStr (t : Str) (a b : Nat) : Str :=
  (t.take b).drop a

theorem findIterF_bounds :
    ∀ (s : Str) (ls : Bool) (pos skip : Nat) (fm : FM), fm ∈ findIterFAux s ls pos skip →
      pos ≤ fm.start ∧ fm.start < fm.stop ∧ fm.stop ≤ pos + s.length := by
  intro s
  induction s with
  | nil => intro ls pos skip fm hm; simp [findIterFAux] at hm
  | cons c cs ih =>
    intro ls pos skip fm hm
    cases skip with
    | succ skip' =>
      rw [findIterFAux] at hm
      have := ih _ _ _ _ hm
      simp only [List.length_cons]
      omega
    | zero =>
      rw [findIterFAux] at hm
      split at hm
      · split at hm
        · rename_i fa hfa
          have hb := attemptForeach_len hfa
          simp only [List.length_cons] at hb
          simp only [List.mem_cons] at hm
          cases hm with
          | inl hm =>
            subst hm
            simp only [List.length_cons]
            refine ⟨Nat.le_refl _, ?_, ?_⟩ <;> omega
          | inr hm =>
            have := ih _ _ _ _ hm
            simp only [List.length_cons]
            omega
        · have := ih _ _ _ _ hm
          simp only [List.length_cons]
          omega
      · have := ih _ _ _ _ hm
        simp only [List.length_cons]
        omega

theorem findF_bounds {t : Str} {fm : FM} (h : findF t = some fm) :
    fm.start < fm.stop ∧ fm.stop ≤ t.length := by
  unfold findF at h
  have hm : fm ∈ findIterFAux t true 0 0 := by
    cases hl : findIterFAux t true 0 0 with
    | nil => rw [hl] at h; exact Option.noConfusion h
    | cons a l =>
      rw [hl] at h
      simp at h
      simp [h]
  have := findIterF_bounds t true 0 0 fm hm
  omega

theorem findEAtAux_bounds (s : Str) :
    ∀ ls pos minPos em, findEAtAux s ls pos minPos = some em →
      pos ≤ em.start ∧ em.start < em.stop ∧ em.stop ≤ pos + s.length := by
  induction s with
  | nil => intro ls pos minPos em h; simp [findEAtAux] at h
  | cons c cs ih =>
    intro ls pos minPos em h
    rw [findEAtAux] at h
    split at h
    · split at h
      · rename_i len nl hat
        have hb := attemptEndfor_len hat
        cases h
        simp only [List.length_cons] at hb
        show pos ≤ pos ∧ pos < pos + len ∧ pos + len ≤ pos + (c :: cs).length
        simp only [List.length_cons]
        omega
      · have := ih _ _ _ _ h
        simp at this ⊢
        omega
    · have := ih _ _ _ _ h
      simp at this ⊢
      omega

theorem findEAt_bounds {t : Str} {minPos : Nat} {em : EM}
    (h : findEAt t minPos = some em) :
    em.start < em.stop ∧ em.stop ≤ t.length := by
  have := findEAtAux_bounds t true 0 minPos em h
  omega

/-! ### Variable substitution and the recursive render engine -/

/-- The replacement loop of `Regex::replace_all` as used by
`render_variables` (engine.rs:128): leftmost RE_VAR matches are replaced
by the resolved value (empty when the path is unresolved), everything
else is copied verbatim.  As with the searchers, the characters of a
match are walked with a `skip` counter (they are part of the replacement,
so they are not copied). -/
def rvAux : Value → Str → Nat → Str
  | _, [], _ => []
  | ctx, _ :: cs, skip + 1 => rvAux ctx cs skip
  | ctx, c :: cs, 0 =>
    match attemptVar (c :: cs) with
    | some (p, rest) =>
      (match resolvePath ctx p with
        | some v => valueToStr v
        | none => []) ++ rvAux ctx cs ((c :: cs).length - rest.length - 1)
    | none => c :: rvAux ctx cs 0

/-- `render_variables` (engine.rs:128–137). -/
def renderVariables (t : Str) (ctx : Value) : Str :=
  rvAux ctx t 0

/-- The error for an unregistered function (engine.rs:344). -/
def unknownFnMsg (src : Str) : Str :=
  "Unknown function '".toList ++ src ++ "'".toList

/-- The wrapper for an error value returned by a builtin (engine.rs:348). -/
def fnErrMsg (src : Str) (e : Value) : Str :=
  "Error in function '".toList ++ src ++ "': ".toList ++ valueToStr e

/-- Resolution of the loop collection (engine.rs:340–360): a function
call looks the name up in the registry (unknown name is an error),
parses the arguments against the current context and invokes the
builtin, wrapping a builtin error with the function name; a plain source
path is resolved in the context, an unresolved path becoming the empty
sequence. -/
def collectionValue (fs : FS) (fm : FM) (ctx : Value) : Except Str Value :=
  match fm.fnArgs with
  | some astr =>
    match lookupKV builtinFns fm.src with
    | none => Except.error (unknownFnMsg fm.src)
    | some f =>
      match parseFunctionArgs astr ctx with
      | Except.error e => Except.error e
      | Except.ok m =>
        match f fs m with
        | Except.error ev => Except.error (fnErrMsg fm.src ev)
        | Except.ok v => Except.ok v
  | none =>
    match resolvePath ctx fm.src with
    | some v => Except.ok v
    | none => Except.ok (Value.arr [])

/-- The collection coercion (engine.rs:363–369): a sequence is iterated
as-is, any other value becomes a one-element sequence. -/
def itemsOf (v : Value) : List Value :=
  match v with
  | Value.arr xs => xs
  | v => [v]

/-- Sequence two render outcomes, concatenating their outputs.  This is
the translation of Rust's `?` propagation combined with
`String::push_str`/`format!` concatenation: a panic (`none`) or an error
on the left short-circuits, exactly as `?` returns early. -/
def exSeq (a b : Option (Except Str Str)) : Option (Except Str Str) :=
  match a with
  | none => none
  | some (Except.error e) => some (Except.error e)
  | some (Except.ok sa) =>
    match b with
    | none => none
    | some (Except.error e) => some (Except.error e)
    | some (Except.ok sb) => some (Except.ok (sa ++ sb))

/-- Prepend an already rendered prefix to a render outcome. -/
def exAppend (a : Str) (r : Option (Except Str Str)) : Option (Except Str Str) :=
  r.map fun x => x.map fun s => a ++ s

theorem exSeq_ok {a : Str} {b : Option (Except Str Str)} :
    exSeq (some (Except.ok a)) b = exAppend a b := by
  unfold exSeq exAppend
  cases b with
  | none => rfl
  | some x => cases x <;> rfl

mutual

/-- `render_recursive` (engine.rs:295–392).  The result is
`none` for the panic of the `.unwrap()` on `find_at` (engine.rs:325),
`some (.error e)` for a render failure, `some (.ok out)` for success.
The steps mirror the source exactly: find the first loop-open; scan the
loop-open/loop-close events of the slice after it with the nesting
counter; on a counter-0 close, re-locate the close on the full template
with `find_at`; render `before`, resolve and coerce the collection,
render the body once per element against the extended context, render
`after`, and concatenate.  Without a loop-open, or when the scan finds
no counter-0 close, substitute variables in the whole slice. -/
def renderRec (fs : FS) (t : Str) (ctx : Value) : Option (Except Str Str) :=
  match hf : findF t with
  | none => some (Except.ok (renderVariables t ctx))
  | some fm =>
    match hs : scanEvents (eventsOf (t.drop fm.stop)) 0 with
    | none => some (Except.ok (renderVariables t ctx))
    | some off =>
      match he : findEAt t (fm.stop + off) with
      | none => none
      | some em =>
        exSeq (renderRec fs (t.take fm.start) ctx)
          (match collectionValue fs fm ctx with
            | Except.error e => some (Except.error e)
            | Except.ok cv =>
              exSeq (renderList fs (sliceStr t fm.stop em.start) fm.item ctx (itemsOf cv))
                (renderRec fs (t.drop em.stop) ctx))
termination_by (t.length, 0)
decreasing_by
  · apply Prod.Lex.left
    have hb := findF_bounds hf
    have := List.length_take fm.start t
    omega
  · apply Prod.Lex.left
    have hb := findF_bounds hf
    have hbe := findEAt_bounds he
    have h1 := List.length_take em.start t
    have h2 := List.length_drop fm.stop (t.take em.start)
    simp only [sliceStr]
    omega
  · apply Prod.Lex.left
    have hb := findF_bounds hf
    have hbe := findEAt_bounds he
    have := List.length_drop em.stop t
    omega

/-- The iteration loop of engine.rs:371–378: each element is rendered
against a fresh copy of the current context extended with the item
binding; a non-object context skips the iteration silently. -/
def renderList (fs : FS) (body item : Str) (ctx : Value) (items : List Value) :
    Option (Except Str Str) :=
  match items with
  | [] => some (Except.ok [])
  | v :: vs =>
    match ctx with
    | Value.obj flds =>
      exSeq (renderRec fs body (Value.obj (insertKV flds item v)))
        (renderList fs body item ctx vs)
    | _ => renderList fs body item ctx vs
termination_by (body.length, items.length + 1)
decreasing_by
  all_goals
    apply Prod.Lex.right
    simp

end

/-- `render` (engine.rs:289): wrap the caller's context map into a value
and run the recursive engine. -/
def render (fs : FS) (t : Str) (m : List (Str × Value)) : Option (Except Str Str) :=
  renderRec fs t (Value.obj m)

/-! ### The shape analyzer (`extract_variables`, engine.rs:139–286) -/

/-- `VarUsage` (engine.rs:141): how a top-level variable is consumed. -/
inductive VarUsage where
  | simple : VarUsage
  | collectionOfSimple : VarUsage
  | collectionOfObjects : List (Str × VarUsage) → VarUsage

/-- `RE_VAR.captures_iter`: the captured paths of all variable
references, in text order (skip-counter scheme as in the searchers). -/
def varMatchesAux : Str → Nat → List Str
  | [], _ => []
  | _ :: cs, skip + 1 => varMatchesAux cs skip
  | c :: cs, 0 =>
    match attemptVar (c :: cs) with
    | some (p, rest) => p :: varMatchesAux cs ((c :: cs).length - rest.length - 1)
    | none => varMatchesAux cs 0

/-- `RE_VAR.captures_iter` over a whole string. -/
def varMatches (s : Str) : List Str :=
  varMatchesAux s 0

/-- `find_loop_body` (engine.rs:201–232): find the first loop-open of the
chunk; if its matched text is not the given tag text, return the empty
string; otherwise run the nesting-counter scan on the slice after it and
return the text up to the counter-0 close (or the empty string if none). -/
def findLoopBody (chunk : Str) (startTagText : Str) : Str :=
  match findF chunk with
  | none => []
  | some fm =>
    if sliceStr chunk fm.start fm.stop ≠ startTagText then []
    else
      match scanEvents (eventsOf (chunk.drop fm.stop)) 0 with
      | some off => sliceStr chunk fm.stop (fm.stop + off)
      | none => []

/-- `str::strip_prefix(format!(..., item))`: strip `item.` from a path. -/
def stripItemDot (item path : Str) : Option Str :=
  eatStr (item ++ ['.']) path

/-- The simple-property pass of `analyze_object_structure`
(engine.rs:180–194): for every variable reference `item.<rest>`, record
the first segment of `<rest>` as `Simple` unless already present. -/
def analyzeVarsPass (itemVar : Str) (paths : List Str)
    (st : List (Str × VarUsage)) : List (Str × VarUsage) :=
  match paths with
  | [] => st
  | p :: rest =>
    match stripItemDot itemVar p with
    | some prop =>
      analyzeVarsPass itemVar rest (orInsertKV st ((splitDot prop).headD []) VarUsage.simple)
    | none => analyzeVarsPass itemVar rest st

/-- `analyze_object_structure` (engine.rs:151–197): nested loops whose
source is `item.<prop>` contribute a (recursively analyzed) collection
shape for `<prop>` (the nested-loop pass, engine.rs:160–178, realised as
a fold over the chunk's loop-open captures); then direct references
`item.<field>` contribute `Simple` fields.  The `all_loop_vars` parameter
of the source is passed through but never read, and is omitted.  The
recursion is driven by a fuel argument (the callers pass the chunk length
plus one, which bounds the nesting depth because `find_loop_body` of a
nonempty chunk is strictly shorter than the chunk, and the empty chunk
has no matches). -/
def analyzeOS : Nat → Str → Str → List (Str × VarUsage)
  | 0, _, _ => []
  | fuel + 1, lb, itemVar =>
    analyzeVarsPass itemVar (varMatches lb)
      ((findIterFAux lb true 0 0).foldl
        (fun st cap =>
          match stripItemDot itemVar cap.src with
          | some prop =>
            let sub := analyzeOS fuel (findLoopBody lb (sliceStr lb cap.start cap.stop)) cap.item
            insertKV st prop
              (if sub.isEmpty then VarUsage.collectionOfSimple
                else VarUsage.collectionOfObjects sub)
          | none => st)
        [])

/-- `analyze_object_structure` with its adequate fuel. -/
def analyzeObjectStructure (lb itemVar : Str) : List (Str × VarUsage) :=
  analyzeOS (lb.length + 1) lb itemVar

/-- The reserved words (engine.rs:28–34). -/
def isReserved (b : Str) : Bool :=
  b = "endfor".toList ∨ b = "in".toList

/-- `BUILTIN_FNS.contains_key` (used at engine.rs:255). -/
def isBuiltinName (s : Str) : Bool :=
  (lookupKV builtinFns s).isSome

/-- Step 2 of `extract_variables` (engine.rs:245–272): for each top-level
loop whose source base segment is not a loop variable and which is not a
function call or builtin name, analyze its body and record the base
variable's collection shape. -/
def extractLoopsPass (t : Str) (loopVars : List Str) (caps : List FM)
    (st : List (Str × VarUsage)) : List (Str × VarUsage) :=
  match caps with
  | [] => st
  | cap :: rest =>
    if loopVars.contains ((splitDot cap.src).headD []) then extractLoopsPass t loopVars rest st
    else if cap.fnArgs.isSome || isBuiltinName cap.src then extractLoopsPass t loopVars rest st
    else
      extractLoopsPass t loopVars rest
        (insertKV st ((splitDot cap.src).headD [])
          (if (analyzeObjectStructure (findLoopBody t (sliceStr t cap.start cap.stop))
                cap.item).isEmpty
            then VarUsage.collectionOfSimple
            else VarUsage.collectionOfObjects
              (analyzeObjectStructure (findLoopBody t (sliceStr t cap.start cap.stop)) cap.item)))

/-- Step 3 of `extract_variables` (engine.rs:275–283): remaining
top-level variable references become `Simple` unless reserved, a loop
variable, or already recorded. -/
def extractVarsPass (loopVars : List Str) (paths : List Str)
    (st : List (Str × VarUsage)) : List (Str × VarUsage) :=
  match paths with
  | [] => st
  | p :: rest =>
    if isReserved ((splitDot p).headD []) = false ∧
        loopVars.contains ((splitDot p).headD []) = false then
      extractVarsPass loopVars rest (orInsertKV st ((splitDot p).headD []) VarUsage.simple)
    else extractVarsPass loopVars rest st

/-- `extract_variables` (engine.rs:235–286). -/
def extractVariables (t : Str) : List (Str × VarUsage) :=
  extractVarsPass ((findIterFAux t true 0 0).map fun c => c.item) (varMatches t)
    (extractLoopsPass t ((findIterFAux t true 0 0).map fun c => c.item)
      (findIterFAux t true 0 0) [])

/-! ### Shared lemmas about the embedded definitions -/

theorem pathChar_not_ws {c : Char} (h : isPathChar c = true) : isWs c = false := by
  unfold isPathChar isWordChar at h
  unfold isWs
  simp only [Bool.or_eq_true, Bool.and_eq_true, decide_eq_true_eq] at h
  simp only [Bool.or_eq_false_iff, decide_eq_false_iff_not]
  omega

theorem eatStr_self {p t : Str} : eatStr p (p ++ t) = some t := by
  induction p with
  | nil => simp [eatStr]
  | cons c cs ih => simp [eatStr, ih]

theorem spanP_cons_false {q : Char → Bool} {c : Char} {t : Str} (h : q c = false) :
    spanP q (c :: t) = ([], c :: t) := by
  simp [spanP, h]

theorem spanP_all_append {q : Char → Bool} {a : Str} {b : Char} {t : Str}
    (ha : ∀ c ∈ a, q c = true) (hb : q b = false) :
    spanP q (a ++ b :: t) = (a, b :: t) := by
  induction a with
  | nil => simp [spanP, hb]
  | cons c cs ih =>
    have hc : q c = true := ha c (by simp)
    have ih' := ih fun d hd => ha d (by simp [hd])
    simp [spanP, hc, ih']

theorem lookupKV_insertKV {α : Type} (m : List (Str × α)) (k w : Str) (v : α) :
    lookupKV (insertKV m k v) w = if k = w then some v else lookupKV m w := by
  induction m with
  | nil => simp [insertKV, lookupKV]
  | cons kv t ih =>
    obtain ⟨k', v'⟩ := kv
    by_cases hk : k' = k
    · subst hk
      by_cases hw : k' = w <;> simp [insertKV, lookupKV, hw]
    · by_cases hw : k' = w
      · subst hw
        have hkw : k ≠ k' := fun h => hk h.symm
        simp [insertKV, lookupKV, hk, hkw]
      · simp [insertKV, lookupKV, hk, hw, ih]

theorem lookupKV_append {α : Type} (m m2 : List (Str × α)) (w : Str) :
    lookupKV (m ++ m2) w =
      (match lookupKV m w with
      | some v => some v
      | none => lookupKV m2 w) := by
  induction m with
  | nil => simp [lookupKV]
  | cons kv t ih =>
    obtain ⟨k', v'⟩ := kv
    by_cases hw : k' = w <;> simp [lookupKV, hw, ih]

theorem lookupKV_orInsertKV_ne {α : Type} (m : List (Str × α)) (k w : Str) (v : α)
    (h : k ≠ w) : lookupKV (orInsertKV m k v) w = lookupKV m w := by
  unfold orInsertKV
  split
  · rfl
  · rw [lookupKV_append]
    cases hm : lookupKV m w with
    | some v' => rfl
    | none => simp [lookupKV, h]

theorem itemsOf_single {v : Value} (h : ∀ xs, v ≠ Value.arr xs) : itemsOf v = [v] := by
  cases v <;> first | rfl | exact absurd rfl (h _)

/-! ### Unfolding equations for the engine (one step of `render_recursive`) -/

/-- The empty filesystem oracle, for concrete witnesses. -/
def noFiles : FS := fun _ _ => []

theorem renderRec_noloop {fs : FS} {t : Str} {ctx : Value} (hf : findF t = none) :
    renderRec fs t ctx = some (Except.ok (renderVariables t ctx)) := by
  rw [renderRec]
  split
  · rfl
  · rename_i fm heq
    rw [hf] at heq
    exact Option.noConfusion heq

theorem renderRec_noclose {fs : FS} {t : Str} {ctx : Value} {fm : FM}
    (hf : findF t = some fm)
    (hs : scanEvents (eventsOf (t.drop fm.stop)) 0 = none) :
    renderRec fs t ctx = some (Except.ok (renderVariables t ctx)) := by
  rw [renderRec]
  split
  · rfl
  · rename_i fm' heq
    rw [hf] at heq
    injection heq with h0
    subst h0
    split
    · rfl
    · rename_i off heq2
      rw [hs] at heq2
      exact Option.noConfusion heq2

theorem renderRec_loop {fs : FS} {t : Str} {ctx : Value} {fm : FM} {off : Nat} {em : EM}
    (hf : findF t = some fm)
    (hs : scanEvents (eventsOf (t.drop fm.stop)) 0 = some off)
    (he : findEAt t (fm.stop + off) = some em) :
    renderRec fs t ctx =
      exSeq (renderRec fs (t.take fm.start) ctx)
        (match collectionValue fs fm ctx with
          | Except.error e => some (Except.error e)
          | Except.ok cv =>
            exSeq (renderList fs (sliceStr t fm.stop em.start) fm.item ctx (itemsOf cv))
              (renderRec fs (t.drop em.stop) ctx)) := by
  rw [renderRec]
  split
  · rename_i heq
    rw [hf] at heq
    exact Option.noConfusion heq
  · rename_i fm' heq
    rw [hf] at heq
    injection heq with h0
    subst h0
    split
    · rename_i heq2
      rw [hs] at heq2
      exact Option.noConfusion heq2
    · rename_i off' heq2
      rw [hs] at heq2
      injection heq2 with h1
      subst h1
      split
      · rename_i heq3
        rw [he] at heq3
        exact Option.noConfusion heq3
      · rename_i em' heq3
        rw [he] at heq3
        injection heq3 with h2
        subst h2
        rfl

theorem renderRec_findEAt_none {fs : FS} {t : Str} {ctx : Value} {fm : FM} {off : Nat}
    (hf : findF t = some fm)
    (hs : scanEvents (eventsOf (t.drop fm.stop)) 0 = some off)
    (he : findEAt t (fm.stop + off) = none) :
    renderRec fs t ctx = none := by
  rw [renderRec]
  split
  · rename_i heq
    rw [hf] at heq
    exact Option.noConfusion heq
  · rename_i fm' heq
    rw [hf] at heq
    injection heq with h0
    subst h0
    split
    · rename_i heq2
      rw [hs] at heq2
      exact Option.noConfusion heq2
    · rename_i off' heq2
      rw [hs] at heq2
      injection heq2 with h1
      subst h1
      split
      · rfl
      · rename_i em' heq3
        rw [he] at heq3
        exact Option.noConfusion heq3

theorem renderList_cons_obj {fs : FS} {body item : Str} {flds : List (Str × Value)}
    {v : Value} {vs : List Value} :
    renderList fs body item (Value.obj flds) (v :: vs) =
      exSeq (renderRec fs body (Value.obj (insertKV flds item v)))
        (renderList fs body item (Value.obj flds) vs) := by
  rw [renderList]

/-- A loop whose first open has no loop before it renders its `before`
slice by plain substitution. -/
theorem renderRec_before_ok {fs : FS} {t : Str} {ctx : Value} {fm : FM} {off : Nat} {em : EM}
    (hf : findF t = some fm)
    (hs : scanEvents (eventsOf (t.drop fm.stop)) 0 = some off)
    (he : findEAt t (fm.stop + off) = some em)
    (hb : findF (t.take fm.start) = none) :
    renderRec fs t ctx =
      (match collectionValue fs fm ctx with
      | Except.error e => some (Except.error e)
      | Except.ok cv =>
        exAppend (renderVariables (t.take fm.start) ctx)
          (exSeq
            (renderList fs (sliceStr t fm.stop em.start) fm.item ctx (itemsOf cv))
            (renderRec fs (t.drop em.stop) ctx))) := by
  rw [renderRec_loop hf hs he, renderRec_noloop hb, exSeq_ok]
  cases hcv : collectionValue fs fm ctx with
  | error e => rfl
  | ok cv => rfl

/-! ### Further helper lemmas for the claims -/

theorem renderList_nil {fs : FS} {body item : Str} {ctx : Value} :
    renderList fs body item ctx [] = some (Except.ok []) := by
  rw [renderList]

theorem exAppend_nil {r : Option (Except Str Str)} : exAppend [] r = r := by
  unfold exAppend
  cases r with
  | none => rfl
  | some x =>
    cases x with
    | error e => rfl
    | ok s => rfl

theorem exSeq_nil_right {a : Option (Except Str Str)} :
    exSeq a (some (Except.ok [])) = a := by
  unfold exSeq
  cases a with
  | none => rfl
  | some x =>
    cases x with
    | error e => rfl
    | ok s => simp

theorem rvAux_skip_all (ctx : Value) :
    ∀ (s : Str) (k : Nat), s.length ≤ k → rvAux ctx s k = [] := by
  intro s
  induction s with
  | nil => intro k _; rw [rvAux]
  | cons c cs ih =>
    intro k hk
    cases k with
    | zero => simp at hk
    | succ k' =>
      rw [rvAux]
      apply ih
      simp at hk
      omega

theorem extractVarsPass_reserved_none (lv ps : List Str) (st : List (Str × VarUsage))
    (w : Str) (hw : isReserved w = true) (hst : lookupKV st w = none) :
    lookupKV (extractVarsPass lv ps st) w = none := by
  induction ps generalizing st with
  | nil => simpa [extractVarsPass] using hst
  | cons p rest ih =>
    rw [extractVarsPass]
    split
    · rename_i hcond
      apply ih
      rw [lookupKV_orInsertKV_ne]
      · exact hst
      · intro hkw
        rw [hkw] at hcond
        rw [hw] at hcond
        exact Bool.noConfusion hcond.1
    · exact ih st hst

theorem extractLoopsPass_avoid_none (t : Str) (lv : List Str) (caps : List FM) :
    ∀ (st : List (Str × VarUsage)) (w : Str),
      (∀ cap ∈ caps, (splitDot cap.src).headD [] ≠ w) →
      lookupKV st w = none →
      lookupKV (extractLoopsPass t lv caps st) w = none := by
  induction caps with
  | nil => intro st w _ hst; simpa [extractLoopsPass] using hst
  | cons cap rest ih =>
    intro st w hcaps hst
    have hrest : ∀ c ∈ rest, (splitDot c.src).headD [] ≠ w :=
      fun c hc => hcaps c (by simp [hc])
    rw [extractLoopsPass]
    split
    · exact ih st w hrest hst
    · split
      · exact ih st w hrest hst
      · apply ih _ w hrest
        rw [lookupKV_insertKV, if_neg (hcaps cap (by simp))]
        exact hst

/-! ### The claims -/

/-- The one-line template of claim C1 (and of the spec's shape-inference
test): all three tags on a single line. -/
def tplC1one : Str :=
  "\x7b\x7bforeach m in team.members\x7d\x7d\x7b\x7bm.name\x7d\x7d\x7b\x7bendfor\x7d\x7d".toList

/-- The line-anchored variant of the same template. -/
def tplC1multi : Str :=
  "\x7b\x7bforeach m in team.members\x7d\x7d\n\x7b\x7bm.name\x7d\x7d\n\x7b\x7bendfor\x7d\x7d".toList

/-- C1, counterexample.  The claim says that for the template
`\x7b\x7bforeach m in team.members\x7d\x7d\x7b\x7bm.name\x7d\x7d\x7b\x7bendfor\x7d\x7d`
`extract_variables` reports `team` as a `CollectionOfObjects` with a
nested structure under key `members`.  In fact it reports `team` as
`CollectionOfSimple`: the loop-close tag of this one-line template is not
at a line start, so the line-anchored RE_ENDFOR never matches it,
`find_loop_body` finds no counter-0 close and returns the empty body, and
the analysis of an empty body yields no fields at all. -/
theorem claim1_team_shape_counterexample :
    lookupKV (extractVariables tplC1one) ("team".toList) = some VarUsage.collectionOfSimple ∧
    (∀ fields, VarUsage.collectionOfSimple ≠ VarUsage.collectionOfObjects fields) :=
  ⟨rfl, fun _ h => VarUsage.noConfusion h⟩

/-- C1, amended.  For the one-line template, `extract_variables` reports
exactly `team ↦ CollectionOfSimple` (the loop-close is not recognized
mid-line, so the loop body is empty).  For the line-anchored variant it
reports exactly `team ↦ CollectionOfObjects (name ↦ Simple)`: the field
`name` is attached directly under `team` — flattened, not nested under a
`members` key — because `analyze_object_structure` strips the item
prefix `m.` and records the first following segment, while the `members`
segment of the loop source contributes nothing to the recorded shape. -/
theorem claim1_team_shape_amended :
    extractVariables tplC1one = [("team".toList, VarUsage.collectionOfSimple)] ∧
    extractVariables tplC1multi =
      [("team".toList, VarUsage.collectionOfObjects [("name".toList, VarUsage.simple)])] :=
  ⟨rfl, rfl⟩

/-- A template whose loop source is the reserved word `endfor`. -/
def tplC3 : Str :=
  "\x7b\x7bforeach x in endfor\x7d\x7d\n\x7b\x7bendfor\x7d\x7d\n".toList

/-- C3, counterexample.  The claim says `extract_variables` never returns
the reserved words `endfor`/`in` as variable names, including when such a
token is a loop-source base segment.  But the reserved-word guard of
engine.rs:277 is applied only in the step-3 variable-reference pass; the
step-2 loop pass (engine.rs:245–272) inserts the loop-source base segment
unguarded, so the template `\x7b\x7bforeach x in endfor\x7d\x7d …`
yields the variable name `endfor`. -/
theorem claim3_reserved_counterexample :
    lookupKV (extractVariables tplC3) ("endfor".toList) = some VarUsage.collectionOfSimple :=
  rfl

/-- C3, amended.  Reserved words never enter the result through the
variable-reference pass (engine.rs:275–283, which tests
`RESERVED_WORDS`); consequently, whenever no loop-open of the template
has a reserved word as its source's base segment, the reserved words are
absent from the result.  (The loop pass, by contrast, can produce them —
see the counterexample.) -/
theorem claim3_reserved_amended (t : Str) (w : Str)
    (hw : isReserved w = true)
    (hcaps : ∀ cap ∈ findIterFAux t true 0 0, (splitDot cap.src).headD [] ≠ w) :
    lookupKV (extractVariables t) w = none := by
  unfold extractVariables
  apply extractVarsPass_reserved_none _ _ _ _ hw
  exact extractLoopsPass_avoid_none _ _ _ _ _ hcaps rfl


/-- C3, witness for the amended theorem at the line-anchored template of
C1 (its only loop source is `team.members`, whose base `team` is not
reserved), instantiated at the reserved word `endfor`. -/
theorem claim3_reserved_amended_witness :
    isReserved ("endfor".toList) = true ∧
    (∀ cap ∈ findIterFAux tplC1multi true 0 0,
      (splitDot cap.src).headD [] ≠ ("endfor".toList)) ∧
    lookupKV (extractVariables tplC1multi) ("endfor".toList) = none := by
  refine ⟨rfl, by decide, ?_⟩
  exact claim3_reserved_amended tplC1multi ("endfor".toList) rfl (by decide)

/-- Template of C4: a loop-open with no matching loop-close, followed by
plain text with a variable reference. -/
def tplC4 : Str :=
  "\x7b\x7bforeach x in xs\x7d\x7d\nhello \x7b\x7bname\x7d\x7d".toList

/-- Context for C4. -/
def ctxC4 : Value :=
  Value.obj [("name".toList, Value.str ("Ada".toList))]

/-- The first loop-open match of `tplC4`. -/
def fmC4 : FM := ⟨0, 20, "x".toList, "xs".toList, none⟩

/-- C4, amended: when a loop-open has no matching loop-close in the
engine's own sense — the nesting-counter scan of the loop-open/loop-close
events of the slice after the open (a scan in which the slice start
counts as a line start) finds no counter-0 close — rendering returns
`Ok` of the whole slice with all variable references substituted; the
loop-open tag itself, which RE_VAR cannot match, is left unexpanded and
no error is raised.  The original claim's hypothesis, "no matching
loop-close in the template", is strictly weaker and includes failing
cases — see the counterexample. -/
theorem claim4_unmatched_open_amended (fs : FS) (t : Str) (ctx : Value) (fm : FM)
    (hf : findF t = some fm)
    (hs : scanEvents (eventsOf (t.drop fm.stop)) 0 = none) :
    renderRec fs t ctx = some (Except.ok (renderVariables t ctx)) :=
  renderRec_noclose hf hs

/-- C4, witness for the amended theorem: the concrete unterminated
template renders successfully, with the loop-open tag preserved verbatim
and the reference `name` substituted. -/
theorem claim4_unmatched_open_amended_witness :
    findF tplC4 = some fmC4 ∧
    scanEvents (eventsOf (tplC4.drop fmC4.stop)) 0 = none ∧
    renderRec noFiles tplC4 ctxC4 =
      some (Except.ok ("\x7b\x7bforeach x in xs\x7d\x7d\nhello Ada".toList)) := by
  refine ⟨rfl, rfl, ?_⟩
  rw [claim4_unmatched_open_amended noFiles tplC4 ctxC4 fmC4 rfl rfl]
  rfl

/-- Template refuting C4: a loop-close follows the loop-open on the same
line, so no line-anchored loop-close exists anywhere in the template. -/
def tplC4bad : Str :=
  "\x7b\x7bforeach x in xs\x7d\x7d\x7b\x7bendfor\x7d\x7d".toList

/-- C4, counterexample: the original claim fails on a template with no
matching loop-close.  The whole-template scan of RE_ENDFOR finds no
loop-close at all (conjunct 1), so the loop-open at 0 is unmatched; yet
the slice scan after the open, which treats the slice start as a line
start, does see the mid-line close at slice offset 0 (conjunct 3), the
re-location of that close on the full template by `find_at` then fails
(conjunct 4), and the `.unwrap()` at engine.rs:325 panics: rendering
returns neither `Ok` nor an error (conjunct 5), contradicting the
claimed "rendering succeeds". -/
theorem claim4_unmatched_open_counterexample :
    findIterEAux tplC4bad true 0 0 = [] ∧
    findF tplC4bad = some ⟨0, 19, "x".toList, "xs".toList, none⟩ ∧
    scanEvents (eventsOf (tplC4bad.drop 19)) 0 = some 0 ∧
    findEAt tplC4bad 19 = none ∧
    renderRec noFiles tplC4bad (Value.obj []) = none := by
  refine ⟨rfl, rfl, rfl, rfl, ?_⟩
  exact @renderRec_findEAt_none noFiles tplC4bad (Value.obj [])
    ⟨0, 19, "x".toList, "xs".toList, none⟩ 0 rfl rfl rfl

/-- Template of C5: a loop over an unresolved source, then text with a
resolvable reference. -/
def tplC5 : Str :=
  "\x7b\x7bforeach q in nothing\x7d\x7d\n\x7b\x7bq\x7d\x7d\n\x7b\x7bendfor\x7d\x7d\nrest \x7b\x7bname\x7d\x7d".toList

/-- Context fields for C5. -/
def ctxC5 : List (Str × Value) :=
  [("name".toList, Value.str ("Ada".toList))]

/-- The first loop-open match of `tplC5`. -/
def fmC5 : FM := ⟨0, 25, "q".toList, "nothing".toList, none⟩

/-- The matching loop-close of `tplC5`. -/
def emC5 : EM := ⟨31, 42⟩

/-- C5: an unresolved plain variable path substituted directly yields the
empty string (`render_variables` is total, so no error is possible
there); and an unresolved plain loop-source path yields the empty
sequence, so the body contributes nothing and the render reduces to
`before` (substituted) followed by the rendering of `after` — the
missing source itself never aborts the render. -/
theorem claim5_missing_values :
    (∀ (ctx : Value) (p : Str), p ≠ [] → (∀ c ∈ p, isPathChar c = true) →
      resolvePath ctx p = none →
      renderVariables (openBB ++ p ++ closeBB) ctx = []) ∧
    (∀ (fs : FS) (t : Str) (flds : List (Str × Value)) (fm : FM) (off : Nat) (em : EM),
      findF t = some fm → fm.fnArgs = none →
      scanEvents (eventsOf (t.drop fm.stop)) 0 = some off →
      findEAt t (fm.stop + off) = some em →
      findF (t.take fm.start) = none →
      resolvePath (Value.obj flds) fm.src = none →
      renderRec fs t (Value.obj flds) =
        exAppend (renderVariables (t.take fm.start) (Value.obj flds))
          (renderRec fs (t.drop em.stop) (Value.obj flds))) := by
  constructor
  · intro ctx p hne hpc hres
    cases p with
    | nil => exact absurd rfl hne
    | cons c cs =>
      have hBB : openBB = lbrace :: lbrace :: [] := by decide
      have hws : isWs c = false := pathChar_not_ws (hpc c (by simp))
      have h1 : eatStr openBB (lbrace :: lbrace :: ((c :: cs) ++ closeBB)) =
          some ((c :: cs) ++ closeBB) := by
        rw [hBB]
        simp [eatStr]
      have h2 : spanP isWs ((c :: cs) ++ closeBB) = ([], (c :: cs) ++ closeBB) := by
        rw [List.cons_append]
        exact spanP_cons_false hws
      have h3 : spanP isPathChar ((c :: cs) ++ closeBB) = (c :: cs, closeBB) := by
        rw [show (closeBB : Str) = rbrace :: [rbrace] from by decide]
        exact spanP_all_append hpc (by decide)
      have h4 : spanP isWs (closeBB : Str) = ([], closeBB) := by
        rw [show (closeBB : Str) = rbrace :: [rbrace] from by decide]
        exact spanP_cons_false (by decide)
      have h5 : eatStr closeBB (closeBB : Str) = some [] := by
        have h := eatStr_self (p := closeBB) (t := ([] : Str))
        simpa using h
      have hav : attemptVar (lbrace :: lbrace :: ((c :: cs) ++ closeBB)) =
          some (c :: cs, []) := by
        unfold attemptVar
        simp only [h1, h2, h3, h4, h5, List.isEmpty_cons, Bool.false_eq_true, if_false]
      unfold renderVariables
      rw [show openBB ++ (c :: cs) ++ closeBB = lbrace :: (lbrace :: ((c :: cs) ++ closeBB))
        by rw [hBB]; simp]
      rw [rvAux]
      simp only [hav, hres, List.nil_append, List.length_nil, Nat.sub_zero]
      apply rvAux_skip_all
      simp
  · intro fs t flds fm off em hf ha hs he hb hres
    rw [renderRec_before_ok hf hs he hb]
    have hcv : collectionValue fs fm (Value.obj flds) = Except.ok (Value.arr []) := by
      simp only [collectionValue, ha, hres]
    rw [hcv]
    show exAppend (renderVariables (t.take fm.start) (Value.obj flds))
      (exSeq (renderList fs (sliceStr t fm.stop em.start) fm.item (Value.obj flds) [])
        (renderRec fs (t.drop em.stop) (Value.obj flds))) = _
    rw [renderList_nil, exSeq_ok, exAppend_nil]

/-- C5, witness: both parts at concrete inputs — the unresolved reference
`missing` substitutes to the empty string, and the loop over the
unresolved source `nothing` contributes nothing while the rest of the
template still renders. -/
theorem claim5_missing_values_witness :
    (("missing".toList : Str) ≠ [] ∧ (∀ c ∈ ("missing".toList : Str), isPathChar c = true) ∧
      resolvePath (Value.obj []) ("missing".toList) = none ∧
      renderVariables (openBB ++ ("missing".toList) ++ closeBB) (Value.obj []) = []) ∧
    (findF tplC5 = some fmC5 ∧ fmC5.fnArgs = none ∧
      scanEvents (eventsOf (tplC5.drop fmC5.stop)) 0 = some 6 ∧
      findEAt tplC5 (fmC5.stop + 6) = some emC5 ∧
      findF (tplC5.take fmC5.start) = none ∧
      resolvePath (Value.obj ctxC5) fmC5.src = none ∧
      renderRec noFiles tplC5 (Value.obj ctxC5) = some (Except.ok ("rest Ada".toList))) := by
  constructor
  · refine ⟨by decide, by decide, rfl, ?_⟩
    exact claim5_missing_values.1 (Value.obj []) ("missing".toList) (by decide) (by decide) rfl
  · refine ⟨rfl, rfl, rfl, rfl, rfl, rfl, ?_⟩
    have h := claim5_missing_values.2 noFiles tplC5 ctxC5 fmC5 6 emC5 rfl rfl rfl rfl rfl rfl
    rw [h, @renderRec_noloop noFiles (tplC5.drop emC5.stop) (Value.obj ctxC5) rfl]
    rfl

/-- The one-line template of C6's example. -/
def tplC6one : Str :=
  "\x7b\x7bforeach i in x\x7d\x7d\x7b\x7bi\x7d\x7d\x7b\x7bendfor\x7d\x7d".toList

/-- The line-anchored variant of C6's example. -/
def tplC6multi : Str :=
  "\x7b\x7bforeach i in x\x7d\x7d\n\x7b\x7bi\x7d\x7d\n\x7b\x7bendfor\x7d\x7d".toList

/-- The first loop-open match of `tplC6one`. -/
def fmC6one : FM := ⟨0, 18, "i".toList, "x".toList, none⟩

/-- The first loop-open match of `tplC6multi`. -/
def fmC6 : FM := ⟨0, 19, "i".toList, "x".toList, none⟩

/-- The matching loop-close of `tplC6multi`. -/
def emC6 : EM := ⟨25, 35⟩

/-- Context fields for C6. -/
def ctxC6 : List (Str × Value) :=
  [("x".toList, Value.str ("a".toList))]

/-- C6, counterexample.  The claim's example says that with context
`x = "a"` the one-line template
`\x7b\x7bforeach i in x\x7d\x7d\x7b\x7bi\x7d\x7d\x7b\x7bendfor\x7d\x7d`
renders `a`.  In fact the line-anchored RE_ENDFOR does not match the
mid-line loop-close, the nesting scan finds no counter-0 close, and the
engine falls back to substituting variables in the whole template: the
output is `\x7b\x7bforeach i in x\x7d\x7d` (with `\x7b\x7bi\x7d\x7d` and
`\x7b\x7bendfor\x7d\x7d` substituted by empty strings), not `a`. -/
theorem claim6_single_value_counterexample :
    renderRec noFiles tplC6one (Value.obj ctxC6) =
      some (Except.ok ("\x7b\x7bforeach i in x\x7d\x7d".toList)) ∧
    ("\x7b\x7bforeach i in x\x7d\x7d".toList : Str) ≠ ("a".toList) := by
  constructor
  · rw [@renderRec_noclose noFiles tplC6one (Value.obj ctxC6) fmC6one rfl rfl]
    rfl
  · decide

/-- C6, amended.  The coercion itself is as claimed: when the loop
source resolves to any non-sequence value `v`, the loop body is rendered
exactly once, against the context extended with `item ↦ v` — the render
equals `before` (substituted), then one body rendering, then `after`.
The claim's concrete example needs its tags line-anchored: the variant
`…\x7d\x7d\n\x7b\x7bi\x7d\x7d\n\x7b\x7bendfor\x7d\x7d` with context
`x = "a"` renders `a\n` (see the witness); the original one-line example
instead leaves the template unexpanded (see the counterexample). -/
theorem claim6_single_value_amended
    (fs : FS) (t : Str) (flds : List (Str × Value)) (fm : FM) (off : Nat) (em : EM) (v : Value)
    (hf : findF t = some fm) (ha : fm.fnArgs = none)
    (hs : scanEvents (eventsOf (t.drop fm.stop)) 0 = some off)
    (he : findEAt t (fm.stop + off) = some em)
    (hb : findF (t.take fm.start) = none)
    (hv : resolvePath (Value.obj flds) fm.src = some v)
    (hna : ∀ xs, v ≠ Value.arr xs) :
    renderRec fs t (Value.obj flds) =
      exAppend (renderVariables (t.take fm.start) (Value.obj flds))
        (exSeq (renderRec fs (sliceStr t fm.stop em.start)
            (Value.obj (insertKV flds fm.item v)))
          (renderRec fs (t.drop em.stop) (Value.obj flds))) := by
  rw [renderRec_before_ok hf hs he hb]
  have hcv : collectionValue fs fm (Value.obj flds) = Except.ok v := by
    simp only [collectionValue, ha, hv]
  rw [hcv]
  show exAppend (renderVariables (t.take fm.start) (Value.obj flds))
    (exSeq (renderList fs (sliceStr t fm.stop em.start) fm.item (Value.obj flds) (itemsOf v))
      (renderRec fs (t.drop em.stop) (Value.obj flds))) = _
  rw [itemsOf_single hna, renderList_cons_obj, renderList_nil, exSeq_nil_right]

/-- C6, witness for the amended theorem: the line-anchored variant with
`x = "a"` iterates exactly once and renders `a\n`. -/
theorem claim6_single_value_amended_witness :
    findF tplC6multi = some fmC6 ∧ fmC6.fnArgs = none ∧
    scanEvents (eventsOf (tplC6multi.drop fmC6.stop)) 0 = some 6 ∧
    findEAt tplC6multi (fmC6.stop + 6) = some emC6 ∧
    findF (tplC6multi.take fmC6.start) = none ∧
    resolvePath (Value.obj ctxC6) fmC6.src = some (Value.str ("a".toList)) ∧
    renderRec noFiles tplC6multi (Value.obj ctxC6) = some (Except.ok ("a\n".toList)) := by
  refine ⟨rfl, rfl, rfl, rfl, rfl, rfl, ?_⟩
  have h := claim6_single_value_amended noFiles tplC6multi ctxC6 fmC6 6 emC6
    (Value.str ("a".toList)) rfl rfl rfl rfl rfl rfl (fun xs hx => Value.noConfusion hx)
  rw [h,
    @renderRec_noloop noFiles (sliceStr tplC6multi fmC6.stop emC6.start)
      (Value.obj (insertKV ctxC6 fmC6.item (Value.str ("a".toList)))) rfl,
    @renderRec_noloop noFiles (tplC6multi.drop emC6.stop) (Value.obj ctxC6) rfl]
  rfl

/-- Template of C7: a loop sourced from an unregistered function call. -/
def tplC7 : Str :=
  "\x7b\x7bforeach f in nope(source: \"x\")\x7d\x7d\n\x7b\x7bendfor\x7d\x7d\n".toList

/-- The first loop-open match of `tplC7` (a function call). -/
def fmC7 : FM := ⟨0, 35, "f".toList, "nope".toList, some ("source: \"x\"".toList)⟩

/-- The matching loop-close of `tplC7`. -/
def emC7 : EM := ⟨35, 46⟩

/-- C7: the function registry contains exactly the builtin `files`; and
when a loop source is a function call whose name is not `files`, the
whole render returns the error `Unknown function '<name>'` — no output
string is produced at all (the `Except.error` result carries no partial
output, the body and `after` are never rendered). -/
theorem claim7_unknown_function :
    (∀ n : Str, (lookupKV builtinFns n).isSome = true ↔ n = ("files".toList)) ∧
    (∀ (fs : FS) (t : Str) (ctx : Value) (fm : FM) (off : Nat) (em : EM) (astr : Str),
      findF t = some fm → fm.fnArgs = some astr →
      scanEvents (eventsOf (t.drop fm.stop)) 0 = some off →
      findEAt t (fm.stop + off) = some em →
      findF (t.take fm.start) = none →
      fm.src ≠ ("files".toList) →
      renderRec fs t ctx = some (Except.error (unknownFnMsg fm.src))) := by
  constructor
  · intro n
    constructor
    · intro h
      by_cases he : ("files".toList : Str) = n
      · exact he.symm
      · unfold builtinFns lookupKV at h
        rw [if_neg he] at h
        simp [lookupKV] at h
    · intro h
      subst h
      simp [builtinFns, lookupKV]
  · intro fs t ctx fm off em astr hf ha hs he hb hsrc
    rw [renderRec_before_ok hf hs he hb]
    have hlk : lookupKV builtinFns fm.src = none := by
      unfold builtinFns lookupKV
      rw [if_neg fun hh => hsrc hh.symm]
      rfl
    have hcv : collectionValue fs fm ctx = Except.error (unknownFnMsg fm.src) := by
      simp only [collectionValue, ha, hlk]
    rw [hcv]

/-- C7, witness: the concrete template calling the unregistered function
`nope` fails the whole render with the message naming it. -/
theorem claim7_unknown_function_witness :
    findF tplC7 = some fmC7 ∧ fmC7.fnArgs = some ("source: \"x\"".toList) ∧
    scanEvents (eventsOf (tplC7.drop fmC7.stop)) 0 = some 0 ∧
    findEAt tplC7 (fmC7.stop + 0) = some emC7 ∧
    findF (tplC7.take fmC7.start) = none ∧
    renderRec noFiles tplC7 (Value.obj []) =
      some (Except.error ("Unknown function 'nope'".toList)) := by
  refine ⟨rfl, rfl, rfl, rfl, rfl, ?_⟩
  rw [claim7_unknown_function.2 noFiles tplC7 (Value.obj []) fmC7 0 emC7
    ("source: \"x\"".toList) rfl rfl rfl rfl rfl (by decide)]
  rfl

/-- C8: the argument splitter cuts only at top-level commas — the text
`exclude_names: ["a,b"], recursive: true` splits into exactly the two
parts `exclude_names: ["a,b"]` and `recursive: true` despite the comma
inside the quoted, bracketed list, and parses into exactly the two
arguments with their values; a part with no `:` separator, and a value
that is neither a JSON literal nor a known context path, are parse
errors with the source's exact messages. -/
theorem claim8_argument_splitting :
    splitArgsAux ("exclude_names: [\"a,b\"], recursive: true".toList) [] 0 false [] =
      [("exclude_names: [\"a,b\"]".toList), ("recursive: true".toList)] ∧
    parseFunctionArgs ("exclude_names: [\"a,b\"], recursive: true".toList) (Value.obj []) =
      Except.ok [("exclude_names".toList, Value.arr [Value.str ("a,b".toList)]),
        ("recursive".toList, Value.bool true)] ∧
    parseFunctionArgs ("foo".toList) (Value.obj []) =
      Except.error ("Argument 'foo' is missing a value".toList) ∧
    parseFunctionArgs ("k: zzz".toList) (Value.obj []) =
      Except.error
        ("Argument value 'zzz' is not a valid JSON literal nor a known variable.".toList) :=
  ⟨rfl, rfl, rfl, rfl⟩

/-- Template of C9: a loop over a list, then text with another variable. -/
def tplC9 : Str :=
  "\x7b\x7bforeach x in xs\x7d\x7d\n\x7b\x7bx\x7d\x7d;\n\x7b\x7bendfor\x7d\x7d\ndone \x7b\x7bname\x7d\x7d".toList

/-- Context fields for C9. -/
def ctxC9 : List (Str × Value) :=
  [("xs".toList, Value.arr [Value.str ("1".toList), Value.str ("2".toList)]),
   ("name".toList, Value.str ("N".toList))]

/-- The first loop-open match of `tplC9`. -/
def fmC9 : FM := ⟨0, 20, "x".toList, "xs".toList, none⟩

/-- The matching loop-close of `tplC9`. -/
def emC9 : EM := ⟨27, 38⟩

/-- C9: rendering never mutates the caller's context.  In this pure
embedding that is expressed by the render equations themselves: (i) the
`before` and `after` slices are rendered against the *same* context value
`flds` that the caller passed, while the loop body runs on derived
contexts; (ii) each iteration renders the body against
`insertKV flds item v` — a fresh value built from the caller's `flds`
each time, so an inner loop's identical item name shadows the outer
binding only inside that body; (iii) `insertKV` adds or overrides exactly
the one binding `item`, leaving every other key's lookup unchanged. -/
theorem claim9_context_immutability :
    (∀ (fs : FS) (t : Str) (flds : List (Str × Value)) (fm : FM) (off : Nat) (em : EM)
      (v : Value),
      findF t = some fm → fm.fnArgs = none →
      scanEvents (eventsOf (t.drop fm.stop)) 0 = some off →
      findEAt t (fm.stop + off) = some em →
      findF (t.take fm.start) = none →
      resolvePath (Value.obj flds) fm.src = some v →
      renderRec fs t (Value.obj flds) =
        exAppend (renderVariables (t.take fm.start) (Value.obj flds))
          (exSeq (renderList fs (sliceStr t fm.stop em.start) fm.item (Value.obj flds)
              (itemsOf v))
            (renderRec fs (t.drop em.stop) (Value.obj flds)))) ∧
    (∀ (fs : FS) (body item : Str) (flds : List (Str × Value)) (v : Value) (vs : List Value),
      renderList fs body item (Value.obj flds) (v :: vs) =
        exSeq (renderRec fs body (Value.obj (insertKV flds item v)))
          (renderList fs body item (Value.obj flds) vs)) ∧
    (∀ (flds : List (Str × Value)) (item : Str) (v : Value) (k : Str),
      lookupKV (insertKV flds item v) k = if item = k then some v else lookupKV flds k) := by
  refine ⟨?_, ?_, ?_⟩
  · intro fs t flds fm off em v hf ha hs he hb hv
    rw [renderRec_before_ok hf hs he hb]
    have hcv : collectionValue fs fm (Value.obj flds) = Except.ok v := by
      simp only [collectionValue, ha, hv]
    rw [hcv]
  · intro fs body item flds v vs
    exact renderList_cons_obj
  · intro flds item v k
    exact lookupKV_insertKV flds item k v

/-- C9, witness: the loop over `xs = ["1","2"]` renders each element
against the caller's context plus the one binding `x`, and the `after`
slice still sees the original context (`name` resolves, `x` is absent). -/
theorem claim9_context_immutability_witness :
    findF tplC9 = some fmC9 ∧ fmC9.fnArgs = none ∧
    scanEvents (eventsOf (tplC9.drop fmC9.stop)) 0 = some 7 ∧
    findEAt tplC9 (fmC9.stop + 7) = some emC9 ∧
    findF (tplC9.take fmC9.start) = none ∧
    resolvePath (Value.obj ctxC9) fmC9.src =
      some (Value.arr [Value.str ("1".toList), Value.str ("2".toList)]) ∧
    lookupKV (insertKV ctxC9 ("x".toList) (Value.str ("1".toList))) ("name".toList) =
      some (Value.str ("N".toList)) ∧
    renderRec noFiles tplC9 (Value.obj ctxC9) =
      some (Except.ok ("1;\n2;\ndone N".toList)) := by
  refine ⟨rfl, rfl, rfl, rfl, rfl, rfl, ?_, ?_⟩
  · rw [claim9_context_immutability.2.2 ctxC9 ("x".toList) (Value.str ("1".toList))
      ("name".toList)]
    rfl
  · have h := claim9_context_immutability.1 noFiles tplC9 ctxC9 fmC9 7 emC9
      (Value.arr [Value.str ("1".toList), Value.str ("2".toList)]) rfl rfl rfl rfl rfl rfl
    rw [h]
    rw [show itemsOf (Value.arr [Value.str ("1".toList), Value.str ("2".toList)]) =
      [Value.str ("1".toList), Value.str ("2".toList)] from rfl]
    rw [show fmC9.item = "x".toList from rfl]
    rw [claim9_context_immutability.2.1 noFiles (sliceStr tplC9 fmC9.stop emC9.start)
      ("x".toList) ctxC9 (Value.str ("1".toList)) [Value.str ("2".toList)]]
    rw [claim9_context_immutability.2.1 noFiles (sliceStr tplC9 fmC9.stop emC9.start)
      ("x".toList) ctxC9 (Value.str ("2".toList)) []]
    rw [renderList_nil]
    rw [@renderRec_noloop noFiles (sliceStr tplC9 fmC9.stop emC9.start)
      (Value.obj (insertKV ctxC9 ("x".toList) (Value.str ("1".toList)))) rfl]
    rw [@renderRec_noloop noFiles (sliceStr tplC9 fmC9.stop emC9.start)
      (Value.obj (insertKV ctxC9 ("x".toList) (Value.str ("2".toList)))) rfl]
    rw [@renderRec_noloop noFiles (tplC9.drop emC9.stop) (Value.obj ctxC9) rfl]
    rfl

/-- C10: argument validation of the `files` builtin.  (i) A missing
`source` argument is an error carrying the source's message, with no
result sequence ever produced; (ii) a `source` that is neither a string
nor an array gives the same error; (iii) with a string `source`, a
present but non-boolean `recursive` is an error with its own message;
(iv) when `recursive` is absent and validation succeeds, the validated
arguments have `recursive = true` (the default). -/
theorem claim10_files_validation :
    (∀ (fs : FS) (args : List (Str × Value)),
      lookupKV args ("source".toList) = none →
      files fs args = Except.error (Value.str filesMsgSource)) ∧
    (∀ (fs : FS) (args : List (Str × Value)) (v : Value),
      lookupKV args ("source".toList) = some v →
      (∀ s, v ≠ Value.str s) → (∀ vs, v ≠ Value.arr vs) →
      files fs args = Except.error (Value.str filesMsgSource)) ∧
    (∀ (fs : FS) (args : List (Str × Value)) (sv : Str) (v : Value),
      lookupKV args ("source".toList) = some (Value.str sv) →
      lookupKV args ("recursive".toList) = some v →
      (∀ b, v ≠ Value.bool b) →
      files fs args = Except.error (Value.str filesMsgRecursive)) ∧
    (∀ (args : List (Str × Value)) (fa : FilesArgs),
      lookupKV args ("recursive".toList) = none →
      filesValidate args = Except.ok fa →
      fa.recursive = true) := by
  refine ⟨?_, ?_, ?_, ?_⟩
  · intro fs args h
    simp only [files, filesValidate, h]
  · intro fs args v hv hs ha
    cases v with
    | str s => exact absurd rfl (hs s)
    | arr vs => exact absurd rfl (ha vs)
    | null => simp only [files, filesValidate, hv]
    | bool b => simp only [files, filesValidate, hv]
    | num n => simp only [files, filesValidate, hv]
    | obj o => simp only [files, filesValidate, hv]
  · intro fs args sv v hv hr hb
    cases v with
    | bool b => exact absurd rfl (hb b)
    | null => simp only [files, filesValidate, hv, hr]
    | str s => simp only [files, filesValidate, hv, hr]
    | num n => simp only [files, filesValidate, hv, hr]
    | arr vs => simp only [files, filesValidate, hv, hr]
    | obj o => simp only [files, filesValidate, hv, hr]
  · intro args fa hr hok
    unfold filesValidate at hok
    rw [hr] at hok
    split at hok
    · exact Except.noConfusion hok
    split at hok
    · exact Except.noConfusion hok
    split at hok
    · exact Except.noConfusion hok
    split at hok
    · exact Except.noConfusion hok
    rename_i a1 sources hsrc a2 rec hrec a3 names hnames a4 paths hpaths
    injection hok with h
    subst h
    injection hrec with h2
    exact h2.symm

/-- C10, witness: concrete argument lists for each of the four parts —
no `source`; an object-typed `source`; a string `source` with a numeric
`recursive`; and a well-formed call with `recursive` absent, whose
validated record carries `recursive = true`. -/
theorem claim10_files_validation_witness :
    files noFiles [] = Except.error (Value.str filesMsgSource) ∧
    files noFiles [("source".toList, Value.num 3)] =
      Except.error (Value.str filesMsgSource) ∧
    files noFiles [("source".toList, Value.str ("./x".toList)),
        ("recursive".toList, Value.num 1)] =
      Except.error (Value.str filesMsgRecursive) ∧
    filesValidate [("source".toList, Value.str ("./x".toList))] =
      Except.ok ⟨[("./x".toList)], true, [], []⟩ ∧
    (FilesArgs.mk [("./x".toList)] true [] []).recursive = true := by
  refine ⟨?_, ?_, ?_, rfl, ?_⟩
  · exact claim10_files_validation.1 noFiles [] rfl
  · exact claim10_files_validation.2.1 noFiles [("source".toList, Value.num 3)]
      (Value.num 3) rfl (fun s h => Value.noConfusion h) (fun vs h => Value.noConfusion h)
  · exact claim10_files_validation.2.2.1 noFiles
      [("source".toList, Value.str ("./x".toList)), ("recursive".toList, Value.num 1)]
      ("./x".toList) (Value.num 1) rfl rfl (fun b h => Value.noConfusion h)
  · exact claim10_files_validation.2.2.2
      [("source".toList, Value.str ("./x".toList))] ⟨[("./x".toList)], true, [], []⟩ rfl rfl

/-! ### C2: loop-open/loop-close pairing -/

/-- Counterexample template of C2: a loop-close written directly after the
loop-open tag on the same line, then a nested loop on its own lines, then
two more loop-closes. -/
def tplC2 : Str :=
  "\x7b\x7bforeach a in xs\x7d\x7d\x7b\x7bendfor\x7d\x7d\n\x7b\x7bforeach b in ys\x7d\x7d\n\x7b\x7bendfor\x7d\x7d\n\x7b\x7bendfor\x7d\x7d\n".toList

/-- Context of the C2 counterexample. -/
def ctxC2 : List (Str × Value) := [("xs".toList, Value.arr [Value.str ("1".toList)])]

/-- The first loop-open match of `tplC2`. -/
def fmC2 : FM := ⟨0, 19, "a".toList, "xs".toList, none⟩

/-- The loop-close the engine actually locates for `fmC2`. -/
def emC2 : EM := ⟨50, 61⟩

/-- The engine's output on the C2 counterexample. -/
def outC2engine : Str := "\n\x7b\x7bforeach b in ys\x7d\x7d\n\n".toList

/-- C2, counterexample.  The template's recognized loop tags (scanning the
whole template, where a tag is recognized only at a line start) are
loop-opens at 0 and 30 and loop-closes at 50 and 61 — balanced, properly
nested.  The claim's counter scan over the recognized events strictly
after the opening tag — open at 30 increments, close at 50 decrements —
designates the close at 61 as the match of the open at 0.  The engine,
however, scans the slice after the open with `find_iter`, which treats
the slice start as a line start and so also sees the `(?m)^`-anchored
close tag at slice offset 0 (absolute 19) that the whole-template scan
rejects; the counter hits 0 immediately and `find_at`, which keeps the
whole template's line structure, then resolves that offset to the close
at 50 — an inner-depth close, not 61.  Consequently the rendered output
keeps a literal loop-open tag, while the claim's formula
`render(before) + iterations + render(after)` taken at the same-depth
close 61 yields `"\n"`. -/
theorem claim2_nesting_counterexample :
    findIterFAux tplC2 true 0 0 =
      [⟨0, 19, "a".toList, "xs".toList, none⟩,
       ⟨30, 50, "b".toList, "ys".toList, none⟩] ∧
    findIterEAux tplC2 true 0 0 = [⟨50, 61⟩, ⟨61, 72⟩] ∧
    scanEvents [(30, true), (50, false), (61, false)] 0 = some 61 ∧
    findF tplC2 = some fmC2 ∧
    scanEvents (eventsOf (tplC2.drop fmC2.stop)) 0 = some 0 ∧
    findEAt tplC2 (fmC2.stop + 0) = some emC2 ∧
    emC2.start = 50 ∧
    collectionValue noFiles fmC2 (Value.obj ctxC2) =
      Except.ok (Value.arr [Value.str ("1".toList)]) ∧
    render noFiles tplC2 ctxC2 = some (Except.ok outC2engine) ∧
    exSeq (renderRec noFiles (tplC2.take fmC2.start) (Value.obj ctxC2))
      (exSeq (renderList noFiles (sliceStr tplC2 fmC2.stop 61) fmC2.item (Value.obj ctxC2)
          (itemsOf (Value.arr [Value.str ("1".toList)])))
        (renderRec noFiles (tplC2.drop 72) (Value.obj ctxC2))) =
      some (Except.ok ("\n".toList)) ∧
    outC2engine ≠ "\n".toList := by
  refine ⟨rfl, rfl, rfl, rfl, rfl, rfl, rfl, rfl, ?_, ?_, by decide⟩
  · show renderRec noFiles tplC2 (Value.obj ctxC2) = some (Except.ok outC2engine)
    have hf : findF tplC2 = some fmC2 := rfl
    have hs : scanEvents (eventsOf (tplC2.drop fmC2.stop)) 0 = some 0 := rfl
    have he : findEAt tplC2 (fmC2.stop + 0) = some emC2 := rfl
    have hb : findF (tplC2.take fmC2.start) = none := rfl
    rw [renderRec_before_ok hf hs he hb]
    have hcv : collectionValue noFiles fmC2 (Value.obj ctxC2) =
        Except.ok (Value.arr [Value.str ("1".toList)]) := rfl
    rw [hcv]
    show exAppend (renderVariables (tplC2.take fmC2.start) (Value.obj ctxC2))
      (exSeq (renderList noFiles (sliceStr tplC2 fmC2.stop emC2.start) fmC2.item
          (Value.obj ctxC2) (itemsOf (Value.arr [Value.str ("1".toList)])))
        (renderRec noFiles (tplC2.drop emC2.stop) (Value.obj ctxC2))) =
      some (Except.ok outC2engine)
    rw [show itemsOf (Value.arr [Value.str ("1".toList)]) = [Value.str ("1".toList)] from rfl]
    rw [show fmC2.item = "a".toList from rfl]
    rw [renderList_cons_obj]
    have hfB : findF (sliceStr tplC2 fmC2.stop emC2.start) =
        some (⟨11, 31, "b".toList, "ys".toList, none⟩ : FM) := rfl
    have hsB : scanEvents
        (eventsOf ((sliceStr tplC2 fmC2.stop emC2.start).drop
          ((⟨11, 31, "b".toList, "ys".toList, none⟩ : FM).stop))) 0 = none := rfl
    rw [@renderRec_noclose noFiles (sliceStr tplC2 fmC2.stop emC2.start)
      (Value.obj (insertKV ctxC2 ("a".toList) (Value.str ("1".toList))))
      ⟨11, 31, "b".toList, "ys".toList, none⟩ hfB hsB]
    rw [renderList_nil]
    rw [@renderRec_noloop noFiles (tplC2.drop emC2.stop) (Value.obj ctxC2) rfl]
    rfl
  · rw [show tplC2.take fmC2.start = ([] : Str) from rfl]
    rw [@renderRec_noloop noFiles ([] : Str) (Value.obj ctxC2) rfl]
    rw [show itemsOf (Value.arr [Value.str ("1".toList)]) = [Value.str ("1".toList)] from rfl]
    rw [show fmC2.item = "a".toList from rfl]
    rw [renderList_cons_obj]
    have hf61 : findF (sliceStr tplC2 fmC2.stop 61) =
        some (⟨11, 31, "b".toList, "ys".toList, none⟩ : FM) := rfl
    have hs61 : scanEvents
        (eventsOf ((sliceStr tplC2 fmC2.stop 61).drop
          ((⟨11, 31, "b".toList, "ys".toList, none⟩ : FM).stop))) 0 = some 0 := rfl
    have he61 : findEAt (sliceStr tplC2 fmC2.stop 61)
        ((⟨11, 31, "b".toList, "ys".toList, none⟩ : FM).stop + 0) = some (⟨31, 42⟩ : EM) := rfl
    have hb61 : findF ((sliceStr tplC2 fmC2.stop 61).take
        ((⟨11, 31, "b".toList, "ys".toList, none⟩ : FM).start)) = none := rfl
    rw [@renderRec_before_ok noFiles (sliceStr tplC2 fmC2.stop 61)
      (Value.obj (insertKV ctxC2 ("a".toList) (Value.str ("1".toList))))
      ⟨11, 31, "b".toList, "ys".toList, none⟩ 0 ⟨31, 42⟩ hf61 hs61 he61 hb61]
    have hcv61 : collectionValue noFiles (⟨11, 31, "b".toList, "ys".toList, none⟩ : FM)
        (Value.obj (insertKV ctxC2 ("a".toList) (Value.str ("1".toList)))) =
        Except.ok (Value.arr []) := rfl
    rw [hcv61]
    show exSeq (some (Except.ok (renderVariables ([] : Str) (Value.obj ctxC2))))
      (exSeq (exSeq (exAppend
        (renderVariables ((sliceStr tplC2 fmC2.stop 61).take
          ((⟨11, 31, "b".toList, "ys".toList, none⟩ : FM).start))
          (Value.obj (insertKV ctxC2 ("a".toList) (Value.str ("1".toList)))))
        (exSeq (renderList noFiles
            (sliceStr (sliceStr tplC2 fmC2.stop 61)
              ((⟨11, 31, "b".toList, "ys".toList, none⟩ : FM).stop) (31 : Nat))
            ("b".toList)
            (Value.obj (insertKV ctxC2 ("a".toList) (Value.str ("1".toList))))
            (itemsOf (Value.arr [])))
          (renderRec noFiles ((sliceStr tplC2 fmC2.stop 61).drop (42 : Nat))
            (Value.obj (insertKV ctxC2 ("a".toList) (Value.str ("1".toList)))))))
        (renderList noFiles (sliceStr tplC2 fmC2.stop 61) ("a".toList)
          (Value.obj ctxC2) []))
        (renderRec noFiles (tplC2.drop 72) (Value.obj ctxC2))) =
      some (Except.ok ("\n".toList))
    rw [show itemsOf (Value.arr ([] : List Value)) = ([] : List Value) from rfl]
    rw [renderList_nil, renderList_nil]
    rw [@renderRec_noloop noFiles ((sliceStr tplC2 fmC2.stop 61).drop (42 : Nat))
      (Value.obj (insertKV ctxC2 ("a".toList) (Value.str ("1".toList)))) rfl]
    rw [@renderRec_noloop noFiles (tplC2.drop 72) (Value.obj ctxC2) rfl]
    rfl

/-! ### C2, amendment: templates whose loop tags stand on their own lines

The counterexample shows the pairing fails when a loop tag does not stand
at a position that is a line start of every slice it is searched in.  The
amended claim restricts templates to the flattening of a loop *forest*:
literal chunks whose last line contains a non-whitespace character (so
the `^\s*` group of a following tag cannot absorb preceding lines), which
end in a newline and contain no tag literal, alternating with loops whose
canonical open tag `\x7b\x7bforeach item in src\x7d\x7d` and close tag
`\x7b\x7bendfor\x7d\x7d` each occupy one line.  On such templates the
engine provably pairs every loop-open with the loop-close at the same
nesting depth and renders `before`, the iterations, and `after` exactly
as the claim states. -/

/-- The canonical loop-open tag line. -/
def tagF (it src : Str) : Str :=
  "\x7b\x7bforeach ".toList ++ it ++ " in ".toList ++ src ++ "\x7d\x7d\n".toList

/-- The canonical loop-close tag line. -/
def tagE : Str := "\x7b\x7bendfor\x7d\x7d\n".toList

/-- A template forest: literal chunks and loops with item, source and a
nested body forest. -/
inductive TNode where
  | lit : Str → TNode
  | loop : Str → Str → List TNode → TNode

mutual

/-- Flatten one node to template text. -/
def flattenN : TNode → Str
  | TNode.lit s => s
  | TNode.loop it src body => tagF it src ++ (flattenF body ++ tagE)

/-- Flatten a forest to template text. -/
def flattenF : List TNode → Str
  | [] => []
  | n :: ns => flattenN n ++ flattenF ns

end

/-- A well-formed literal chunk: it ends in a newline, its last line
contains a non-whitespace character (`x`, followed only by non-newline
whitespace `w`), and neither tag literal occurs in it. -/
def chunkWF (s : Str) : Prop :=
  ∃ a x w, s = a ++ x :: w ++ ['\n'] ∧ isWs x = false ∧ (¬ '\n' ∈ w) ∧
    (∀ c ∈ w, isWs c = true) ∧
    occursIn foreachLit s = false ∧ occursIn endforLit s = false

mutual

/-- Well-formedness of one forest node. -/
def nodeWF : TNode → Prop
  | TNode.lit s => chunkWF s
  | TNode.loop it src body =>
    it ≠ [] ∧ (∀ c ∈ it, isWordChar c = true) ∧
    src ≠ [] ∧ (∀ c ∈ src, isPathChar c = true) ∧ forestWF body

/-- Well-formedness of a forest. -/
def forestWF : List TNode → Prop
  | [] => True
  | n :: ns => nodeWF n ∧ forestWF ns

end

theorem flattenF_nil : flattenF [] = [] := rfl

theorem flattenF_cons (n : TNode) (ns : List TNode) :
    flattenF (n :: ns) = flattenN n ++ flattenF ns := rfl

theorem flattenN_lit (s : Str) : flattenN (TNode.lit s) = s := rfl

theorem flattenN_loop (it src : Str) (body : List TNode) :
    flattenN (TNode.loop it src body) = tagF it src ++ (flattenF body ++ tagE) := rfl

/-- Split a forest at its first loop: the concatenation of the literal
chunks before it and, if a loop exists, its item, source, body and the
trailing forest. -/
def splitLoop : List TNode → Str × Option (Str × Str × List TNode × List TNode)
  | [] => ([], none)
  | TNode.lit s :: ns => (s ++ (splitLoop ns).1, (splitLoop ns).2)
  | TNode.loop it src body :: ns => ([], some (it, src, body, ns))

theorem splitLoop_size : ∀ (ns : List TNode) (pre it src : Str)
    (body rest : List TNode),
    splitLoop ns = (pre, some (it, src, body, rest)) →
    sizeOf body < sizeOf ns ∧ sizeOf rest < sizeOf ns := by
  intro ns
  induction ns with
  | nil =>
    intro pre it src body rest h
    simp [splitLoop] at h
  | cons n ns ih =>
    intro pre it src body rest h
    cases n with
    | lit s =>
      simp only [splitLoop] at h
      injection h with h1 h2
      have hsp : splitLoop ns = ((splitLoop ns).1, some (it, src, body, rest)) := by
        rw [← h2]
      have := ih (splitLoop ns).1 it src body rest hsp
      simp only [List.cons.sizeOf_spec]
      omega
    | loop it' src' body' =>
      simp only [splitLoop] at h
      injection h with h1 h2
      injection h2 with h3
      injection h3 with h4 h5
      injection h5 with h6 h7
      injection h7 with h8 h9
      subst h4 h6 h8 h9
      simp only [List.cons.sizeOf_spec, TNode.loop.sizeOf_spec]
      omega

/-- When the forest has no loop, its flattening is the chunk
concatenation returned by `splitLoop`. -/
theorem splitLoop_none_flatten : ∀ (ns : List TNode) (pre : Str),
    splitLoop ns = (pre, none) → flattenF ns = pre := by
  intro ns
  induction ns with
  | nil => intro pre h; injection h with h1 h2
  | cons n ns ih =>
    intro pre h
    cases n with
    | lit s =>
      simp only [splitLoop] at h
      injection h with h1 h2
      rw [flattenF_cons, flattenN_lit, ← h1]
      rw [ih (splitLoop ns).1 ?_]
      rw [← h2]
    | loop it src body =>
      simp only [splitLoop] at h
      injection h with h1 h2
      exact Option.noConfusion h2

/-- Splitting at the first loop decomposes both the flattening and the
well-formedness assumptions. -/
theorem splitLoop_some : ∀ (ns : List TNode) (pre it src : Str)
    (body rest : List TNode), forestWF ns →
    splitLoop ns = (pre, some (it, src, body, rest)) →
    flattenF ns = pre ++ (tagF it src ++ (flattenF body ++ (tagE ++ flattenF rest))) ∧
    it ≠ [] ∧ (∀ c ∈ it, isWordChar c = true) ∧
    src ≠ [] ∧ (∀ c ∈ src, isPathChar c = true) ∧
    forestWF body ∧ forestWF rest := by
  intro ns
  induction ns with
  | nil =>
    intro pre it src body rest hwf h
    simp [splitLoop] at h
  | cons n ns ih =>
    intro pre it src body rest hwf h
    cases n with
    | lit s =>
      simp only [splitLoop] at h
      injection h with h1 h2
      have hsp : splitLoop ns = ((splitLoop ns).1, some (it, src, body, rest)) := by
        rw [← h2]
      have hrec := ih (splitLoop ns).1 it src body rest hwf.2 hsp
      refine ⟨?_, hrec.2⟩
      rw [flattenF_cons, flattenN_lit, hrec.1, ← h1]
      simp [List.append_assoc]
    | loop it' src' body' =>
      simp only [splitLoop] at h
      injection h with h1 h2
      injection h2 with h3
      injection h3 with h4 h5
      injection h5 with h6 h7
      injection h7 with h8 h9
      subst h4 h6 h8 h9
      have hn := hwf.1
      rw [nodeWF] at hn
      refine ⟨?_, hn.1, hn.2.1, hn.2.2.1, hn.2.2.2.1, hn.2.2.2.2, hwf.2⟩
      rw [flattenF_cons, flattenN_loop, ← h1]
      simp [List.append_assoc]

theorem spanP_cons_true {q : Char → Bool} {c : Char} {t : Str} (hc : q c = true) :
    spanP q (c :: t) = (c :: (spanP q t).1, (spanP q t).2) := by
  simp only [spanP, hc, if_true]

theorem spanP_cons_true_stop {q : Char → Bool} {c : Char} {t : Str}
    (hc : q c = true) (ht : spanP q t = ([], t)) :
    spanP q (c :: t) = ([c], t) := by
  rw [spanP_cons_true hc, ht]

theorem eatStr_some_prefix : ∀ {p s r : Str}, eatStr p s = some r → s = p ++ r := by
  intro p
  induction p with
  | nil => intro s r h; simp [eatStr] at h; simp [h]
  | cons a ps ih =>
    intro s r h
    cases s with
    | nil => simp [eatStr] at h
    | cons c cs =>
      rw [eatStr] at h
      split at h
      · rename_i hc
        rw [hc, List.cons_append, ih h]
      · exact Option.noConfusion h

theorem occursIn_of_eatStr {pat s r : Str} (h : eatStr pat s = some r) :
    occursIn pat s = true := by
  cases s with
  | nil =>
    cases pat with
    | nil => rfl
    | cons p ps => simp [eatStr] at h
  | cons c cs =>
    rw [occursIn, h]
    rfl

theorem occursIn_tail {pat : Str} {c : Char} {s : Str}
    (h : occursIn pat (c :: s) = false) : occursIn pat s = false := by
  rw [occursIn] at h
  exact (Bool.or_eq_false_iff.mp h).2

/-- A literal without a newline cannot be consumed at the head of a text
that starts with a chunk suffix containing a newline and avoiding the
literal: either the literal would fit inside the chunk suffix (an
occurrence) or it would have to cover the newline. -/
theorem eatStr_chunk_none (lit : Str) (hnl : ¬ '\n' ∈ lit) (C u : Str)
    (hC : '\n' ∈ C) (hno : occursIn lit C = false) :
    eatStr lit (C ++ u) = none := by
  cases h : eatStr lit (C ++ u) with
  | none => rfl
  | some r =>
    exfalso
    have hpre : C ++ u = lit ++ r := eatStr_some_prefix h
    have htake := congrArg (List.take lit.length) hpre
    rw [List.take_append_eq_append_take, List.take_left] at htake
    rcases le_or_lt C.length lit.length with hle | hlt
    · rw [List.take_all_of_le hle] at htake
      exact hnl (htake ▸ List.mem_append_left _ hC)
    · have h0 : lit.length - C.length = 0 := by omega
      rw [h0] at htake
      simp only [List.take_zero, List.append_nil] at htake
      have hC2 : C = lit ++ C.drop lit.length := by
        conv_lhs => rw [← List.take_append_drop lit.length C]
        rw [htake]
      have hocc : occursIn lit C = true := by
        rw [hC2]
        exact occursIn_of_eatStr eatStr_self
      rw [hocc] at hno
      exact Bool.noConfusion hno

/-- From any position inside a well-formed chunk, the whitespace group
`\s*` stops at a non-whitespace character still inside the chunk, and a
newline-free literal then cannot match there. -/
theorem eat_after_ws_fail (lit : Str) (hnl : ¬ '\n' ∈ lit) :
    ∀ (d : Str) (x : Char) (w u : Str), isWs x = false →
      occursIn lit (d ++ x :: w ++ ['\n']) = false →
      eatStr lit (spanP isWs (d ++ x :: w ++ '\n' :: u)).2 = none := by
  intro d
  induction d with
  | nil =>
    intro x w u hx hno
    rw [List.nil_append, List.cons_append, spanP_cons_false hx]
    show eatStr lit (x :: (w ++ '\n' :: u)) = none
    have hCu : ((x :: w) ++ ['\n']) ++ u = x :: (w ++ '\n' :: u) := by simp
    rw [← hCu]
    refine eatStr_chunk_none lit hnl _ u (by simp) ?_
    simpa using hno
  | cons c d' ih =>
    intro x w u hx hno
    by_cases hc : isWs c = true
    · have hsp : spanP isWs ((c :: d') ++ x :: w ++ '\n' :: u) =
          (c :: (spanP isWs (d' ++ x :: w ++ '\n' :: u)).1,
           (spanP isWs (d' ++ x :: w ++ '\n' :: u)).2) := by
        rw [List.cons_append]
        exact spanP_cons_true hc
      rw [hsp]
      refine ih x w u hx (occursIn_tail (c := c) ?_)
      simpa using hno
    · have hc' : isWs c = false := by simpa using hc
      have hsp : spanP isWs ((c :: d') ++ x :: w ++ '\n' :: u) =
          ([], (c :: d') ++ x :: w ++ '\n' :: u) := by
        rw [List.cons_append]
        exact spanP_cons_false hc'
      rw [hsp]
      have hCu : ((c :: d') ++ x :: w ++ ['\n']) ++ u = (c :: d') ++ x :: w ++ '\n' :: u := by
        simp
      rw [← hCu]
      exact eatStr_chunk_none lit hnl _ u (by simp) hno

/-- RE_FOREACH cannot match at any line start inside a well-formed
chunk. -/
theorem attemptForeach_chunk_none {d : Str} {x : Char} {w u : Str}
    (hx : isWs x = false)
    (hno : occursIn foreachLit (d ++ x :: w ++ ['\n']) = false) :
    attemptForeach (d ++ x :: w ++ '\n' :: u) = none := by
  unfold attemptForeach attemptForeachCore
  rw [eat_after_ws_fail foreachLit (by decide) d x w u hx hno]
  rfl

/-- RE_ENDFOR cannot match at any line start inside a well-formed
chunk. -/
theorem attemptEndfor_chunk_none {d : Str} {x : Char} {w u : Str}
    (hx : isWs x = false)
    (hno : occursIn endforLit (d ++ x :: w ++ ['\n']) = false) :
    attemptEndfor (d ++ x :: w ++ '\n' :: u) = none := by
  unfold attemptEndfor
  rw [eat_after_ws_fail endforLit (by decide) d x w u hx hno]

theorem wordChar_not_ws {c : Char} (h : isWordChar c = true) : isWs c = false :=
  pathChar_not_ws (by simp [isPathChar, h])

theorem not_ws_ne_nl {c : Char} (h : isWs c = false) : ¬ c = '\n' := by
  intro he
  rw [he] at h
  exact absurd h (by decide)

/-- RE_FOREACH matches the canonical loop-open tag, capturing exactly the
item and the source and consuming exactly the tag (its final newline
included). -/
theorem attemptForeach_tagF {it src : Str} (hit : it ≠ [])
    (hitw : ∀ c ∈ it, isWordChar c = true) (hsrc : src ≠ [])
    (hsrcp : ∀ c ∈ src, isPathChar c = true) (u : Str) :
    attemptForeach (tagF it src ++ u) =
      some ⟨it, src, none, (tagF it src).length, true⟩ := by
  obtain ⟨i0, it', rfl⟩ : ∃ c cs, it = c :: cs := by
    cases it with
    | nil => exact absurd rfl hit
    | cons a b => exact ⟨a, b, rfl⟩
  obtain ⟨s0, src', rfl⟩ : ∃ c cs, src = c :: cs := by
    cases src with
    | nil => exact absurd rfl hsrc
    | cons a b => exact ⟨a, b, rfl⟩
  have hi0 : isWs i0 = false := wordChar_not_ws (hitw i0 (by simp))
  have hs0 : isWs s0 = false := pathChar_not_ws (hsrcp s0 (by simp))
  have hcan : tagF (i0 :: it') (s0 :: src') ++ u =
      foreachLit ++ (' ' :: ((i0 :: it') ++ (' ' :: (("in".toList) ++
        (' ' :: ((s0 :: src') ++ (rbrace :: (rbrace :: ('\n' :: u))))))))) := by
    have e1 : ("\x7b\x7bforeach ".toList : Str) = foreachLit ++ [' '] := rfl
    have e2 : (" in ".toList : Str) = ' ' :: (("in".toList) ++ [' ']) := rfl
    have e3 : ("\x7d\x7d\n".toList : Str) = rbrace :: (rbrace :: ('\n' :: [])) := rfl
    rw [tagF, e1, e2, e3]
    simp [List.append_assoc]
  have h3a : spanP isWs ((i0 :: it') ++ (' ' :: (("in".toList) ++
      (' ' :: ((s0 :: src') ++ (rbrace :: (rbrace :: ('\n' :: u)))))))) =
      ([], (i0 :: it') ++ (' ' :: (("in".toList) ++
        (' ' :: ((s0 :: src') ++ (rbrace :: (rbrace :: ('\n' :: u)))))))) := by
    rw [List.cons_append]
    exact spanP_cons_false hi0
  have h3 : spanP isWs (' ' :: ((i0 :: it') ++ (' ' :: (("in".toList) ++
      (' ' :: ((s0 :: src') ++ (rbrace :: (rbrace :: ('\n' :: u))))))))) =
      ([' '], (i0 :: it') ++ (' ' :: (("in".toList) ++
        (' ' :: ((s0 :: src') ++ (rbrace :: (rbrace :: ('\n' :: u)))))))) :=
    spanP_cons_true_stop (by decide) h3a
  have h4 : spanP isWordChar ((i0 :: it') ++ (' ' :: (("in".toList) ++
      (' ' :: ((s0 :: src') ++ (rbrace :: (rbrace :: ('\n' :: u)))))))) =
      (i0 :: it', ' ' :: (("in".toList) ++
        (' ' :: ((s0 :: src') ++ (rbrace :: (rbrace :: ('\n' :: u))))))) :=
    spanP_all_append hitw (by decide)
  have h5a : spanP isWs (("in".toList) ++
      (' ' :: ((s0 :: src') ++ (rbrace :: (rbrace :: ('\n' :: u)))))) =
      ([], ("in".toList) ++ (' ' :: ((s0 :: src') ++ (rbrace :: (rbrace :: ('\n' :: u)))))) :=
    rfl
  have h5 : spanP isWs (' ' :: (("in".toList) ++
      (' ' :: ((s0 :: src') ++ (rbrace :: (rbrace :: ('\n' :: u))))))) =
      ([' '], ("in".toList) ++ (' ' :: ((s0 :: src') ++ (rbrace :: (rbrace :: ('\n' :: u)))))) :=
    spanP_cons_true_stop (by decide) h5a
  have h6 : eatStr ("in".toList) (("in".toList) ++
      (' ' :: ((s0 :: src') ++ (rbrace :: (rbrace :: ('\n' :: u)))))) =
      some (' ' :: ((s0 :: src') ++ (rbrace :: (rbrace :: ('\n' :: u))))) :=
    eatStr_self
  have h7a : spanP isWs ((s0 :: src') ++ (rbrace :: (rbrace :: ('\n' :: u)))) =
      ([], (s0 :: src') ++ (rbrace :: (rbrace :: ('\n' :: u)))) := by
    rw [List.cons_append]
    exact spanP_cons_false hs0
  have h7 : spanP isWs (' ' :: ((s0 :: src') ++ (rbrace :: (rbrace :: ('\n' :: u))))) =
      ([' '], (s0 :: src') ++ (rbrace :: (rbrace :: ('\n' :: u)))) :=
    spanP_cons_true_stop (by decide) h7a
  have hH : foreachHead (' ' :: ((i0 :: it') ++ (' ' :: (("in".toList) ++
      (' ' :: ((s0 :: src') ++ (rbrace :: (rbrace :: ('\n' :: u))))))))) =
      some (i0 :: it', (s0 :: src') ++ (rbrace :: (rbrace :: ('\n' :: u)))) := by
    unfold foreachHead
    simp only [h3, h4, h5, h6, h7, List.isEmpty_cons, Bool.false_eq_true, if_false]
  have hS : foreachSrcArgs ((s0 :: src') ++ (rbrace :: (rbrace :: ('\n' :: u)))) =
      some (s0 :: src', none, rbrace :: (rbrace :: ('\n' :: u))) := by
    have h8 : spanP isPathChar ((s0 :: src') ++ (rbrace :: (rbrace :: ('\n' :: u)))) =
        (s0 :: src', rbrace :: (rbrace :: ('\n' :: u))) :=
      spanP_all_append hsrcp (by decide)
    unfold foreachSrcArgs
    rw [h8]
    rfl
  have hT : foreachTail (rbrace :: (rbrace :: ('\n' :: u))) = some (u, true) := rfl
  have hcore : attemptForeachCore (tagF (i0 :: it') (s0 :: src') ++ u) =
      some ⟨i0 :: it', s0 :: src', none, u, true⟩ := by
    rw [hcan]
    unfold attemptForeachCore
    have h1 : spanP isWs (foreachLit ++ (' ' :: ((i0 :: it') ++ (' ' :: (("in".toList) ++
        (' ' :: ((s0 :: src') ++ (rbrace :: (rbrace :: ('\n' :: u)))))))))) =
        ([], foreachLit ++ (' ' :: ((i0 :: it') ++ (' ' :: (("in".toList) ++
          (' ' :: ((s0 :: src') ++ (rbrace :: (rbrace :: ('\n' :: u)))))))))) := rfl
    simp only [h1, eatStr_self, hH, hS, hT]
  unfold attemptForeach
  rw [hcore]
  show some (⟨i0 :: it', s0 :: src', none,
      (tagF (i0 :: it') (s0 :: src') ++ u).length - u.length, true⟩ : FA) = _
  rw [List.length_append, Nat.add_sub_cancel]

/-- RE_ENDFOR matches the canonical loop-close tag, consuming exactly its
11 characters (final newline included). -/
theorem attemptEndfor_tagE (u : Str) : attemptEndfor (tagE ++ u) = some (11, true) := by
  have h : attemptEndfor (tagE ++ u) = some ((tagE ++ u).length - u.length, true) := rfl
  rw [h, List.length_append]
  rw [show tagE.length = 11 from rfl, Nat.add_sub_cancel]

/-- RE_FOREACH does not match at a loop-close tag. -/
theorem attemptForeach_tagE_none (u : Str) : attemptForeach (tagE ++ u) = none := rfl

/-- RE_ENDFOR does not match at a loop-open tag. -/
theorem attemptEndfor_tagF_none (it src u : Str) :
    attemptEndfor (tagF it src ++ u) = none := rfl

/-- One scanner step of the loop-open scanner when the attempt fails (or
the position is not a line start). -/
theorem findIterFAux_cons_none {c : Char} {cs : Str} {pos : Nat} (ls : Bool)
    (h : attemptForeach (c :: cs) = none) :
    findIterFAux (c :: cs) ls pos 0 =
      findIterFAux cs (decide (c = '\n')) (pos + 1) 0 := by
  cases ls with
  | false => rw [findIterFAux, if_neg (by decide)]
  | true => rw [findIterFAux, if_pos rfl, h]

/-- One scanner step of the loop-open scanner at a successful match. -/
theorem findIterFAux_cons_some {c : Char} {cs : Str} {pos : Nat} {fa : FA}
    (h : attemptForeach (c :: cs) = some fa) :
    findIterFAux (c :: cs) true pos 0 =
      ⟨pos, pos + fa.len, fa.item, fa.src, fa.fnArgs⟩ ::
        findIterFAux cs (decide (c = '\n')) (pos + 1) (fa.len - 1) := by
  rw [findIterFAux, if_pos rfl, h]

/-- One scanner step of the loop-close scanner when the attempt fails (or
the position is not a line start). -/
theorem findIterEAux_cons_none {c : Char} {cs : Str} {pos : Nat} (ls : Bool)
    (h : attemptEndfor (c :: cs) = none) :
    findIterEAux (c :: cs) ls pos 0 =
      findIterEAux cs (decide (c = '\n')) (pos + 1) 0 := by
  cases ls with
  | false => rw [findIterEAux, if_neg (by decide)]
  | true => rw [findIterEAux, if_pos rfl, h]

/-- One scanner step of the loop-close scanner at a successful match. -/
theorem findIterEAux_cons_some {c : Char} {cs : Str} {pos len : Nat} {b : Bool}
    (h : attemptEndfor (c :: cs) = some (len, b)) :
    findIterEAux (c :: cs) true pos 0 =
      ⟨pos, pos + len⟩ :: findIterEAux cs (decide (c = '\n')) (pos + 1) (len - 1) := by
  rw [findIterEAux, if_pos rfl, h]

/-- The loop-open scanner walks a newline-free stretch in non-line-start
state without attempting a match. -/
theorem findIterF_noNL : ∀ (w : Str), ¬ '\n' ∈ w → ∀ (u : Str) (pos : Nat),
    findIterFAux (w ++ '\n' :: u) false pos 0 =
      findIterFAux u true (pos + w.length + 1) 0 := by
  intro w
  induction w with
  | nil =>
    intro _ u pos
    rw [List.nil_append, findIterFAux, if_neg (by decide)]
    rw [show (decide ('\n' = '\n')) = true from by decide]
    have h : pos + List.length ([] : Str) + 1 = pos + 1 := by simp
    rw [h]
  | cons c w' ih =>
    intro hw u pos
    have hc : ¬ (c = '\n') := fun h => hw (by rw [h]; exact List.mem_cons_self _ _)
    rw [List.cons_append, findIterFAux, if_neg (by decide)]
    rw [decide_eq_false hc, ih (fun h => hw (List.mem_cons_of_mem _ h)) u (pos + 1)]
    have h : pos + 1 + w'.length + 1 = pos + (c :: w').length + 1 := by
      simp only [List.length_cons]; omega
    rw [h]

/-- The loop-close scanner walks a newline-free stretch in non-line-start
state without attempting a match. -/
theorem findIterE_noNL : ∀ (w : Str), ¬ '\n' ∈ w → ∀ (u : Str) (pos : Nat),
    findIterEAux (w ++ '\n' :: u) false pos 0 =
      findIterEAux u true (pos + w.length + 1) 0 := by
  intro w
  induction w with
  | nil =>
    intro _ u pos
    rw [List.nil_append, findIterEAux, if_neg (by decide)]
    rw [show (decide ('\n' = '\n')) = true from by decide]
    have h : pos + List.length ([] : Str) + 1 = pos + 1 := by simp
    rw [h]
  | cons c w' ih =>
    intro hw u pos
    have hc : ¬ (c = '\n') := fun h => hw (by rw [h]; exact List.mem_cons_self _ _)
    rw [List.cons_append, findIterEAux, if_neg (by decide)]
    rw [decide_eq_false hc, ih (fun h => hw (List.mem_cons_of_mem _ h)) u (pos + 1)]
    have h : pos + 1 + w'.length + 1 = pos + (c :: w').length + 1 := by
      simp only [List.length_cons]; omega
    rw [h]

/-- The loop-open scanner with an active skip counter walks the rest of a
match that ends in a newline. -/
theorem findIterF_skipNL : ∀ (v u : Str) (ls : Bool) (pos : Nat),
    findIterFAux (v ++ '\n' :: u) ls pos (v.length + 1) =
      findIterFAux u true (pos + v.length + 1) 0 := by
  intro v
  induction v with
  | nil =>
    intro u ls pos
    rw [List.nil_append, List.length_nil, findIterFAux]
    rw [show (decide ('\n' = '\n')) = true from by decide]
  | cons c v' ih =>
    intro u ls pos
    rw [List.cons_append, List.length_cons, findIterFAux, ih u (decide (c = '\n')) (pos + 1)]
    have h : pos + 1 + v'.length + 1 = pos + (v'.length + 1) + 1 := by omega
    rw [h]

/-- The loop-close scanner with an active skip counter walks the rest of
a match that ends in a newline. -/
theorem findIterE_skipNL : ∀ (v u : Str) (ls : Bool) (pos : Nat),
    findIterEAux (v ++ '\n' :: u) ls pos (v.length + 1) =
      findIterEAux u true (pos + v.length + 1) 0 := by
  intro v
  induction v with
  | nil =>
    intro u ls pos
    rw [List.nil_append, List.length_nil, findIterEAux]
    rw [show (decide ('\n' = '\n')) = true from by decide]
  | cons c v' ih =>
    intro u ls pos
    rw [List.cons_append, List.length_cons, findIterEAux, ih u (decide (c = '\n')) (pos + 1)]
    have h : pos + 1 + v'.length + 1 = pos + (v'.length + 1) + 1 := by omega
    rw [h]

/-- The loop-open scanner finds nothing inside a well-formed chunk and
leaves it at its end, in line-start state. -/
theorem findIterF_chunk : ∀ (d : Str) (x : Char) (w u : Str) (ls : Bool) (pos : Nat),
    isWs x = false → ¬ '\n' ∈ w →
    occursIn foreachLit (d ++ (x :: (w ++ ['\n']))) = false →
    findIterFAux (d ++ (x :: (w ++ '\n' :: u))) ls pos 0 =
      findIterFAux u true (pos + d.length + w.length + 2) 0 := by
  intro d
  induction d with
  | nil =>
    intro x w u ls pos hx hw hno
    have haf : attemptForeach (x :: (w ++ '\n' :: u)) = none := by
      have := attemptForeach_chunk_none (d := []) (u := u) hx (by simpa using hno)
      simpa using this
    rw [List.nil_append, findIterFAux_cons_none ls haf]
    rw [decide_eq_false (not_ws_ne_nl hx), findIterF_noNL w hw u (pos + 1)]
    have h : pos + 1 + w.length + 1 = pos + List.length ([] : Str) + w.length + 2 := by
      simp only [List.length_nil]; omega
    rw [h]
  | cons c d' ih =>
    intro x w u ls pos hx hw hno
    have hafc : attemptForeach (c :: (d' ++ (x :: (w ++ '\n' :: u)))) = none := by
      have := attemptForeach_chunk_none (d := c :: d') (u := u) hx (by simpa using hno)
      simpa using this
    rw [List.cons_append, findIterFAux_cons_none ls hafc]
    rw [ih x w u (decide (c = '\n')) (pos + 1) hx hw (occursIn_tail (by simpa using hno))]
    have h : pos + 1 + d'.length + w.length + 2 =
        pos + (c :: d').length + w.length + 2 := by
      simp only [List.length_cons]; omega
    rw [h]

/-- The loop-close scanner finds nothing inside a well-formed chunk and
leaves it at its end, in line-start state. -/
theorem findIterE_chunk : ∀ (d : Str) (x : Char) (w u : Str) (ls : Bool) (pos : Nat),
    isWs x = false → ¬ '\n' ∈ w →
    occursIn endforLit (d ++ (x :: (w ++ ['\n']))) = false →
    findIterEAux (d ++ (x :: (w ++ '\n' :: u))) ls pos 0 =
      findIterEAux u true (pos + d.length + w.length + 2) 0 := by
  intro d
  induction d with
  | nil =>
    intro x w u ls pos hx hw hno
    have hae : attemptEndfor (x :: (w ++ '\n' :: u)) = none := by
      have := attemptEndfor_chunk_none (d := []) (u := u) hx (by simpa using hno)
      simpa using this
    rw [List.nil_append, findIterEAux_cons_none ls hae]
    rw [decide_eq_false (not_ws_ne_nl hx), findIterE_noNL w hw u (pos + 1)]
    have h : pos + 1 + w.length + 1 = pos + List.length ([] : Str) + w.length + 2 := by
      simp only [List.length_nil]; omega
    rw [h]
  | cons c d' ih =>
    intro x w u ls pos hx hw hno
    have haec : attemptEndfor (c :: (d' ++ (x :: (w ++ '\n' :: u)))) = none := by
      have := attemptEndfor_chunk_none (d := c :: d') (u := u) hx (by simpa using hno)
      simpa using this
    rw [List.cons_append, findIterEAux_cons_none ls haec]
    rw [ih x w u (decide (c = '\n')) (pos + 1) hx hw (occursIn_tail (by simpa using hno))]
    have h : pos + 1 + d'.length + w.length + 2 =
        pos + (c :: d').length + w.length + 2 := by
      simp only [List.length_cons]; omega
    rw [h]

/-- The loop-open tag without its first character and final newline. -/
def tagFmid (it src : Str) : Str :=
  "\x7bforeach ".toList ++ it ++ " in ".toList ++ src ++ "\x7d\x7d".toList

/-- The loop-close tag without its first character and final newline. -/
def tagEmid : Str := "\x7bendfor\x7d\x7d".toList

theorem tagF_cons (it src : Str) : tagF it src = lbrace :: (tagFmid it src ++ ['\n']) := by
  have e1 : ("\x7b\x7bforeach ".toList : Str) = lbrace :: "\x7bforeach ".toList := rfl
  have e3 : ("\x7d\x7d\n".toList : Str) = "\x7d\x7d".toList ++ ['\n'] := rfl
  rw [tagF, tagFmid, e1, e3]
  simp [List.append_assoc]

theorem tagE_cons : tagE = lbrace :: (tagEmid ++ ['\n']) := rfl

theorem tagFmid_no_nl {it src : Str} (hitw : ∀ c ∈ it, isWordChar c = true)
    (hsrcp : ∀ c ∈ src, isPathChar c = true) : ¬ '\n' ∈ tagFmid it src := by
  intro hmem
  rw [tagFmid] at hmem
  simp only [List.mem_append] at hmem
  rcases hmem with (((h | h) | h) | h) | h
  · exact absurd h (by decide)
  · exact absurd (hitw '\n' h) (by decide)
  · exact absurd h (by decide)
  · exact absurd (hsrcp '\n' h) (by decide)
  · exact absurd h (by decide)

theorem tagF_len_mid (it src : Str) :
    (tagF it src).length = (tagFmid it src).length + 2 := by
  rw [tagF_cons]
  simp only [List.length_cons, List.length_append, List.length_singleton, List.length_nil]

/-- The loop-open scanner at a canonical loop-open tag: the match is
recorded and the scan resumes just after the tag, at a line start. -/
theorem findIterF_tag {it src : Str} (hit : it ≠ [])
    (hitw : ∀ c ∈ it, isWordChar c = true) (hsrc : src ≠ [])
    (hsrcp : ∀ c ∈ src, isPathChar c = true) (u : Str) (pos : Nat) :
    findIterFAux (tagF it src ++ u) true pos 0 =
      (⟨pos, pos + (tagF it src).length, it, src, none⟩ : FM) ::
        findIterFAux u true (pos + (tagF it src).length) 0 := by
  have hfa := attemptForeach_tagF hit hitw hsrc hsrcp u
  have hdec : tagF it src ++ u = lbrace :: (tagFmid it src ++ ('\n' :: u)) := by
    rw [tagF_cons]
    simp
  rw [hdec] at hfa ⊢
  rw [findIterFAux_cons_some hfa]
  rw [show (decide (lbrace = '\n')) = false from by decide]
  rw [show (tagF it src).length - 1 = (tagFmid it src).length + 1 from by
    rw [tagF_len_mid]; omega]
  rw [findIterF_skipNL (tagFmid it src) u false (pos + 1)]
  rw [show pos + 1 + (tagFmid it src).length + 1 = pos + (tagF it src).length from by
    rw [tagF_len_mid]; omega]

/-- The loop-close scanner walks over a canonical loop-open tag without
matching. -/
theorem findIterE_tagF {it src : Str} (hitw : ∀ c ∈ it, isWordChar c = true)
    (hsrcp : ∀ c ∈ src, isPathChar c = true) (u : Str) (ls : Bool) (pos : Nat) :
    findIterEAux (tagF it src ++ u) ls pos 0 =
      findIterEAux u true (pos + (tagF it src).length) 0 := by
  have hdec : tagF it src ++ u = lbrace :: (tagFmid it src ++ ('\n' :: u)) := by
    rw [tagF_cons]
    simp
  have hea : attemptEndfor (lbrace :: (tagFmid it src ++ ('\n' :: u))) = none := by
    rw [← hdec]
    exact attemptEndfor_tagF_none it src u
  rw [hdec, findIterEAux_cons_none ls hea]
  rw [show (decide (lbrace = '\n')) = false from by decide]
  rw [findIterE_noNL (tagFmid it src) (tagFmid_no_nl hitw hsrcp) u (pos + 1)]
  rw [show pos + 1 + (tagFmid it src).length + 1 = pos + (tagF it src).length from by
    rw [tagF_len_mid]; omega]

/-- The loop-open scanner walks over a canonical loop-close tag without
matching. -/
theorem findIterF_tagE (u : Str) (ls : Bool) (pos : Nat) :
    findIterFAux (tagE ++ u) ls pos 0 = findIterFAux u true (pos + 11) 0 := by
  have hdec : tagE ++ u = lbrace :: (tagEmid ++ ('\n' :: u)) := by
    rw [tagE_cons]
    simp
  have haf : attemptForeach (lbrace :: (tagEmid ++ ('\n' :: u))) = none := by
    rw [← hdec]
    exact attemptForeach_tagE_none u
  rw [hdec, findIterFAux_cons_none ls haf]
  rw [show (decide (lbrace = '\n')) = false from by decide]
  rw [findIterF_noNL tagEmid (by decide) u (pos + 1)]
  rw [show pos + 1 + tagEmid.length + 1 = pos + 11 from by
    rw [show tagEmid.length = 9 from rfl]]

/-- The loop-close scanner at a canonical loop-close tag: the match is
recorded and the scan resumes just after the tag, at a line start. -/
theorem findIterE_tagE (u : Str) (pos : Nat) :
    findIterEAux (tagE ++ u) true pos 0 =
      (⟨pos, pos + 11⟩ : EM) :: findIterEAux u true (pos + 11) 0 := by
  have hea := attemptEndfor_tagE u
  have hdec : tagE ++ u = lbrace :: (tagEmid ++ ('\n' :: u)) := by
    rw [tagE_cons]
    simp
  rw [hdec] at hea ⊢
  rw [findIterEAux_cons_some hea]
  rw [show (decide (lbrace = '\n')) = false from by decide]
  rw [show (11 : Nat) - 1 = tagEmid.length + 1 from by decide]
  rw [findIterE_skipNL tagEmid u false (pos + 1)]
  rw [show pos + 1 + tagEmid.length + 1 = pos + 11 from by
    rw [show tagEmid.length = 9 from rfl]]

/-- One `find_at` step below the minimum position or off a line start. -/
theorem findEAtAux_cons_skip {c : Char} {cs : Str} {ls : Bool} {pos minPos : Nat}
    (h : ¬ (ls = true ∧ minPos ≤ pos)) :
    findEAtAux (c :: cs) ls pos minPos =
      findEAtAux cs (decide (c = '\n')) (pos + 1) minPos := by
  rw [show findEAtAux (c :: cs) ls pos minPos =
    (if ls = true ∧ minPos ≤ pos then
      (match attemptEndfor (c :: cs) with
        | some (len, _) => some ⟨pos, pos + len⟩
        | none => findEAtAux cs (decide (c = '\n')) (pos + 1) minPos)
      else findEAtAux cs (decide (c = '\n')) (pos + 1) minPos) from rfl]
  rw [if_neg h]

/-- One `find_at` step at an admissible line start with a match. -/
theorem findEAtAux_cons_hit {c : Char} {cs : Str} {pos minPos len : Nat} {b : Bool}
    (hp : minPos ≤ pos) (h : attemptEndfor (c :: cs) = some (len, b)) :
    findEAtAux (c :: cs) true pos minPos = some ⟨pos, pos + len⟩ := by
  rw [show findEAtAux (c :: cs) true pos minPos =
    (if true = true ∧ minPos ≤ pos then
      (match attemptEndfor (c :: cs) with
        | some (len, _) => some ⟨pos, pos + len⟩
        | none => findEAtAux cs (decide (c = '\n')) (pos + 1) minPos)
      else findEAtAux cs (decide (c = '\n')) (pos + 1) minPos) from rfl]
  rw [if_pos ⟨rfl, hp⟩, h]

/-- `find_at` skips every position strictly below the minimum position,
whatever the text there is. -/
theorem findEAt_pre : ∀ (v u : Str) (ls : Bool) (pos minPos : Nat),
    pos + v.length < minPos →
    findEAtAux (v ++ '\n' :: u) ls pos minPos =
      findEAtAux u true (pos + v.length + 1) minPos := by
  intro v
  induction v with
  | nil =>
    intro u ls pos minPos hlt
    simp only [List.length_nil, Nat.add_zero] at hlt ⊢
    rw [List.nil_append, findEAtAux_cons_skip (fun hc => absurd hc.2 (by omega))]
    rw [show (decide ('\n' = '\n')) = true from by decide]
  | cons c v' ih =>
    intro u ls pos minPos hlt
    simp only [List.length_cons] at hlt ⊢
    rw [List.cons_append, findEAtAux_cons_skip (fun hc => absurd hc.2 (by omega))]
    rw [ih u (decide (c = '\n')) (pos + 1) minPos (by omega)]
    rw [show pos + 1 + v'.length + 1 = pos + (v'.length + 1) + 1 from by omega]

/-- `find_at` at the minimum position, standing exactly at a canonical
loop-close tag on a line start. -/
theorem findEAt_tagE_here (u : Str) (p : Nat) :
    findEAtAux (tagE ++ u) true p p = some ⟨p, p + 11⟩ := by
  have hea := attemptEndfor_tagE u
  have hdec : tagE ++ u = lbrace :: (tagEmid ++ ('\n' :: u)) := by
    rw [tagE_cons]
    simp
  rw [hdec] at hea ⊢
  exact findEAtAux_cons_hit (Nat.le_refl p) hea

mutual

/-- The loop-open matches of one flattened node, at base position `p`. -/
def opensN : Nat → TNode → List FM
  | _, TNode.lit _ => []
  | p, TNode.loop it src body =>
    ⟨p, p + (tagF it src).length, it, src, none⟩ ::
      opensF (p + (tagF it src).length) body

/-- The loop-open matches of a flattened forest. -/
def opensF : Nat → List TNode → List FM
  | _, [] => []
  | p, n :: ns => opensN p n ++ opensF (p + (flattenN n).length) ns

end

mutual

/-- The loop-close matches of one flattened node. -/
def closesN : Nat → TNode → List EM
  | _, TNode.lit _ => []
  | p, TNode.loop it src body =>
    closesF (p + (tagF it src).length) body ++
      [⟨p + (tagF it src).length + (flattenF body).length,
        p + (tagF it src).length + (flattenF body).length + 11⟩]

/-- The loop-close matches of a flattened forest. -/
def closesF : Nat → List TNode → List EM
  | _, [] => []
  | p, n :: ns => closesN p n ++ closesF (p + (flattenN n).length) ns

end

mutual

/-- The merged loop-open/loop-close event list of one flattened node. -/
def evsN : Nat → TNode → List (Nat × Bool)
  | _, TNode.lit _ => []
  | p, TNode.loop it src body =>
    (p, true) :: (evsF (p + (tagF it src).length) body ++
      [(p + (tagF it src).length + (flattenF body).length, false)])

/-- The merged loop-open/loop-close event list of a flattened forest. -/
def evsF : Nat → List TNode → List (Nat × Bool)
  | _, [] => []
  | p, n :: ns => evsN p n ++ evsF (p + (flattenN n).length) ns

end

theorem opensN_lit (p : Nat) (s : Str) : opensN p (TNode.lit s) = [] := rfl

theorem opensN_loop (p : Nat) (it src : Str) (body : List TNode) :
    opensN p (TNode.loop it src body) =
      ⟨p, p + (tagF it src).length, it, src, none⟩ ::
        opensF (p + (tagF it src).length) body := rfl

theorem opensF_nil (p : Nat) : opensF p [] = [] := rfl

theorem opensF_cons (p : Nat) (n : TNode) (ns : List TNode) :
    opensF p (n :: ns) = opensN p n ++ opensF (p + (flattenN n).length) ns := rfl

theorem closesN_lit (p : Nat) (s : Str) : closesN p (TNode.lit s) = [] := rfl

theorem closesN_loop (p : Nat) (it src : Str) (body : List TNode) :
    closesN p (TNode.loop it src body) =
      closesF (p + (tagF it src).length) body ++
        [⟨p + (tagF it src).length + (flattenF body).length,
          p + (tagF it src).length + (flattenF body).length + 11⟩] := rfl

theorem closesF_nil (p : Nat) : closesF p [] = [] := rfl

theorem closesF_cons (p : Nat) (n : TNode) (ns : List TNode) :
    closesF p (n :: ns) = closesN p n ++ closesF (p + (flattenN n).length) ns := rfl

theorem evsN_lit (p : Nat) (s : Str) : evsN p (TNode.lit s) = [] := rfl

theorem evsN_loop (p : Nat) (it src : Str) (body : List TNode) :
    evsN p (TNode.loop it src body) =
      (p, true) :: (evsF (p + (tagF it src).length) body ++
        [(p + (tagF it src).length + (flattenF body).length, false)]) := rfl

theorem evsF_nil (p : Nat) : evsF p [] = [] := rfl

theorem evsF_cons (p : Nat) (n : TNode) (ns : List TNode) :
    evsF p (n :: ns) = evsN p n ++ evsF (p + (flattenN n).length) ns := rfl

theorem flattenN_loop_length (it src : Str) (body : List TNode) :
    (flattenN (TNode.loop it src body)).length =
      (tagF it src).length + (flattenF body).length + 11 := by
  rw [flattenN_loop]
  simp only [List.length_append, show tagE.length = 11 from rfl]
  omega

mutual

/-- The loop-open scanner over one flattened well-formed node followed by
anything: it produces exactly the node's structural loop-open matches and
continues at the node's end, in line-start state. -/
theorem findIterF_flatN (n : TNode) (hwf : nodeWF n) : ∀ (u : Str) (pos : Nat),
    findIterFAux (flattenN n ++ u) true pos 0 =
      opensN pos n ++ findIterFAux u true (pos + (flattenN n).length) 0 := by
  cases n with
  | lit s =>
    intro u pos
    obtain ⟨a, x, w, hs, hx, hwnl, _, hnoF, _⟩ := (hwf : chunkWF s)
    rw [flattenN_lit, opensN_lit, List.nil_append, hs]
    have hre : (a ++ x :: w ++ ['\n']) ++ u = a ++ (x :: (w ++ '\n' :: u)) := by simp
    rw [hre]
    rw [findIterF_chunk a x w u true pos hx hwnl (by rw [hs] at hnoF; simpa using hnoF)]
    rw [show pos + a.length + w.length + 2 = pos + (a ++ x :: w ++ ['\n']).length from by
      simp only [List.length_append, List.length_cons, List.length_singleton,
        List.length_nil]; omega]
  | loop it src body =>
    intro u pos
    obtain ⟨hit, hitw, hsrc, hsrcp, hbody⟩ :=
      (hwf : it ≠ [] ∧ (∀ c ∈ it, isWordChar c = true) ∧
        src ≠ [] ∧ (∀ c ∈ src, isPathChar c = true) ∧ forestWF body)
    rw [flattenN_loop, opensN_loop]
    have hre : (tagF it src ++ (flattenF body ++ tagE)) ++ u =
        tagF it src ++ (flattenF body ++ (tagE ++ u)) := by simp
    rw [hre]
    rw [findIterF_tag hit hitw hsrc hsrcp (flattenF body ++ (tagE ++ u)) pos]
    rw [findIterF_flatN_forest body hbody (tagE ++ u) (pos + (tagF it src).length)]
    rw [findIterF_tagE u true (pos + (tagF it src).length + (flattenF body).length)]
    rw [show pos + (tagF it src).length + (flattenF body).length + 11 =
        pos + (tagF it src ++ (flattenF body ++ tagE)).length from by
      simp only [List.length_append, show tagE.length = 11 from rfl]; omega]
    rw [List.cons_append]

/-- The loop-open scanner over a flattened well-formed forest followed by
anything. -/
theorem findIterF_flatN_forest (ns : List TNode) (hwf : forestWF ns) :
    ∀ (u : Str) (pos : Nat),
    findIterFAux (flattenF ns ++ u) true pos 0 =
      opensF pos ns ++ findIterFAux u true (pos + (flattenF ns).length) 0 := by
  cases ns with
  | nil =>
    intro u pos
    rw [flattenF_nil, opensF_nil, List.nil_append, List.nil_append]
    simp
  | cons n ns' =>
    intro u pos
    rw [flattenF_cons, opensF_cons, List.append_assoc]
    rw [findIterF_flatN n hwf.1 (flattenF ns' ++ u) pos]
    rw [findIterF_flatN_forest ns' hwf.2 u (pos + (flattenN n).length)]
    rw [show pos + (flattenN n).length + (flattenF ns').length =
        pos + (flattenN n ++ flattenF ns').length from by
      simp only [List.length_append]; omega]
    rw [List.append_assoc]

end

mutual

/-- The loop-close scanner over one flattened well-formed node followed
by anything. -/
theorem findIterE_flatN (n : TNode) (hwf : nodeWF n) : ∀ (u : Str) (pos : Nat),
    findIterEAux (flattenN n ++ u) true pos 0 =
      closesN pos n ++ findIterEAux u true (pos + (flattenN n).length) 0 := by
  cases n with
  | lit s =>
    intro u pos
    obtain ⟨a, x, w, hs, hx, hwnl, _, _, hnoE⟩ := (hwf : chunkWF s)
    rw [flattenN_lit, closesN_lit, List.nil_append, hs]
    have hre : (a ++ x :: w ++ ['\n']) ++ u = a ++ (x :: (w ++ '\n' :: u)) := by simp
    rw [hre]
    rw [findIterE_chunk a x w u true pos hx hwnl (by rw [hs] at hnoE; simpa using hnoE)]
    rw [show pos + a.length + w.length + 2 = pos + (a ++ x :: w ++ ['\n']).length from by
      simp only [List.length_append, List.length_cons, List.length_singleton,
        List.length_nil]; omega]
  | loop it src body =>
    intro u pos
    obtain ⟨hit, hitw, hsrc, hsrcp, hbody⟩ :=
      (hwf : it ≠ [] ∧ (∀ c ∈ it, isWordChar c = true) ∧
        src ≠ [] ∧ (∀ c ∈ src, isPathChar c = true) ∧ forestWF body)
    rw [flattenN_loop, closesN_loop]
    have hre : (tagF it src ++ (flattenF body ++ tagE)) ++ u =
        tagF it src ++ (flattenF body ++ (tagE ++ u)) := by simp
    rw [hre]
    rw [findIterE_tagF hitw hsrcp (flattenF body ++ (tagE ++ u)) true pos]
    rw [findIterE_flatN_forest body hbody (tagE ++ u) (pos + (tagF it src).length)]
    rw [findIterE_tagE u (pos + (tagF it src).length + (flattenF body).length)]
    rw [show pos + (tagF it src).length + (flattenF body).length + 11 =
        pos + (tagF it src ++ (flattenF body ++ tagE)).length from by
      simp only [List.length_append, show tagE.length = 11 from rfl]; omega]
    simp only [List.append_assoc, List.singleton_append]

/-- The loop-close scanner over a flattened well-formed forest followed
by anything. -/
theorem findIterE_flatN_forest (ns : List TNode) (hwf : forestWF ns) :
    ∀ (u : Str) (pos : Nat),
    findIterEAux (flattenF ns ++ u) true pos 0 =
      closesF pos ns ++ findIterEAux u true (pos + (flattenF ns).length) 0 := by
  cases ns with
  | nil =>
    intro u pos
    rw [flattenF_nil, closesF_nil, List.nil_append, List.nil_append]
    simp
  | cons n ns' =>
    intro u pos
    rw [flattenF_cons, closesF_cons, List.append_assoc]
    rw [findIterE_flatN n hwf.1 (flattenF ns' ++ u) pos]
    rw [findIterE_flatN_forest ns' hwf.2 u (pos + (flattenN n).length)]
    rw [show pos + (flattenN n).length + (flattenF ns').length =
        pos + (flattenN n ++ flattenF ns').length from by
      simp only [List.length_append]; omega]
    rw [List.append_assoc]

end

theorem FM_start_mk (a b : Nat) (i s : Str) (f : Option Str) :
    (⟨a, b, i, s, f⟩ : FM).start = a := rfl

theorem EM_start_mk (a b : Nat) : (⟨a, b⟩ : EM).start = a := rfl

mutual

theorem opensN_bounds (n : TNode) : ∀ (p : Nat) (fm : FM), fm ∈ opensN p n →
    p ≤ fm.start ∧ fm.start < p + (flattenN n).length := by
  cases n with
  | lit s =>
    intro p fm hm
    rw [opensN_lit] at hm
    exact absurd hm (List.not_mem_nil fm)
  | loop it src body =>
    intro p fm hm
    rw [opensN_loop] at hm
    have hL := flattenN_loop_length it src body
    rcases List.mem_cons.mp hm with h | h
    · subst h
      simp only [FM_start_mk]
      omega
    · have := opensF_bounds body (p + (tagF it src).length) fm h
      omega

theorem opensF_bounds (ns : List TNode) : ∀ (p : Nat) (fm : FM), fm ∈ opensF p ns →
    p ≤ fm.start ∧ fm.start < p + (flattenF ns).length := by
  cases ns with
  | nil =>
    intro p fm hm
    rw [opensF_nil] at hm
    exact absurd hm (List.not_mem_nil fm)
  | cons n ns' =>
    intro p fm hm
    rw [opensF_cons] at hm
    have hlen : (flattenF (n :: ns')).length =
        (flattenN n).length + (flattenF ns').length := by
      rw [flattenF_cons, List.length_append]
    rcases List.mem_append.mp hm with h | h
    · have := opensN_bounds n p fm h
      omega
    · have := opensF_bounds ns' (p + (flattenN n).length) fm h
      omega

end

mutual

theorem closesN_bounds (n : TNode) : ∀ (p : Nat) (em : EM), em ∈ closesN p n →
    p ≤ em.start ∧ em.start < p + (flattenN n).length := by
  cases n with
  | lit s =>
    intro p em hm
    rw [closesN_lit] at hm
    exact absurd hm (List.not_mem_nil em)
  | loop it src body =>
    intro p em hm
    rw [closesN_loop] at hm
    have hL := flattenN_loop_length it src body
    rcases List.mem_append.mp hm with h | h
    · have := closesF_bounds body (p + (tagF it src).length) em h
      omega
    · rcases List.mem_singleton.mp h with rfl
      simp only [EM_start_mk]
      omega

theorem closesF_bounds (ns : List TNode) : ∀ (p : Nat) (em : EM), em ∈ closesF p ns →
    p ≤ em.start ∧ em.start < p + (flattenF ns).length := by
  cases ns with
  | nil =>
    intro p em hm
    rw [closesF_nil] at hm
    exact absurd hm (List.not_mem_nil em)
  | cons n ns' =>
    intro p em hm
    rw [closesF_cons] at hm
    have hlen : (flattenF (n :: ns')).length =
        (flattenN n).length + (flattenF ns').length := by
      rw [flattenF_cons, List.length_append]
    rcases List.mem_append.mp hm with h | h
    · have := closesN_bounds n p em h
      omega
    · have := closesF_bounds ns' (p + (flattenN n).length) em h
      omega

end

theorem takeWhile_nil_of_all {α : Type} (q : α → Bool) :
    ∀ (B : List α), (∀ b ∈ B, q b = false) → B.takeWhile q = [] := by
  intro B hB
  cases B with
  | nil => rfl
  | cons b B' =>
    rw [List.takeWhile_cons, hB b (by simp)]
    rfl

theorem dropWhile_id_of_all {α : Type} (q : α → Bool) :
    ∀ (B : List α), (∀ b ∈ B, q b = false) → B.dropWhile q = B := by
  intro B hB
  cases B with
  | nil => rfl
  | cons b B' =>
    rw [List.dropWhile_cons, hB b (by simp)]
    rfl

/-- A loop-close event sitting before every remaining loop-open event is
emitted first by the stable merge. -/
theorem mergeEv_close_first (c : Nat × Bool) (B : List (Nat × Bool)) :
    ∀ (A : List (Nat × Bool)), (∀ a ∈ A, c.1 < a.1) →
    mergeEv A (c :: B) = c :: mergeEv A B := by
  intro A hA
  cases A with
  | nil => rfl
  | cons a A' =>
    have hc : decide (c.1 < a.1) = true := decide_eq_true (hA a (by simp))
    simp only [mergeEv]
    rw [List.takeWhile_cons, List.dropWhile_cons, if_pos hc, if_pos hc]
    simp

mutual

/-- The merge of the structural loop-open and loop-close match-start
streams of one flattened node, each followed by later events, is the
node's structural event list followed by the merge of the remainders. -/
theorem mergeEv_evsN (n : TNode) : ∀ (p : Nat) (C D : List (Nat × Bool)),
    (∀ c ∈ C, p + (flattenN n).length ≤ c.1) →
    (∀ d ∈ D, p + (flattenN n).length ≤ d.1) →
    mergeEv ((opensN p n).map (fun f => (f.start, true)) ++ C)
      ((closesN p n).map (fun e => (e.start, false)) ++ D) =
      evsN p n ++ mergeEv C D := by
  cases n with
  | lit s =>
    intro p C D _ _
    rw [opensN_lit, closesN_lit, evsN_lit]
    simp only [List.map_nil, List.nil_append]
  | loop it src body =>
    intro p C D hC hD
    have hL := flattenN_loop_length it src body
    rw [opensN_loop, closesN_loop, evsN_loop]
    simp only [List.map_cons, List.map_append, List.map_singleton, List.map_nil,
      List.nil_append, List.append_nil, List.cons_append, List.append_assoc,
      List.singleton_append, FM_start_mk, EM_start_mk]
    have hYall : ∀ y ∈ (closesF (p + (tagF it src).length) body).map
        (fun e => (e.start, false)) ++
        ((p + (tagF it src).length + (flattenF body).length, false) :: D),
        (fun y => decide (y.1 < p)) y = false := by
      intro y hy
      rcases List.mem_append.mp hy with h | h
      · rcases List.mem_map.mp h with ⟨em, hem, rfl⟩
        have := closesF_bounds body (p + (tagF it src).length) em hem
        simp only [decide_eq_false_iff_not]
        omega
      · rcases List.mem_cons.mp h with rfl | h
        · simp only [decide_eq_false_iff_not]
          omega
        · have := hD y h
          simp only [decide_eq_false_iff_not]
          omega
    have hC' : ∀ c ∈ C,
        p + (tagF it src).length + (flattenF body).length ≤ c.1 := by
      intro c hc
      have := hC c hc
      omega
    have hD' : ∀ d ∈ (p + (tagF it src).length + (flattenF body).length, false) :: D,
        p + (tagF it src).length + (flattenF body).length ≤ d.1 := by
      intro d hd
      rcases List.mem_cons.mp hd with rfl | hd
      · exact Nat.le_refl _
      · have := hD d hd
        omega
    have hCpc : ∀ c ∈ C,
        (p + (tagF it src).length + (flattenF body).length, false).1 < c.1 := by
      intro c hc
      have := hC c hc
      simp only []
      omega
    simp only [mergeEv]
    rw [takeWhile_nil_of_all _ _ hYall, dropWhile_id_of_all _ _ hYall, List.nil_append]
    have hbody := mergeEv_evsF body (p + (tagF it src).length) C
      ((p + (tagF it src).length + (flattenF body).length, false) :: D)
      (by
        intro c hc
        have := hC' c hc
        omega)
      (by
        intro d hd
        have := hD' d hd
        omega)
    rw [hbody]
    rw [mergeEv_close_first _ D C hCpc]

/-- The merge of the structural loop-open and loop-close match-start
streams of a flattened forest. -/
theorem mergeEv_evsF (ns : List TNode) : ∀ (p : Nat) (C D : List (Nat × Bool)),
    (∀ c ∈ C, p + (flattenF ns).length ≤ c.1) →
    (∀ d ∈ D, p + (flattenF ns).length ≤ d.1) →
    mergeEv ((opensF p ns).map (fun f => (f.start, true)) ++ C)
      ((closesF p ns).map (fun e => (e.start, false)) ++ D) =
      evsF p ns ++ mergeEv C D := by
  cases ns with
  | nil =>
    intro p C D _ _
    rw [opensF_nil, closesF_nil, evsF_nil]
    simp only [List.map_nil, List.nil_append]
  | cons n ns' =>
    intro p C D hC hD
    have hlen : (flattenF (n :: ns')).length =
        (flattenN n).length + (flattenF ns').length := by
      rw [flattenF_cons, List.length_append]
    rw [opensF_cons, closesF_cons, evsF_cons]
    simp only [List.map_append, List.append_assoc]
    have hC1 : ∀ c ∈ (opensF (p + (flattenN n).length) ns').map
        (fun f => (f.start, true)) ++ C, p + (flattenN n).length ≤ c.1 := by
      intro c hc
      rcases List.mem_append.mp hc with h | h
      · rcases List.mem_map.mp h with ⟨fm, hfm, rfl⟩
        exact (opensF_bounds ns' (p + (flattenN n).length) fm hfm).1
      · have := hC c h
        omega
    have hD1 : ∀ d ∈ (closesF (p + (flattenN n).length) ns').map
        (fun e => (e.start, false)) ++ D, p + (flattenN n).length ≤ d.1 := by
      intro d hd
      rcases List.mem_append.mp hd with h | h
      · rcases List.mem_map.mp h with ⟨em, hem, rfl⟩
        exact (closesF_bounds ns' (p + (flattenN n).length) em hem).1
      · have := hD d h
        omega
    rw [mergeEv_evsN n p _ _ hC1 hD1]
    rw [mergeEv_evsF ns' (p + (flattenN n).length) C D
      (by intro c hc; have := hC c hc; omega)
      (by intro d hd; have := hD d hd; omega)]

end

mutual

/-- The nesting-counter scan passes over the balanced event list of one
flattened node without triggering, leaving the counter unchanged. -/
theorem scanEvents_evsN (n : TNode) : ∀ (p lvl : Nat) (evs : List (Nat × Bool)),
    scanEvents (evsN p n ++ evs) lvl = scanEvents evs lvl := by
  cases n with
  | lit s =>
    intro p lvl evs
    rw [evsN_lit, List.nil_append]
  | loop it src body =>
    intro p lvl evs
    rw [evsN_loop, List.cons_append, List.append_assoc, List.singleton_append]
    rw [scanEvents]
    rw [scanEvents_evsF body (p + (tagF it src).length) (lvl + 1)
      ((p + (tagF it src).length + (flattenF body).length, false) :: evs)]
    rw [scanEvents]

/-- The nesting-counter scan passes over the balanced event list of a
flattened forest without triggering. -/
theorem scanEvents_evsF (ns : List TNode) : ∀ (p lvl : Nat) (evs : List (Nat × Bool)),
    scanEvents (evsF p ns ++ evs) lvl = scanEvents evs lvl := by
  cases ns with
  | nil =>
    intro p lvl evs
    rw [evsF_nil, List.nil_append]
  | cons n ns' =>
    intro p lvl evs
    rw [evsF_cons, List.append_assoc]
    rw [scanEvents_evsN n p lvl _]
    rw [scanEvents_evsF ns' (p + (flattenN n).length) lvl evs]

end

/-- The loop-open scanner over a whole flattened forest. -/
theorem findIterF_flatF_nil (ns : List TNode) (hwf : forestWF ns) (pos : Nat) :
    findIterFAux (flattenF ns) true pos 0 = opensF pos ns := by
  have h := findIterF_flatN_forest ns hwf [] pos
  rw [List.append_nil] at h
  rw [h, show findIterFAux [] true (pos + (flattenF ns).length) 0 = [] from rfl]
  rw [List.append_nil]

/-- The loop-close scanner over a whole flattened forest. -/
theorem findIterE_flatF_nil (ns : List TNode) (hwf : forestWF ns) (pos : Nat) :
    findIterEAux (flattenF ns) true pos 0 = closesF pos ns := by
  have h := findIterE_flatN_forest ns hwf [] pos
  rw [List.append_nil] at h
  rw [h, show findIterEAux [] true (pos + (flattenF ns).length) 0 = [] from rfl]
  rw [List.append_nil]

/-- The nesting-counter scan of the slice that follows a loop-open tag —
the flattened body, the loop-close tag, the flattened remainder — stops
exactly at the loop-close tag written at the same nesting depth, i.e. at
slice offset `(flattenF body).length`. -/
theorem scanEvents_slice (body rest : List TNode) (hbody : forestWF body)
    (hrest : forestWF rest) :
    scanEvents (eventsOf (flattenF body ++ (tagE ++ flattenF rest))) 0 =
      some (flattenF body).length := by
  have hop : findIterFAux (flattenF body ++ (tagE ++ flattenF rest)) true 0 0 =
      opensF 0 body ++ opensF ((flattenF body).length + 11) rest := by
    rw [findIterF_flatN_forest body hbody (tagE ++ flattenF rest) 0]
    rw [findIterF_tagE (flattenF rest) true (0 + (flattenF body).length)]
    rw [findIterF_flatF_nil rest hrest (0 + (flattenF body).length + 11)]
    simp only [Nat.zero_add]
  have hcl : findIterEAux (flattenF body ++ (tagE ++ flattenF rest)) true 0 0 =
      closesF 0 body ++ ((⟨(flattenF body).length, (flattenF body).length + 11⟩ : EM) ::
        closesF ((flattenF body).length + 11) rest) := by
    rw [findIterE_flatN_forest body hbody (tagE ++ flattenF rest) 0]
    rw [findIterE_tagE (flattenF rest) (0 + (flattenF body).length)]
    rw [findIterE_flatF_nil rest hrest (0 + (flattenF body).length + 11)]
    simp only [Nat.zero_add]
  unfold eventsOf
  rw [hop, hcl]
  simp only [List.map_append, List.map_cons, EM_start_mk]
  have hC1 : ∀ c ∈ (opensF ((flattenF body).length + 11) rest).map
      (fun f => (f.start, true)), 0 + (flattenF body).length ≤ c.1 := by
    intro c hc
    rcases List.mem_map.mp hc with ⟨fm, hfm, rfl⟩
    have := (opensF_bounds rest ((flattenF body).length + 11) fm hfm).1
    simp only []
    omega
  have hD1 : ∀ d ∈ ((flattenF body).length, false) ::
      (closesF ((flattenF body).length + 11) rest).map (fun e => (e.start, false)),
      0 + (flattenF body).length ≤ d.1 := by
    intro d hd
    rcases List.mem_cons.mp hd with rfl | hd
    · simp only []
      omega
    · rcases List.mem_map.mp hd with ⟨em, hem, rfl⟩
      have := (closesF_bounds rest ((flattenF body).length + 11) em hem).1
      simp only []
      omega
  rw [mergeEv_evsF body 0 _ _ hC1 hD1]
  have hlt : ∀ c ∈ (opensF ((flattenF body).length + 11) rest).map
      (fun f => (f.start, true)), ((flattenF body).length, false).1 < c.1 := by
    intro c hc
    rcases List.mem_map.mp hc with ⟨fm, hfm, rfl⟩
    have := (opensF_bounds rest ((flattenF body).length + 11) fm hfm).1
    simp only []
    omega
  rw [mergeEv_close_first _ _ _ hlt]
  rw [scanEvents_evsF body 0 0 _]
  rw [scanEvents]

/-- The loop-open scanner passes over the flattened chunks before the
first loop without a match. -/
theorem preF_scan : ∀ (ns : List TNode), forestWF ns → ∀ (u : Str) (pos : Nat),
    findIterFAux ((splitLoop ns).1 ++ u) true pos 0 =
      findIterFAux u true (pos + (splitLoop ns).1.length) 0 := by
  intro ns
  induction ns with
  | nil =>
    intro _ u pos
    rw [show (splitLoop ([] : List TNode)).1 = [] from rfl, List.nil_append]
    rw [show pos + List.length ([] : Str) = pos from by simp]
  | cons n ns' ih =>
    intro hwf u pos
    cases n with
    | loop it src body =>
      rw [show (splitLoop (TNode.loop it src body :: ns')).1 = [] from rfl,
        List.nil_append]
      rw [show pos + List.length ([] : Str) = pos from by simp]
    | lit s =>
      obtain ⟨a, x, w, hs, hx, hwnl, _, hnoF, _⟩ := (hwf.1 : chunkWF s)
      rw [show (splitLoop (TNode.lit s :: ns')).1 = s ++ (splitLoop ns').1 from rfl]
      rw [List.append_assoc, hs]
      have hre : (a ++ x :: w ++ ['\n']) ++ ((splitLoop ns').1 ++ u) =
          a ++ (x :: (w ++ '\n' :: ((splitLoop ns').1 ++ u))) := by simp
      rw [hre]
      rw [findIterF_chunk a x w ((splitLoop ns').1 ++ u) true pos hx hwnl
        (by rw [hs] at hnoF; simpa using hnoF)]
      rw [ih hwf.2 u (pos + a.length + w.length + 2)]
      rw [show pos + a.length + w.length + 2 + (splitLoop ns').1.length =
          pos + ((a ++ x :: w ++ ['\n']) ++ (splitLoop ns').1).length from by
        simp only [List.length_append, List.length_cons, List.length_singleton,
          List.length_nil]
        omega]

mutual

/-- A flattened well-formed node ends in a newline. -/
theorem flattenN_endsNL (n : TNode) (hwf : nodeWF n) :
    ∃ v, flattenN n = v ++ ['\n'] := by
  cases n with
  | lit s =>
    obtain ⟨a, x, w, hs, _, _, _, _, _⟩ := (hwf : chunkWF s)
    refine ⟨a ++ (x :: w), ?_⟩
    rw [flattenN_lit, hs]
  | loop it src body =>
    refine ⟨tagF it src ++ (flattenF body ++ (lbrace :: tagEmid)), ?_⟩
    rw [flattenN_loop, tagE_cons]
    simp

/-- A flattened well-formed forest is empty or ends in a newline. -/
theorem flattenF_endsNL (ns : List TNode) (hwf : forestWF ns) :
    flattenF ns = [] ∨ ∃ v, flattenF ns = v ++ ['\n'] := by
  cases ns with
  | nil => exact Or.inl rfl
  | cons n ns' =>
    right
    rcases flattenF_endsNL ns' hwf.2 with h | ⟨v', hv'⟩
    · obtain ⟨v, hv⟩ := flattenN_endsNL n hwf.1
      refine ⟨v, ?_⟩
      rw [flattenF_cons, h, List.append_nil, hv]
    · obtain ⟨v, hv⟩ := flattenN_endsNL n hwf.1
      refine ⟨flattenN n ++ v', ?_⟩
      rw [flattenF_cons, hv']
      simp

end

/-- On a well-formed flattened forest, the engine's first loop-open match
is exactly the first loop's canonical tag, spanning from the end of the
leading chunks over the whole tag line. -/
theorem findF_flatten (ns : List TNode) (hwf : forestWF ns) {pre it src : Str}
    {body rest : List TNode}
    (hsp : splitLoop ns = (pre, some (it, src, body, rest))) :
    findF (flattenF ns) =
      some ⟨pre.length, pre.length + (tagF it src).length, it, src, none⟩ := by
  obtain ⟨hflat, hit, hitw, hsrc, hsrcp, hbody, hrest⟩ :=
    splitLoop_some ns pre it src body rest hwf hsp
  have hpre : (splitLoop ns).1 = pre := by rw [hsp]
  unfold findF
  rw [hflat]
  have h1 := preF_scan ns hwf
    (tagF it src ++ (flattenF body ++ (tagE ++ flattenF rest))) 0
  rw [hpre] at h1
  rw [h1]
  rw [findIterF_tag hit hitw hsrc hsrcp (flattenF body ++ (tagE ++ flattenF rest))
    (0 + pre.length)]
  simp only [Nat.zero_add, List.head?_cons]

/-- The leading chunks of a well-formed flattened forest contain no
loop-open match. -/
theorem findF_pre_none (ns : List TNode) (hwf : forestWF ns) {pre it src : Str}
    {body rest : List TNode}
    (hsp : splitLoop ns = (pre, some (it, src, body, rest))) :
    findF pre = none := by
  have hpre : (splitLoop ns).1 = pre := by rw [hsp]
  have h := preF_scan ns hwf [] 0
  rw [hpre, List.append_nil] at h
  unfold findF
  rw [h]
  rfl

/-- The slice the engine scans for the matching close is the flattened
body, the loop-close tag and the flattened remainder. -/
theorem drop_flatten_slice (ns : List TNode) (hwf : forestWF ns) {pre it src : Str}
    {body rest : List TNode}
    (hsp : splitLoop ns = (pre, some (it, src, body, rest))) :
    (flattenF ns).drop (pre.length + (tagF it src).length) =
      flattenF body ++ (tagE ++ flattenF rest) := by
  obtain ⟨hflat, _, _, _, _, _, _⟩ := splitLoop_some ns pre it src body rest hwf hsp
  rw [hflat]
  rw [show pre ++ (tagF it src ++ (flattenF body ++ (tagE ++ flattenF rest))) =
    (pre ++ tagF it src) ++ (flattenF body ++ (tagE ++ flattenF rest)) from by simp]
  rw [show pre.length + (tagF it src).length = (pre ++ tagF it src).length from
    (List.length_append _ _).symm]
  exact List.drop_left _ _

/-- The counter scan of that slice designates exactly the loop-close tag
at the same nesting depth. -/
theorem scan_flatten (ns : List TNode) (hwf : forestWF ns) {pre it src : Str}
    {body rest : List TNode}
    (hsp : splitLoop ns = (pre, some (it, src, body, rest))) :
    scanEvents (eventsOf ((flattenF ns).drop (pre.length + (tagF it src).length))) 0 =
      some (flattenF body).length := by
  obtain ⟨_, _, _, _, _, hbody, hrest⟩ := splitLoop_some ns pre it src body rest hwf hsp
  rw [drop_flatten_slice ns hwf hsp]
  exact scanEvents_slice body rest hbody hrest

/-- `find_at` re-locates exactly that same-depth loop-close tag on the
full template. -/
theorem findEAt_flatten (ns : List TNode) (hwf : forestWF ns) {pre it src : Str}
    {body rest : List TNode}
    (hsp : splitLoop ns = (pre, some (it, src, body, rest))) :
    findEAt (flattenF ns)
        (pre.length + (tagF it src).length + (flattenF body).length) =
      some ⟨pre.length + (tagF it src).length + (flattenF body).length,
        pre.length + (tagF it src).length + (flattenF body).length + 11⟩ := by
  obtain ⟨hflat, hit, hitw, hsrc, hsrcp, hbody, hrest⟩ :=
    splitLoop_some ns pre it src body rest hwf hsp
  have hv : ∃ v, pre ++ (tagF it src ++ flattenF body) = v ++ ['\n'] := by
    rcases flattenF_endsNL body hbody with hbe | ⟨vb, hvb⟩
    · refine ⟨pre ++ (lbrace :: tagFmid it src), ?_⟩
      rw [hbe, List.append_nil, tagF_cons]
      simp
    · refine ⟨pre ++ (tagF it src ++ vb), ?_⟩
      rw [hvb]
      simp
  obtain ⟨v, hveq⟩ := hv
  have hvlen : v.length + 1 =
      pre.length + (tagF it src).length + (flattenF body).length := by
    have := congrArg List.length hveq
    simp only [List.length_append, List.length_singleton] at this
    omega
  have htre : flattenF ns = v ++ ('\n' :: (tagE ++ flattenF rest)) := by
    rw [hflat]
    rw [show pre ++ (tagF it src ++ (flattenF body ++ (tagE ++ flattenF rest))) =
      (pre ++ (tagF it src ++ flattenF body)) ++ (tagE ++ flattenF rest) from by simp]
    rw [hveq]
    simp
  unfold findEAt
  rw [htre]
  rw [findEAt_pre v (tagE ++ flattenF rest) true 0
    (pre.length + (tagF it src).length + (flattenF body).length) (by omega)]
  rw [show 0 + v.length + 1 =
    pre.length + (tagF it src).length + (flattenF body).length from by omega]
  exact findEAt_tagE_here (flattenF rest)
    (pre.length + (tagF it src).length + (flattenF body).length)

/-- The engine's `before` slice is the leading chunk text. -/
theorem take_flatten_pre (ns : List TNode) (hwf : forestWF ns) {pre it src : Str}
    {body rest : List TNode}
    (hsp : splitLoop ns = (pre, some (it, src, body, rest))) :
    (flattenF ns).take pre.length = pre := by
  obtain ⟨hflat, _, _, _, _, _, _⟩ := splitLoop_some ns pre it src body rest hwf hsp
  rw [hflat]
  exact List.take_left _ _

/-- The engine's body slice is exactly the flattened body forest. -/
theorem slice_flatten_body (ns : List TNode) (hwf : forestWF ns) {pre it src : Str}
    {body rest : List TNode}
    (hsp : splitLoop ns = (pre, some (it, src, body, rest))) :
    sliceStr (flattenF ns) (pre.length + (tagF it src).length)
        (pre.length + (tagF it src).length + (flattenF body).length) =
      flattenF body := by
  obtain ⟨hflat, _, _, _, _, _, _⟩ := splitLoop_some ns pre it src body rest hwf hsp
  unfold sliceStr
  rw [hflat]
  rw [show pre ++ (tagF it src ++ (flattenF body ++ (tagE ++ flattenF rest))) =
    ((pre ++ tagF it src) ++ flattenF body) ++ (tagE ++ flattenF rest) from by simp]
  rw [show pre.length + (tagF it src).length + (flattenF body).length =
    ((pre ++ tagF it src) ++ flattenF body).length from by
      simp only [List.length_append]]
  rw [List.take_left]
  rw [show pre.length + (tagF it src).length = (pre ++ tagF it src).length from
    (List.length_append _ _).symm]
  exact List.drop_left _ _

/-- The engine's `after` slice is exactly the flattened remainder. -/
theorem drop_flatten_rest (ns : List TNode) (hwf : forestWF ns) {pre it src : Str}
    {body rest : List TNode}
    (hsp : splitLoop ns = (pre, some (it, src, body, rest))) :
    (flattenF ns).drop
        (pre.length + (tagF it src).length + (flattenF body).length + 11) =
      flattenF rest := by
  obtain ⟨hflat, _, _, _, _, _, _⟩ := splitLoop_some ns pre it src body rest hwf hsp
  rw [hflat]
  rw [show pre ++ (tagF it src ++ (flattenF body ++ (tagE ++ flattenF rest))) =
    (((pre ++ tagF it src) ++ flattenF body) ++ tagE) ++ flattenF rest from by simp]
  rw [show pre.length + (tagF it src).length + (flattenF body).length + 11 =
    (((pre ++ tagF it src) ++ flattenF body) ++ tagE).length from by
      simp only [List.length_append, show tagE.length = 11 from rfl]]
  exact List.drop_left _ _

theorem FM_stop_mk (a b : Nat) (i s : Str) (f : Option Str) :
    (⟨a, b, i, s, f⟩ : FM).stop = b := rfl

theorem FM_item_mk (a b : Nat) (i s : Str) (f : Option Str) :
    (⟨a, b, i, s, f⟩ : FM).item = i := rfl

theorem EM_stop_mk (a b : Nat) : (⟨a, b⟩ : EM).stop = b := rfl

mutual

/-- The claim's rendering of a forest (this definition follows the
claim's words, not the engine): substitute variables in the chunks before
the first loop, render the loop body — the forest at the same nesting
depth — once per element of the resolved collection, then render the
remainder; without a loop, substitute variables in the whole text. -/
def renderForest (fs : FS) (ns : List TNode) (ctx : Value) : Option (Except Str Str) :=
  match h : splitLoop ns with
  | (pre, none) => some (Except.ok (renderVariables pre ctx))
  | (pre, some (it, src, body, rest)) =>
    exAppend (renderVariables pre ctx)
      (exSeq
        (renderForestList fs body it ctx
          (itemsOf (match resolvePath ctx src with
            | some v => v
            | none => Value.arr [])))
        (renderForest fs rest ctx))
termination_by (sizeOf ns, 0)
decreasing_by
  · apply Prod.Lex.left
    exact (splitLoop_size ns pre it src body rest h).1
  · apply Prod.Lex.left
    exact (splitLoop_size ns pre it src body rest h).2

/-- One rendering of the body forest per element, against the caller's
context extended with the item binding. -/
def renderForestList (fs : FS) (body : List TNode) (item : Str) (ctx : Value)
    (items : List Value) : Option (Except Str Str) :=
  match items with
  | [] => some (Except.ok [])
  | v :: vs =>
    match ctx with
    | Value.obj flds =>
      exSeq (renderForest fs body (Value.obj (insertKV flds item v)))
        (renderForestList fs body item ctx vs)
    | _ => renderForestList fs body item ctx vs
termination_by (sizeOf body, items.length + 1)
decreasing_by
  · apply Prod.Lex.right
    simp
  · apply Prod.Lex.right
    simp

end

theorem renderForest_none (fs : FS) {ns : List TNode} {ctx : Value} {pre : Str}
    (h : splitLoop ns = (pre, none)) :
    renderForest fs ns ctx = some (Except.ok (renderVariables pre ctx)) := by
  rw [renderForest]
  split
  · rename_i pre' heq
    rw [h] at heq
    injection heq with h1 h2
    rw [← h1]
  · rename_i pre' it' src' body' rest' heq
    rw [h] at heq
    injection heq with h1 h2
    exact Option.noConfusion h2

theorem renderForest_some {fs : FS} {ns : List TNode} {ctx : Value} {pre it src : Str}
    {body rest : List TNode}
    (h : splitLoop ns = (pre, some (it, src, body, rest))) :
    renderForest fs ns ctx =
      exAppend (renderVariables pre ctx)
        (exSeq
          (renderForestList fs body it ctx
            (itemsOf (match resolvePath ctx src with
              | some v => v
              | none => Value.arr [])))
          (renderForest fs rest ctx)) := by
  rw [renderForest]
  split
  · rename_i pre' heq
    rw [h] at heq
    injection heq with h1 h2
    exact Option.noConfusion h2
  · rename_i pre' it' src' body' rest' heq
    rw [h] at heq
    injection heq with h1 h2
    injection h2 with h3
    injection h3 with h4 h5
    injection h5 with h6 h7
    injection h7 with h8 h9
    subst h1 h4 h6 h8 h9
    rfl

theorem renderForest_some_res (fs : FS) {ns : List TNode} {ctx : Value}
    {pre it src : Str} {body rest : List TNode} {cv : Value}
    (h : splitLoop ns = (pre, some (it, src, body, rest)))
    (hres : resolvePath ctx src = some cv) :
    renderForest fs ns ctx =
      exAppend (renderVariables pre ctx)
        (exSeq (renderForestList fs body it ctx (itemsOf cv))
          (renderForest fs rest ctx)) := by
  rw [renderForest_some h, hres]

theorem renderForest_some_nores {fs : FS} {ns : List TNode} {ctx : Value}
    {pre it src : Str} {body rest : List TNode}
    (h : splitLoop ns = (pre, some (it, src, body, rest)))
    (hres : resolvePath ctx src = none) :
    renderForest fs ns ctx =
      exAppend (renderVariables pre ctx)
        (exSeq (renderForestList fs body it ctx (itemsOf (Value.arr [])))
          (renderForest fs rest ctx)) := by
  rw [renderForest_some h, hres]

theorem renderForestList_nil {fs : FS} {body : List TNode} {item : Str} {ctx : Value} :
    renderForestList fs body item ctx [] = some (Except.ok []) := by
  rw [renderForestList]

theorem renderForestList_cons_obj {fs : FS} {body : List TNode} {item : Str}
    {flds : List (Str × Value)} {v : Value} {vs : List Value} :
    renderForestList fs body item (Value.obj flds) (v :: vs) =
      exSeq (renderForest fs body (Value.obj (insertKV flds item v)))
        (renderForestList fs body item (Value.obj flds) vs) := by
  rw [renderForestList]

theorem renderList_cons_nonobj {fs : FS} {body item : Str} {ctx : Value} {v : Value}
    {vs : List Value} (h : ∀ flds, ctx ≠ Value.obj flds) :
    renderList fs body item ctx (v :: vs) = renderList fs body item ctx vs := by
  cases ctx with
  | obj flds => exact absurd rfl (h flds)
  | null => rw [renderList]; exact h
  | bool b => rw [renderList]; exact h
  | num n => rw [renderList]; exact h
  | str s => rw [renderList]; exact h
  | arr xs => rw [renderList]; exact h

theorem renderForestList_cons_nonobj {fs : FS} {body : List TNode} {item : Str}
    {ctx : Value} {v : Value} {vs : List Value} (h : ∀ flds, ctx ≠ Value.obj flds) :
    renderForestList fs body item ctx (v :: vs) =
      renderForestList fs body item ctx vs := by
  cases ctx with
  | obj flds => exact absurd rfl (h flds)
  | null => rw [renderForestList]; exact h
  | bool b => rw [renderForestList]; exact h
  | num n => rw [renderForestList]; exact h
  | str s => rw [renderForestList]; exact h
  | arr xs => rw [renderForestList]; exact h

/-- If the engine renders a flattened body forest like the claim does for
every context, the iteration loops agree item by item. -/
theorem renderList_flatten_of (fs : FS) (body : List TNode) (item : Str)
    (hB : ∀ ctx, renderRec fs (flattenF body) ctx = renderForest fs body ctx) :
    ∀ (items : List Value) (ctx : Value),
      renderList fs (flattenF body) item ctx items =
        renderForestList fs body item ctx items := by
  intro items
  induction items with
  | nil =>
    intro ctx
    rw [renderList_nil, renderForestList_nil]
  | cons v vs ih =>
    intro ctx
    cases ctx with
    | obj flds => rw [renderList_cons_obj, renderForestList_cons_obj, hB, ih]
    | null =>
      rw [renderList_cons_nonobj (fun flds h => Value.noConfusion h),
        renderForestList_cons_nonobj (fun flds h => Value.noConfusion h), ih]
    | bool b =>
      rw [renderList_cons_nonobj (fun flds h => Value.noConfusion h),
        renderForestList_cons_nonobj (fun flds h => Value.noConfusion h), ih]
    | num n =>
      rw [renderList_cons_nonobj (fun flds h => Value.noConfusion h),
        renderForestList_cons_nonobj (fun flds h => Value.noConfusion h), ih]
    | str s =>
      rw [renderList_cons_nonobj (fun flds h => Value.noConfusion h),
        renderForestList_cons_nonobj (fun flds h => Value.noConfusion h), ih]
    | arr xs =>
      rw [renderList_cons_nonobj (fun flds h => Value.noConfusion h),
        renderForestList_cons_nonobj (fun flds h => Value.noConfusion h), ih]

/-- `renderRec_before_ok` with the collection already resolved. -/
theorem renderRec_before_ok_cv {fs : FS} {t : Str} {ctx : Value} {fm : FM} {off : Nat}
    {em : EM} {cv : Value}
    (hf : findF t = some fm)
    (hs : scanEvents (eventsOf (t.drop fm.stop)) 0 = some off)
    (he : findEAt t (fm.stop + off) = some em)
    (hb : findF (t.take fm.start) = none)
    (hcv : collectionValue fs fm ctx = Except.ok cv) :
    renderRec fs t ctx =
      exAppend (renderVariables (t.take fm.start) ctx)
        (exSeq (renderList fs (sliceStr t fm.stop em.start) fm.item ctx (itemsOf cv))
          (renderRec fs (t.drop em.stop) ctx)) := by
  rw [renderRec_before_ok hf hs he hb, hcv]

/-- On flattenings of well-formed forests, the engine's recursive
renderer agrees with the claim's same-depth rendering (strong induction
on the forest size). -/
theorem renderRec_flatten_aux (fs : FS) : ∀ (k : Nat) (ns : List TNode),
    sizeOf ns ≤ k → forestWF ns → ∀ (ctx : Value),
    renderRec fs (flattenF ns) ctx = renderForest fs ns ctx := by
  intro k
  induction k with
  | zero =>
    intro ns hk hwf ctx
    exact absurd hk (by cases ns <;> simp)
  | succ k ih =>
    intro ns hk hwf ctx
    cases hsp : splitLoop ns with
    | mk pre opt =>
      cases opt with
      | none =>
        have hflat := splitLoop_none_flatten ns pre hsp
        rw [renderForest_none fs hsp, hflat]
        have hpre : (splitLoop ns).1 = pre := by rw [hsp]
        have h := preF_scan ns hwf [] 0
        rw [hpre, List.append_nil] at h
        have hfn : findF pre = none := by
          unfold findF
          rw [h]
          rfl
        exact renderRec_noloop hfn
      | some d =>
        obtain ⟨it, src, body, rest⟩ := d
        obtain ⟨hflat, hit, hitw, hsrc, hsrcp, hbody, hrest⟩ :=
          splitLoop_some ns pre it src body rest hwf hsp
        have hsz := splitLoop_size ns pre it src body rest hsp
        have hfm := findF_flatten ns hwf hsp
        have hsc := scan_flatten ns hwf hsp
        have hem := findEAt_flatten ns hwf hsp
        have hbefore : findF ((flattenF ns).take
            ((⟨pre.length, pre.length + (tagF it src).length, it, src,
              none⟩ : FM).start)) = none := by
          show findF ((flattenF ns).take pre.length) = none
          rw [take_flatten_pre ns hwf hsp]
          exact findF_pre_none ns hwf hsp
        have hBih : ∀ ctx', renderRec fs (flattenF body) ctx' =
            renderForest fs body ctx' :=
          fun ctx' => ih body (by omega) hbody ctx'
        have hRih : renderRec fs (flattenF rest) ctx = renderForest fs rest ctx :=
          ih rest (by omega) hrest ctx
        cases hres : resolvePath ctx src with
        | some cv =>
          have hcv : collectionValue fs
              (⟨pre.length, pre.length + (tagF it src).length, it, src,
                none⟩ : FM) ctx = Except.ok cv := by
            show (match resolvePath ctx src with
              | some v => Except.ok v
              | none => Except.ok (Value.arr [])) = Except.ok cv
            rw [hres]
          rw [renderRec_before_ok_cv hfm hsc hem hbefore hcv]
          rw [renderForest_some_res fs hsp hres]
          simp only [FM_start_mk, FM_stop_mk, FM_item_mk, EM_start_mk, EM_stop_mk]
          rw [take_flatten_pre ns hwf hsp]
          rw [slice_flatten_body ns hwf hsp]
          rw [drop_flatten_rest ns hwf hsp]
          rw [renderList_flatten_of fs body it hBih (itemsOf cv) ctx]
          rw [hRih]
        | none =>
          have hcv : collectionValue fs
              (⟨pre.length, pre.length + (tagF it src).length, it, src,
                none⟩ : FM) ctx = Except.ok (Value.arr []) := by
            show (match resolvePath ctx src with
              | some v => Except.ok v
              | none => Except.ok (Value.arr [])) = Except.ok (Value.arr [])
            rw [hres]
          rw [renderRec_before_ok_cv hfm hsc hem hbefore hcv]
          rw [renderForest_some_nores hsp hres]
          simp only [FM_start_mk, FM_stop_mk, FM_item_mk, EM_start_mk, EM_stop_mk]
          rw [take_flatten_pre ns hwf hsp]
          rw [slice_flatten_body ns hwf hsp]
          rw [drop_flatten_rest ns hwf hsp]
          rw [renderList_flatten_of fs body it hBih (itemsOf (Value.arr [])) ctx]
          rw [hRih]

/-- The engine renders any flattening of a well-formed forest exactly as
the claim's same-depth rendering does. -/
theorem renderRec_flattenF (fs : FS) (ns : List TNode) (hwf : forestWF ns)
    (ctx : Value) : renderRec fs (flattenF ns) ctx = renderForest fs ns ctx :=
  renderRec_flatten_aux fs (sizeOf ns) ns (Nat.le_refl _) hwf ctx

/-- A one-character line is a well-formed chunk when its character is not
whitespace and no tag literal occurs in it. -/
theorem chunkWF_single {c : Char} (hc : isWs c = false)
    (h1 : occursIn foreachLit [c, '\n'] = false)
    (h2 : occursIn endforLit [c, '\n'] = false) : chunkWF [c, '\n'] :=
  ⟨[], c, [], rfl, hc, by simp, by simp, h1, h2⟩

/-- C2, amended.  On templates that flatten a well-formed loop forest —
literal chunks ending in a newline whose last line has a non-whitespace
character and which contain no tag literal, and canonical one-line loop
tags, nested to any depth with any number of siblings — the claim holds:
(i) the engine's rendering equals the structural rendering `renderForest`
that renders `before`, then the body forest at the same nesting depth
once per element, then `after`; (ii) at the first loop, the engine's
loop-open match is the loop's own tag, the nesting-counter scan of the
following slice stops exactly at the same-depth loop-close tag (slice
offset `(flattenF body).length`, each further open incrementing and each
inner close decrementing the counter), and `find_at` re-locates exactly
that tag on the full template. -/
theorem claim2_nesting_amended :
    (∀ (fs : FS) (ns : List TNode) (ctx : Value), forestWF ns →
      renderRec fs (flattenF ns) ctx = renderForest fs ns ctx) ∧
    (∀ (ns : List TNode) (pre it src : Str) (body rest : List TNode), forestWF ns →
      splitLoop ns = (pre, some (it, src, body, rest)) →
      findF (flattenF ns) =
        some ⟨pre.length, pre.length + (tagF it src).length, it, src, none⟩ ∧
      scanEvents (eventsOf ((flattenF ns).drop (pre.length + (tagF it src).length))) 0 =
        some (flattenF body).length ∧
      findEAt (flattenF ns)
          (pre.length + (tagF it src).length + (flattenF body).length) =
        some ⟨pre.length + (tagF it src).length + (flattenF body).length,
          pre.length + (tagF it src).length + (flattenF body).length + 11⟩) := by
  constructor
  · intro fs ns ctx hwf
    exact renderRec_flattenF fs ns hwf ctx
  · intro ns pre it src body rest hwf hsp
    exact ⟨findF_flatten ns hwf hsp, scan_flatten ns hwf hsp, findEAt_flatten ns hwf hsp⟩

/-- Witness forest for the amended C2: a chunk, a loop containing a chunk,
a nested loop and a chunk, then a trailing chunk. -/
def nsC2 : List TNode :=
  [TNode.lit ("A\n".toList),
   TNode.loop ("x".toList) ("xs".toList)
     [TNode.lit ("B\n".toList),
      TNode.loop ("y".toList) ("ys".toList) [TNode.lit ("C\n".toList)],
      TNode.lit ("D\n".toList)],
   TNode.lit ("E\n".toList)]

/-- Witness context for the amended C2. -/
def ctxC2am : List (Str × Value) :=
  [("xs".toList, Value.arr [Value.str ("1".toList)]),
   ("ys".toList, Value.arr [Value.str ("a".toList)])]

theorem nsC2_wf : forestWF nsC2 :=
  ⟨chunkWF_single (by decide) (by decide) (by decide),
   ⟨by decide, by decide, by decide, by decide,
    chunkWF_single (by decide) (by decide) (by decide),
    ⟨by decide, by decide, by decide, by decide,
     chunkWF_single (by decide) (by decide) (by decide), trivial⟩,
    chunkWF_single (by decide) (by decide) (by decide), trivial⟩,
   chunkWF_single (by decide) (by decide) (by decide), trivial⟩

/-- C2 amended, witness: the doubly nested witness forest flattens to the
expected template text and the engine renders it to the structurally
expected output. -/
theorem claim2_nesting_amended_witness :
    forestWF nsC2 ∧
    flattenF nsC2 =
      ("A\n\x7b\x7bforeach x in xs\x7d\x7d\nB\n\x7b\x7bforeach y in ys\x7d\x7d\nC\n\x7b\x7bendfor\x7d\x7d\nD\n\x7b\x7bendfor\x7d\x7d\nE\n".toList) ∧
    renderRec noFiles (flattenF nsC2) (Value.obj ctxC2am) =
      some (Except.ok ("A\nB\nC\nD\nE\n".toList)) := by
  refine ⟨nsC2_wf, rfl, ?_⟩
  rw [claim2_nesting_amended.1 noFiles nsC2 (Value.obj ctxC2am) nsC2_wf]
  have hs0 : splitLoop nsC2 = ("A\n".toList, some ("x".toList, "xs".toList,
      [TNode.lit ("B\n".toList),
       TNode.loop ("y".toList) ("ys".toList) [TNode.lit ("C\n".toList)],
       TNode.lit ("D\n".toList)],
      [TNode.lit ("E\n".toList)])) := rfl
  rw [renderForest_some_res noFiles hs0
    (rfl : resolvePath (Value.obj ctxC2am) ("xs".toList) =
      some (Value.arr [Value.str ("1".toList)]))]
  rw [show itemsOf (Value.arr [Value.str ("1".toList)]) = [Value.str ("1".toList)] from rfl]
  rw [renderForestList_cons_obj, renderForestList_nil]
  have hs1 : splitLoop [TNode.lit ("B\n".toList),
      TNode.loop ("y".toList) ("ys".toList) [TNode.lit ("C\n".toList)],
      TNode.lit ("D\n".toList)] =
    ("B\n".toList, some ("y".toList, "ys".toList, [TNode.lit ("C\n".toList)],
      [TNode.lit ("D\n".toList)])) := rfl
  rw [renderForest_some_res noFiles hs1
    (rfl : resolvePath (Value.obj (insertKV ctxC2am ("x".toList)
        (Value.str ("1".toList)))) ("ys".toList) =
      some (Value.arr [Value.str ("a".toList)]))]
  rw [show itemsOf (Value.arr [Value.str ("a".toList)]) = [Value.str ("a".toList)] from rfl]
  rw [renderForestList_cons_obj, renderForestList_nil]
  rw [renderForest_none noFiles
    (rfl : splitLoop [TNode.lit ("C\n".toList)] = ("C\n".toList, none))]
  rw [renderForest_none noFiles
    (rfl : splitLoop [TNode.lit ("D\n".toList)] = ("D\n".toList, none))]
  rw [renderForest_none noFiles
    (rfl : splitLoop [TNode.lit ("E\n".toList)] = ("E\n".toList, none))]
  rfl

end Runtpl
